import Mathlib

/-!
Shallow embedding of the `connect4_solver` crate (board, win detection,
move heuristics, binary-heap move ordering, transposition table, and the
iterative-deepening null-window negamax solver), together with theorems
settling the frozen claims about its specification.

Machine-integer conventions used throughout the embedding:
* `u64` values (`pos`, `mask`, keys, bit masks) are modelled as `Nat`.
  Every value produced by the embedded operations is `< 2 ^ 50`
  (the board layout uses 49 bits), so no `u64` addition can overflow and
  the `% 2 ^ 64` reduction would be the identity; it is therefore omitted.
  The one bitwise complement (`!x` on `u64`) is modelled explicitly as
  `x ^^^ (2 ^ 64 - 1)`, which agrees with the hardware complement on all
  operands `< 2 ^ 64`.
* `i32` values (scores, alpha/beta bounds) stay within `[-64, 64]`, far from
  overflow, and are modelled as `Int`; Rust `/` on `i32` truncates towards
  zero and is modelled by `Int.tdiv`.
* `key as u32` is `% 2 ^ 32`; `x as u8` (applied to a provably nonnegative
  value in the source, but modelled faithfully for all inputs) is the low
  eight bits of the two's complement representation, i.e. `(x % 256).toNat`
  with `Int.emod`.
* `const fn` recursion and `while` loops are modelled with an explicit fuel
  argument so that every definition computes by kernel reduction; each use
  is documented with the bound that makes the fuel irrelevant.
-/

/-- Number of set bits, with fuel (`u64::count_ones`).  The value halves at
each step, so `fuel = n` always suffices. -/
def countOnesAux : Nat → Nat → Nat
  | 0, _ => 0
  | _, 0 => 0
  | fuel+1, n+1 => ((n+1) % 2) + countOnesAux fuel ((n+1) / 2)

/-- `u64::count_ones`. -/
def countOnes (n : Nat) : Nat := countOnesAux n n

/-- Bitwise complement on `u64` (`!x` in Rust), valid for `x < 2 ^ 64`. -/
def u64not (x : Nat) : Nat := x ^^^ (2 ^ 64 - 1)

/-- `board.rs`: `WIDTH`. -/
def WIDTH : Nat := 7

/-- `board.rs`: `HEIGHT`. -/
def HEIGHT : Nat := 6

/-- `board.rs`: the `Column` enum (`A = 0` … `G = 6`). -/
inductive Column : Type where
  | A | B | C | D | E | F | G
deriving DecidableEq, Repr

/-- The discriminant of a `Column` (`column as usize`). -/
def Column.toNat : Column → Nat
  | .A => 0 | .B => 1 | .C => 2 | .D => 3 | .E => 4 | .F => 5 | .G => 6

/-- `Column::from_repr` (derived by `FromRepr`). -/
def Column.from_repr : Nat → Option Column
  | 0 => some .A | 1 => some .B | 2 => some .C | 3 => some .D
  | 4 => some .E | 5 => some .F | 6 => some .G | _ => none

/-- `Column::iter()` (derived by `EnumIter`): declaration order. -/
def Column.iter : List Column := [.A, .B, .C, .D, .E, .F, .G]

/-- `board.rs`: `ScoredMove` (column plus heuristic score; the score is a
`u32`, always tiny, modelled as `Nat`). -/
structure ScoredMove where
  column : Column
  score : Nat
deriving DecidableEq, Repr

instance : Inhabited ScoredMove := ⟨⟨Column.A, 0⟩⟩

/-- The `Ord for ScoredMove` comparison: by score only (`self.score.cmp(&other.score)`);
this is `a <= b` as used by `BinaryHeap`'s sift routines. -/
def ScoredMove.le (a b : ScoredMove) : Bool := a.score ≤ b.score

/-- `board.rs`: the `BitBoard` struct. -/
structure BitBoard where
  n_moves : Nat
  pos : Nat
  mask : Nat
deriving DecidableEq, Repr

/-- `BitBoard::bottom` (recursive `const fn`): 1 on the bottom cell of each
of the first `width` columns. -/
def BitBoard.bottom : Nat → Nat → Nat
  | 0, _ => 0
  | width+1, height => (1 <<< ((height + 1) * width)) ||| BitBoard.bottom width height

/-- `BitBoard::BOTTOM_MASK`. -/
def BitBoard.BOTTOM_MASK : Nat := BitBoard.bottom WIDTH HEIGHT

/-- `BitBoard::BOARD_MASK`: 1 on every playable cell. -/
def BitBoard.BOARD_MASK : Nat := BitBoard.BOTTOM_MASK * ((1 <<< HEIGHT) - 1)

/-- `BitBoard::new()`. -/
def BitBoard.new : BitBoard := ⟨0, 0, 0⟩

/-- `BitBoard::bottom_mask_col`. -/
def BitBoard.bottom_mask_col (c : Column) : Nat := 1 <<< (c.toNat * (HEIGHT + 1))

/-- `BitBoard::column_mask`. -/
def BitBoard.column_mask (c : Column) : Nat :=
  ((1 <<< HEIGHT) - 1) <<< (c.toNat * (HEIGHT + 1))

/-- `BitBoard::top_mask_col`. -/
def BitBoard.top_mask_col (c : Column) : Nat :=
  1 <<< (HEIGHT - 1) <<< (c.toNat * (HEIGHT + 1))

/-- `BitBoard::possible_moves`. -/
def BitBoard.possible_moves (b : BitBoard) : Nat :=
  (b.mask + BitBoard.BOTTOM_MASK) &&& BitBoard.BOARD_MASK

/-- `BitBoard::compute_winning_position`: bitmask of the empty cells that
would complete a four-in-a-row for the side whose stones are `position`. -/
def BitBoard.compute_winning_position (position mask : Nat) : Nat :=
  let vertical := (position <<< 1) &&& (position <<< 2) &&& (position <<< 3)
  let m0 := vertical
  let horizontal1 := (position <<< (HEIGHT + 1)) &&& (position <<< (2 * (HEIGHT + 1)))
  let m1 := m0 ||| (horizontal1 &&& (position <<< (3 * (HEIGHT + 1))))
  let m2 := m1 ||| (horizontal1 &&& (position >>> (HEIGHT + 1)))
  let horizontal2 := (position >>> (HEIGHT + 1)) &&& (position >>> (2 * (HEIGHT + 1)))
  let m3 := m2 ||| (horizontal2 &&& (position >>> (3 * (HEIGHT + 1))))
  let m4 := m3 ||| (horizontal2 &&& (position <<< (HEIGHT + 1)))
  let diag1a := (position <<< HEIGHT) &&& (position <<< (2 * HEIGHT))
  let m5 := m4 ||| (diag1a &&& (position <<< (3 * HEIGHT)))
  let m6 := m5 ||| (diag1a &&& (position >>> HEIGHT))
  let diag1b := (position >>> HEIGHT) &&& (position >>> (2 * HEIGHT))
  let m7 := m6 ||| (diag1b &&& (position >>> (3 * HEIGHT)))
  let m8 := m7 ||| (diag1b &&& (position <<< HEIGHT))
  let diag2a := (position <<< (HEIGHT + 2)) &&& (position <<< (2 * (HEIGHT + 2)))
  let m9 := m8 ||| (diag2a &&& (position <<< (3 * (HEIGHT + 2))))
  let m10 := m9 ||| (diag2a &&& (position >>> (HEIGHT + 2)))
  let diag2b := (position >>> (HEIGHT + 2)) &&& (position >>> (2 * (HEIGHT + 2)))
  let m11 := m10 ||| (diag2b &&& (position >>> (3 * (HEIGHT + 2))))
  let m12 := m11 ||| (diag2b &&& (position <<< (HEIGHT + 2)))
  m12 &&& (mask ^^^ BitBoard.BOARD_MASK)

/-- `BitBoard::winning_position`. -/
def BitBoard.winning_position (b : BitBoard) : Nat :=
  BitBoard.compute_winning_position b.pos b.mask

/-- `BitBoard::opponent_winning_position`. -/
def BitBoard.opponent_winning_position (b : BitBoard) : Nat :=
  BitBoard.compute_winning_position (b.pos ^^^ b.mask) b.mask

/-- `impl Board for BitBoard`: `is_playable`. -/
def BitBoard.is_playable (b : BitBoard) (c : Column) : Bool :=
  b.mask &&& BitBoard.top_mask_col c = 0

/-- `impl Board for BitBoard`: `is_winning`. -/
def BitBoard.is_winning (b : BitBoard) (c : Column) : Bool :=
  b.possible_moves &&& b.winning_position &&& BitBoard.column_mask c ≠ 0

/-- `impl Board for BitBoard`: `number_of_moves`. -/
def BitBoard.number_of_moves (b : BitBoard) : Nat := b.n_moves

/-- `impl Board for BitBoard`: `play` (unchecked mutator; the returned
`u32` is the `n_moves` field of the result). -/
def BitBoard.play (b : BitBoard) (c : Column) : BitBoard :=
  { n_moves := b.n_moves + 1
    pos := b.pos ^^^ b.mask
    mask := b.mask ||| (b.mask + BitBoard.bottom_mask_col c) }

/-- `impl Board for BitBoard`: `key`. -/
def BitBoard.key (b : BitBoard) : Nat := b.pos + b.mask

/-- `impl Board for BitBoard`: `can_win_in_one_move`. -/
def BitBoard.can_win_in_one_move (b : BitBoard) : Bool :=
  b.possible_moves &&& b.winning_position ≠ 0

/-- `impl Board for BitBoard`: `possible_nonlosing_moves`.
The outer `Option` models the `assert!` at the entry: `none` is the panic
when the function is called while `can_win_in_one_move()` holds; `some none`
is the Rust `None` ("no non-losing move exists"); `some (some flags)` is
`Some(moves)` with `flags` indexed by column discriminant. -/
def BitBoard.possible_nonlosing_moves (b : BitBoard) :
    Option (Option (List Bool)) :=
  if b.can_win_in_one_move then none
  else
    let possible0 := b.possible_moves
    let opponent_win := b.opponent_winning_position
    let forced_moves := possible0 &&& opponent_win
    let possible1 :=
      if forced_moves ≠ 0 then forced_moves else possible0
    if forced_moves ≠ 0 ∧ forced_moves &&& (forced_moves - 1) ≠ 0 then
      some none
    else
      let possible := possible1 &&& u64not (opponent_win >>> 1)
      if possible = 0 then some none
      else
        some (some (Column.iter.map
          (fun c => possible &&& BitBoard.column_mask c ≠ 0)))

/-- `impl Board for BitBoard`: `score_move`. -/
def BitBoard.score_move (b : BitBoard) (c : Column) : ScoredMove :=
  let move_bitmask := (b.mask + BitBoard.bottom_mask_col c) &&& BitBoard.column_mask c
  let score := countOnes (BitBoard.compute_winning_position (b.pos ||| move_bitmask) b.mask)
  ⟨c, score⟩

/-- Folding a list of moves onto the empty `BitBoard` with the unchecked
`play` (`BitBoard::from_notation` replays columns in order). -/
def BitBoard.fromSeq (s : List Column) : BitBoard :=
  s.foldl BitBoard.play BitBoard.new

/-- Each move of the sequence is playable at the moment it is made
(builds on `BitBoard`, whose `play` performs no checks). -/
def playableSeq : BitBoard → List Column → Bool
  | _, [] => true
  | b, c :: cs => b.is_playable c && playableSeq (b.play c) cs

/-- Each move of the sequence is playable and not an immediately winning
move at the moment it is made: legal play that stops before a win. -/
def legalSeq : BitBoard → List Column → Bool
  | _, [] => true
  | b, c :: cs => b.is_playable c && !b.is_winning c && legalSeq (b.play c) cs

/-! ### `board/array_board.rs`: the reference array board -/

/-- `array_board.rs`: the `Slot` enum. -/
inductive Slot : Type where
  | Empty | P1 | P2
deriving DecidableEq, Repr

/-- `array_board.rs`: the `ArrayBoard` struct.  `slots` is row-major
(`slots[row][column]`), `height` counts the pieces in each column. -/
structure ArrayBoard where
  slots : List (List Slot)
  height : List Nat
  n_moves : Nat
deriving DecidableEq, Repr

/-- `ArrayBoard::new()`. -/
def ArrayBoard.new : ArrayBoard :=
  ⟨List.replicate HEIGHT (List.replicate WIDTH Slot.Empty),
   List.replicate WIDTH 0, 0⟩

/-- Read `slots[row][column]` (indices in range in every use below). -/
def ArrayBoard.slotAt (b : ArrayBoard) (row col : Nat) : Slot :=
  (b.slots.getD row []).getD col Slot.Empty

/-- Write `slots[row][column]`. -/
def ArrayBoard.setSlot (b : ArrayBoard) (row col : Nat) (v : Slot) : List (List Slot) :=
  b.slots.set row ((b.slots.getD row []).set col v)

/-- `ArrayBoard::get_current_player`. -/
def ArrayBoard.get_current_player (b : ArrayBoard) : Slot :=
  if b.n_moves % 2 = 0 then Slot.P1 else Slot.P2

/-- `impl Board for ArrayBoard`: `is_playable`. -/
def ArrayBoard.is_playable (b : ArrayBoard) (c : Column) : Bool :=
  b.height.getD c.toNat 0 < HEIGHT

/-- The inner `while` walk of `ArrayBoard::is_winning`: starting from
`(x, y)` it counts consecutive cells holding `player`, stepping by
`(dx, dy * dx)`, stopping at the border or at the first other cell.
The `x` coordinate is strictly monotonic, so the loop runs at most
`WIDTH` times; `fuel = WIDTH` is exact. -/
def ArrayBoard.count_walk (b : ArrayBoard) (player : Slot) :
    Nat → Int → Int → Int → Int → Nat
  | 0, _, _, _, _ => 0
  | fuel+1, x, y, dx, dy =>
    if 0 ≤ x ∧ x < (WIDTH : Int) ∧ 0 ≤ y ∧ y < (HEIGHT : Int) then
      if b.slotAt y.toNat x.toNat = player then
        1 + b.count_walk player fuel (x + dx) (y + dy * dx) dx dy
      else 0
    else 0

/-- `impl Board for ArrayBoard`: `is_winning` (naive line scan).  For each
slope `dy ∈ {-1, 0, 1}` the Rust code accumulates the two walks
(`dx = -1` then `dx = 1`) into one `n_adjacent` counter and tests `>= 3`
after each walk; that is equivalent to testing the sum once. -/
def ArrayBoard.is_winning (b : ArrayBoard) (c : Column) : Bool :=
  if ¬ b.is_playable c then false
  else
    let col := c.toNat
    let row := b.height.getD col 0
    let player := b.get_current_player
    let vertical := 3 ≤ row ∧ b.slotAt (row-1) col = player ∧
      b.slotAt (row-2) col = player ∧ b.slotAt (row-3) col = player
    let lineHit := fun (dy : Int) =>
      3 ≤ b.count_walk player WIDTH ((col : Int) + (-1)) ((row : Int) + (-1) * dy) (-1) dy
         + b.count_walk player WIDTH ((col : Int) + 1) ((row : Int) + 1 * dy) 1 dy
    decide vertical || decide (lineHit (-1)) || decide (lineHit 0) || decide (lineHit 1)

/-- `impl Board for ArrayBoard`: `play`.  Unlike `BitBoard::play`, this
mutator validates: it is a no-op (returning the unchanged move counter)
when the column is full or the move would win. -/
def ArrayBoard.play (b : ArrayBoard) (c : Column) : ArrayBoard :=
  if ¬ b.is_playable c ∨ b.is_winning c then b
  else
    let col := c.toNat
    let row := b.height.getD col 0
    let player := b.get_current_player
    { slots := b.setSlot row col player
      height := b.height.set col (row + 1)
      n_moves := b.n_moves + 1 }

/-- `impl Board for ArrayBoard`: `number_of_moves`. -/
def ArrayBoard.number_of_moves (b : ArrayBoard) : Nat := b.n_moves

/-- `ArrayBoard::from_notation`, over a column list. -/
def ArrayBoard.fromSeq (s : List Column) : ArrayBoard :=
  s.foldl ArrayBoard.play ArrayBoard.new

/-! ### Rust `std::collections::BinaryHeap`, as used by the solver

The solver's move ordering goes through `BinaryHeap<ScoredMove>`; the claims
about exploration order depend on its exact push/pop element movement, so the
`sift_up` / `sift_down_to_bottom` hole dance is reproduced verbatim.  The
heap is the backing `Vec` as a list, root at index 0. -/

/-- Read the backing vector (all accesses below are in bounds). -/
def hget (l : List ScoredMove) (i : Nat) : ScoredMove := l.getD i default

/-- `BinaryHeap::sift_up(start, pos)` on a vector whose `pos` entry is the
hole holding `e`; returns the updated vector.  `pos` strictly decreases, so
`fuel = pos + 1` always suffices. -/
def siftUpGo : Nat → List ScoredMove → ScoredMove → Nat → Nat → List ScoredMove
  | 0, l, e, pos, _ => l.set pos e
  | fuel+1, l, e, pos, start =>
    if pos > start ∧ ¬ (ScoredMove.le e (hget l ((pos - 1) / 2))) then
      siftUpGo fuel (l.set pos (hget l ((pos - 1) / 2))) e ((pos - 1) / 2) start
    else l.set pos e

/-- `BinaryHeap::push`: append, then sift up from the new slot. -/
def heapPush (l : List ScoredMove) (e : ScoredMove) : List ScoredMove :=
  siftUpGo (l.length + 1) (l ++ [e]) e l.length 0

/-- The hole-descent loop of `BinaryHeap::sift_down_to_bottom`: the hole at
`pos` walks to the bottom, always taking the larger child (the right one on
ties); returns the vector and the final hole position.  The hole index at
least doubles each step, so `fuel = len` suffices. -/
def sdtbGo : Nat → List ScoredMove → Nat → Nat → (List ScoredMove × Nat)
  | 0, l, pos, _ => (l, pos)
  | fuel+1, l, pos, len =>
    let child := 2 * pos + 1
    if child ≤ len - 2 then
      let child := child + (if ScoredMove.le (hget l child) (hget l (child + 1)) then 1 else 0)
      sdtbGo fuel (l.set pos (hget l child)) child len
    else
      if child = len - 1 then (l.set pos (hget l child), child) else (l, pos)

/-- `BinaryHeap::sift_down_to_bottom(pos = 0)` on a nonempty vector whose
root is the hole holding `e`. -/
def siftDownToBottom (l : List ScoredMove) (e : ScoredMove) : List ScoredMove :=
  let walked := sdtbGo l.length l 0 l.length
  siftUpGo (walked.2 + 1) walked.1 e walked.2 0

/-- `BinaryHeap::pop`: remove the last element, swap it into the root,
return the old root and sift the vector. -/
def heapPop (l : List ScoredMove) : Option (ScoredMove × List ScoredMove) :=
  match l.getLast? with
  | none => none
  | some last =>
    let rest := l.dropLast
    if rest.isEmpty then some (last, [])
    else some (hget rest 0, siftDownToBottom (rest.set 0 last) last)

/-- Popping a heap to exhaustion (`while let Some(..) = heap.pop()`); the
length shrinks by one per pop, so `fuel = length` is exact. -/
def popAllGo : Nat → List ScoredMove → List ScoredMove
  | 0, _ => []
  | fuel+1, l =>
    match heapPop l with
    | none => []
    | some (x, rest) => x :: popAllGo fuel rest

/-- The full pop sequence of a heap. -/
def popAll (l : List ScoredMove) : List ScoredMove := popAllGo l.length l

/-! ### `transposition_table.rs` -/

/-- `calc_next_prime`'s helper `med`. -/
def med (mn mx : Nat) : Nat := (mn + mx) / 2

/-- `has_factor(n, min, max)` (recursive `const fn`), with fuel: the
interval `[min, max)` splits at `med`, so any `fuel ≥ max` suffices. -/
def has_factor : Nat → Nat → Nat → Nat → Bool
  | 0, _, _, _ => false
  | fuel+1, n, mn, mx =>
    if mn * mn > n then false
    else if mn + 1 ≥ mx then n % mn = 0
    else has_factor fuel n mn (med mn mx) || has_factor fuel n (med mn mx) mx

/-- `calc_next_prime(n)` (recursive `const fn`), with fuel: by Bertrand's
postulate a prime lies in `[n, 2n]`, so `fuel ≥ n + 2` suffices. -/
def calc_next_prime : Nat → Nat → Nat
  | 0, n => n
  | fuel+1, n => if has_factor n n 2 n then calc_next_prime fuel (n + 1) else n

/-- `Params::<SIZE_BITS>::SIZE = calc_next_prime(1 << SIZE_BITS)`. -/
def Params.size (size_bits : Nat) : Nat :=
  calc_next_prime ((1 <<< size_bits) + 2) (1 <<< size_bits)

/-- `transposition_table.rs`: the table.  The backing arrays
(`keys : [u32; SIZE]`, `scores : [u8; SIZE]`) are modelled as functions so
that any capacity can be instantiated; `size` is the `SIZE` const generic
parameter (`Params::<SIZE_BITS>::SIZE` in the source). -/
structure TranspositionTable where
  size : Nat
  keys : Nat → Nat
  scores : Nat → Nat

/-- `TranspositionTable::new()`: zero-filled arrays. -/
def TranspositionTable.new (size : Nat) : TranspositionTable :=
  ⟨size, fun _ => 0, fun _ => 0⟩

/-- `TranspositionTable::get`. -/
def TranspositionTable.get (t : TranspositionTable) (key : Nat) : Option Nat :=
  let index := key % t.size
  let entry := t.keys index
  if entry = key % 2 ^ 32 then some (t.scores index) else none

/-- `TranspositionTable::set`. -/
def TranspositionTable.set (t : TranspositionTable) (key score : Nat) :
    TranspositionTable :=
  let index := key % t.size
  { t with
    keys := fun i => if i = index then key % 2 ^ 32 else t.keys i
    scores := fun i => if i = index then score else t.scores i }

/-- `TranspositionTable::clear`. -/
def TranspositionTable.clear (t : TranspositionTable) : TranspositionTable :=
  { t with keys := fun _ => 0, scores := fun _ => 0 }

/-! ### `solver.rs` -/

/-- `solver.rs`: `generate_move_order` (`const fn`), the center-out column
ordering table.  The `i32` index arithmetic is done in `Int`; the
`as usize` cast is `Int.toNat` (every produced value is in `0..WIDTH`, as
`generate_move_order_no_default` below certifies, so the cast never
truncates and `from_repr` never yields `none`, matching the
panic-free compile-time evaluation of the source). -/
def generate_move_order : List Column :=
  (List.range WIDTH).map (fun i =>
    (Column.from_repr
      ((3 - ((1 - 2 * ((i : Int) % 2)) * ((i : Int) + 1)).tdiv 2).toNat)).getD Column.A)

/-- `COLUMN_ORDER` in `solver.rs`. -/
def COLUMN_ORDER : List Column := generate_move_order

/-- `solver.rs`: the free function `score(n_moves)`:
`((WIDTH * HEIGHT + 1) as i32 - n_moves as i32) / 2`. -/
def score (n_moves : Nat) : Int := ((WIDTH * HEIGHT + 1 : Int) - n_moves).tdiv 2

/-- `MIN_SCORE` in `Solver::solve_impl`: `-((WIDTH * HEIGHT) as i32 / 2) + 3`. -/
def MIN_SCORE : Int := -((WIDTH * HEIGHT : Int).tdiv 2) + 3

/-- The `BinaryHeap` built in the expansion step of `Solver::solve_impl`:
the scored moves of the flagged columns, pushed in `COLUMN_ORDER`. -/
def buildHeap (b : BitBoard) (flags : List Bool) : List ScoredMove :=
  COLUMN_ORDER.foldl
    (fun h c => if flags.getD c.toNat false then heapPush h (b.score_move c) else h) []

/-- The `while let Some(...) = heap.pop()` loop of `Solver::solve_impl`,
parameterised over the recursive search call `recur` (which already carries
the fuel for the child calls).  Arguments: loop fuel (the heap length
shrinks by one per pop, so `heap.length + 1` suffices), board, heap,
`alpha`, `beta`, table, and the node counter accumulated so far.
Returns `(returned score, nodes searched, table)`; `none` propagates a
panic or fuel exhaustion from below. -/
def search_loop
    (recur : BitBoard → Int → Int → TranspositionTable →
      Option (Int × Nat × TranspositionTable)) :
    Nat → BitBoard → List ScoredMove → Int → Int → TranspositionTable → Nat →
    Option (Int × Nat × TranspositionTable)
  | 0, _, _, _, _, _, _ => none
  | lf+1, b, heap, alpha, beta, t, nodes =>
    match heapPop heap with
    | none =>
      let t' := t.set b.key (((alpha - MIN_SCORE + 1) % 256).toNat)
      some (alpha, nodes, t')
    | some (sm, rest) =>
      let next_position := b.play sm.column
      match recur next_position (-beta) (-alpha) t with
      | none => none
      | some (s, n2, t2) =>
        let sc := -s
        if sc ≥ beta then some (sc, nodes + n2, t2)
        else search_loop recur lf b rest (max alpha sc) beta t2 (nodes + n2)

/-- The upper clamp drawn from the transposition table in
`Solver::solve_impl` (`MIN_SCORE - 1 + score as i32` on a hit, the static
maximum `mx0` on a miss). -/
def table_clamp (t : TranspositionTable) (b : BitBoard) (mx0 : Int) : Int :=
  match t.get b.key with
  | some s => (s : Int) + MIN_SCORE - 1
  | none => mx0

/-- The body of `Solver::solve_impl` for one ply, dispatching on the
already-computed result of `possible_nonlosing_moves` (kept as an explicit
argument so that unfolding never forces symbolic bit arithmetic). -/
def solve_impl_dispatch
    (recur : BitBoard → Int → Int → TranspositionTable →
      Option (Int × Nat × TranspositionTable))
    (b : BitBoard) (alpha0 beta0 : Int) (t : TranspositionTable) :
    Option (Option (List Bool)) → Option (Int × Nat × TranspositionTable)
  | none => none
  | some none =>
    some ((-((WIDTH * HEIGHT : Int) - b.number_of_moves)).tdiv 2, 1, t)
  | some (some flags) =>
    if b.number_of_moves ≥ WIDTH * HEIGHT - 2 then some (0, 1, t)
    else
      let mn := (-((WIDTH * HEIGHT - 2 : Int) - b.number_of_moves)).tdiv 2
      let alpha := if alpha0 < mn then mn else alpha0
      if alpha0 < mn ∧ alpha ≥ beta0 then some (alpha, 1, t)
      else
        let mx0 := ((WIDTH * HEIGHT - 1 : Int) - b.number_of_moves).tdiv 2
        let mx := table_clamp t b mx0
        let beta := if beta0 > mx then mx else beta0
        if beta0 > mx ∧ alpha ≥ beta then some (alpha, 1, t)
        else
          let heap := buildHeap b flags
          search_loop recur (heap.length + 1) b heap alpha beta t 1

/-- The body of `Solver::solve_impl` for one ply, parameterised over the
recursive call `recur` made on the children. -/
def solve_impl_step
    (recur : BitBoard → Int → Int → TranspositionTable →
      Option (Int × Nat × TranspositionTable))
    (b : BitBoard) (alpha0 beta0 : Int) (t : TranspositionTable) :
    Option (Int × Nat × TranspositionTable) :=
  solve_impl_dispatch recur b alpha0 beta0 t b.possible_nonlosing_moves

/-- `Solver::solve_impl`, with fuel (iterated over `Nat.rec` so that one
ply unfolds by `rfl`).  Each recursive call is on a position with one more
stone, and the draw check stops recursion at 40 stones, so
`fuel ≥ 41 - n_moves` makes the fuel irrelevant (the totality theorem below
proves it).  Returns `(score, nodes searched, table)`; `none` models a
panic (the assert inside `possible_nonlosing_moves`) or fuel exhaustion. -/
def solve_impl : Nat → BitBoard → Int → Int → TranspositionTable →
    Option (Int × Nat × TranspositionTable) :=
  fun fuel =>
    @Nat.rec
      (fun _ => BitBoard → Int → Int → TranspositionTable →
        Option (Int × Nat × TranspositionTable))
      (fun _ _ _ _ => none)
      (fun _ recur => solve_impl_step recur)
      fuel

theorem solve_impl_zero (b : BitBoard) (alpha0 beta0 : Int)
    (t : TranspositionTable) : solve_impl 0 b alpha0 beta0 t = none := rfl

theorem solve_impl_succ (fuel : Nat) (b : BitBoard) (alpha0 beta0 : Int)
    (t : TranspositionTable) :
    solve_impl (fuel+1) b alpha0 beta0 t =
      solve_impl_step (solve_impl fuel) b alpha0 beta0 t := rfl

/-- The tail of one bisection iteration of `Solver::solve`, dispatching on
the already-computed result of the null-window probe. -/
def solve_loop_body
    (recur : BitBoard → Int → Int → Nat → TranspositionTable →
      Option (Int × Nat × TranspositionTable))
    (b : BitBoard) (mn mx : Int) (nodes : Nat) (mid : Int) :
    Option (Int × Nat × TranspositionTable) →
      Option (Int × Nat × TranspositionTable)
  | none => none
  | some (s, n, t2) =>
    if s > mid then recur b s mx (nodes + n) t2
    else recur b mn s (nodes + n) t2

/-- The `while min < max` bisection loop of `Solver::solve`, with fuel
(iterated over `Nat.rec` so that one iteration unfolds by `rfl`): the
interval shrinks strictly at every iteration, so any
`fuel ≥ max - min + 1` suffices (the driver below passes 64, and the
initial interval never exceeds 43). -/
def solve_loop : Nat → BitBoard → Int → Int → Nat → TranspositionTable →
    Option (Int × Nat × TranspositionTable) :=
  fun lf =>
    @Nat.rec
      (fun _ => BitBoard → Int → Int → Nat → TranspositionTable →
        Option (Int × Nat × TranspositionTable))
      (fun _ _ _ _ _ => none)
      (fun _ recur b mn mx nodes t =>
        if mn < mx then
          let mid0 := mn + (mx - mn).tdiv 2
          let mid :=
            if mid0 ≤ 0 ∧ mn.tdiv 2 < mid0 then mn.tdiv 2
            else if mid0 ≥ 0 ∧ mx.tdiv 2 > mid0 then mx.tdiv 2
            else mid0
          solve_loop_body recur b mn mx nodes mid (solve_impl 43 b mid (mid + 1) t)
        else some (mn, nodes, t))
      lf

/-- `Solver::solve`.  The table is the solver's `self.table`; the result
triple is `(SolveResult.score, SolveResult.nodes_searched, table)`. -/
def Solver.solve (b : BitBoard) (t : TranspositionTable) :
    Option (Int × Nat × TranspositionTable) :=
  if b.can_win_in_one_move then some (score b.number_of_moves, 1, t)
  else
    solve_loop 64 b
      ((-((WIDTH * HEIGHT : Int) - b.number_of_moves)).tdiv 2)
      (((WIDTH * HEIGHT + 1 : Int) - b.number_of_moves).tdiv 2)
      0 t

/-! ### Further definitions used by the claim statements -/

/-- The 7-bit lane with index `i` inside a 64-bit board word. -/
def lane (x i : Nat) : Nat := (x >>> (7 * i)) &&& 127

/-- The 7-bit lane of column `c` inside a 64-bit board word. -/
def laneOf (x : Nat) (c : Column) : Nat := lane x c.toNat

/-- The height of column `c` (number of stones) read off the mask lane. -/
def colHeight (mask : Nat) (c : Column) : Nat := countOnes (laneOf mask c)

/-- Assembling a board word from its list of 7-bit lanes (lane 0 lowest). -/
def ofLanes : List Nat → Nat
  | [] => 0
  | a :: rest => a + 2 ^ 7 * ofLanes rest

/-- The list of the seven lanes of a board word. -/
def lanesOf (x : Nat) : List Nat :=
  [lane x 0, lane x 1, lane x 2, lane x 3, lane x 4, lane x 5, lane x 6]

/-- The mask of a position whose seven column heights are given: each lane
carries the downward-closed stack pattern `2 ^ h - 1`. -/
def maskOfHeights (hs : List Nat) : Nat := ofLanes (hs.map fun h => 2 ^ h - 1)

/-- Structural invariant of a `BitBoard` reachable by `play` calls:
there are per-column heights (entries `≤ 6`) such that each mask lane is
the downward-closed stack pattern `2 ^ h - 1`, the current player's stones
are a subset of the occupied cells, and the move counter counts the
stones. -/
def BoardInv (b : BitBoard) : Prop :=
  ∃ h0 h1 h2 h3 h4 h5 h6 : Nat,
    h0 ≤ 6 ∧ h1 ≤ 6 ∧ h2 ≤ 6 ∧ h3 ≤ 6 ∧ h4 ≤ 6 ∧ h5 ≤ 6 ∧ h6 ≤ 6 ∧
    b.mask = maskOfHeights [h0, h1, h2, h3, h4, h5, h6] ∧
    b.pos &&& b.mask = b.pos ∧
    b.n_moves = h0 + h1 + h2 + h3 + h4 + h5 + h6

/-- `Slot` of the other player. -/
def Slot.flip : Slot → Slot
  | Slot.Empty => Slot.Empty
  | Slot.P1 => Slot.P2
  | Slot.P2 => Slot.P1

/-- The side to move of a bitboard, as a `Slot` (player 1 moves first). -/
def BitBoard.current_player (b : BitBoard) : Slot :=
  if b.n_moves % 2 = 0 then Slot.P1 else Slot.P2

/-- The slot contents encoded by a bitboard at cell `(x, y)`: `pos` holds
the current player's stones, `mask` all stones. -/
def cellOf (b : BitBoard) (x y : Nat) : Slot :=
  if b.mask.testBit (7 * x + y) then
    if b.pos.testBit (7 * x + y) then b.current_player else b.current_player.flip
  else Slot.Empty

/-- Simulation relation between the two `Board` implementations: the
array board has shape `6 × 7` and its heights, move counter and cell
contents read back the bitboard's. -/
structure Sim (bb : BitBoard) (ab : ArrayBoard) : Prop where
  inv : BoardInv bb
  nm : ab.n_moves = bb.n_moves
  hlen : ab.height.length = 7
  hgt : ∀ c : Column, ab.height.getD c.toNat 0 = colHeight bb.mask c
  slen : ab.slots.length = 6
  rlen : ∀ r ∈ ab.slots, r.length = 7
  cell : ∀ x y : Nat, x < 7 → y < 6 → ab.slotAt y x = cellOf bb x y

/-! ### Popcount and bit-concatenation lemmas -/

theorem countOnesAux_congr :
    ∀ n f1 f2, n ≤ f1 → n ≤ f2 → countOnesAux f1 n = countOnesAux f2 n := by
  intro n
  induction n using Nat.strong_induction_on with
  | _ n ih =>
    intro f1 f2 h1 h2
    match n, f1, f2, h1, h2 with
    | 0, f1, f2, _, _ => cases f1 <;> cases f2 <;> rfl
    | n+1, f1+1, f2+1, h1, h2 =>
      show (n+1) % 2 + countOnesAux f1 ((n+1)/2) = (n+1) % 2 + countOnesAux f2 ((n+1)/2)
      rw [ih ((n+1)/2) (by omega) f1 f2 (by omega) (by omega)]

theorem countOnes_zero : countOnes 0 = 0 := rfl

/-- The defining recurrence of `countOnes`, fuel eliminated. -/
theorem countOnes_rec (n : Nat) :
    countOnes n = if n = 0 then 0 else n % 2 + countOnes (n / 2) := by
  match n with
  | 0 => rfl
  | n+1 =>
    show (n+1) % 2 + countOnesAux n ((n+1)/2) = (n+1) % 2 + countOnesAux ((n+1)/2) ((n+1)/2)
    rw [countOnesAux_congr ((n+1)/2) n ((n+1)/2) (by omega) (le_refl _)]

theorem countOnes_eq_zero {n : Nat} : countOnes n = 0 ↔ n = 0 := by
  induction n using Nat.strong_induction_on with
  | _ n ih =>
    rw [countOnes_rec]
    by_cases h : n = 0
    · simp [h]
    · rw [if_neg h]
      constructor
      · intro hsum
        have h2 : countOnes (n / 2) = 0 := by omega
        have := (ih (n/2) (Nat.div_lt_self (Nat.pos_of_ne_zero h) one_lt_two)).mp h2
        omega
      · intro hn; exact absurd hn h

theorem countOnes_two_mul (n : Nat) : countOnes (2 * n) = countOnes n := by
  by_cases h : n = 0
  · subst h; rfl
  · rw [countOnes_rec, if_neg (by omega : ¬ (2 * n = 0)), Nat.mul_mod_right,
      Nat.mul_div_cancel_left _ (by norm_num : 0 < 2), Nat.zero_add]

theorem countOnes_two_mul_add_one (n : Nat) : countOnes (2 * n + 1) = countOnes n + 1 := by
  rw [countOnes_rec, if_neg (by omega : ¬ (2 * n + 1 = 0))]
  have h1 : (2 * n + 1) % 2 = 1 := by omega
  have h2 : (2 * n + 1) / 2 = n := by omega
  rw [h1, h2, Nat.add_comm]

theorem countOnes_concat {a : Nat} (k r : Nat) (h : a < 2 ^ k) :
    countOnes (a + 2 ^ k * r) = countOnes a + countOnes r := by
  induction k generalizing a r with
  | zero =>
    interval_cases a
    simp [countOnes_zero]
  | succ k ih =>
    have hpos : 0 < 2 ^ k := Nat.pos_pow_of_pos _ (by norm_num)
    have e1 : a + 2 ^ (k+1) * r = a + 2 * (2 ^ k * r) := by ring
    rw [e1]
    by_cases hz : a + 2 * (2 ^ k * r) = 0
    · have ha : a = 0 := by omega
      have hr2 : 2 ^ k * r = 0 := by omega
      have hr : r = 0 := by
        rcases Nat.mul_eq_zero.mp hr2 with h' | h'
        · omega
        · exact h'
      simp [ha, hr, countOnes_zero]
    · rw [countOnes_rec, if_neg hz]
      have hmod : (a + 2 * (2 ^ k * r)) % 2 = a % 2 := by omega
      have hdiv : (a + 2 * (2 ^ k * r)) / 2 = a / 2 + 2 ^ k * r := by omega
      have hlt : a / 2 < 2 ^ k := by
        have h' : a < 2 * 2 ^ k := by
          rw [pow_succ] at h
          omega
        omega
      rw [hmod, hdiv, ih r hlt]
      rw [countOnes_rec (n := a)]
      by_cases ha : a = 0
      · simp [ha, countOnes_zero]
      · rw [if_neg ha]; omega

theorem countOnes_two_pow (k : Nat) : countOnes (2 ^ k) = 1 := by
  have h := countOnes_concat (a := 0) k 1 (Nat.pos_pow_of_pos _ (by norm_num))
  simpa [countOnes_zero] using h

theorem countOnes_two_pow_sub_one (h : Nat) : countOnes (2 ^ h - 1) = h := by
  induction h with
  | zero => rfl
  | succ h ih =>
    have hp : 1 ≤ 2 ^ h := Nat.pos_pow_of_pos _ (by norm_num)
    have e : 2 ^ (h+1) - 1 = 2 * (2 ^ h - 1) + 1 := by
      rw [pow_succ]
      omega
    rw [e, countOnes_two_mul_add_one, ih]

theorem testBit_two_mul (a : Nat) (i : Nat) : (2 * a).testBit (i+1) = a.testBit i := by
  have : 2 * a = a <<< 1 := by rw [Nat.shiftLeft_eq]; ring
  rw [this, Nat.testBit_shiftLeft]
  simp

theorem testBit_two_mul_zero (a : Nat) : (2 * a).testBit 0 = false := by
  simp [Nat.testBit, Nat.mul_mod_right]

theorem testBit_two_mul_add_one (a : Nat) (i : Nat) :
    (2 * a + 1).testBit (i+1) = a.testBit i := by
  have h1 : (2 * a + 1) / 2 = a := by omega
  rw [Nat.testBit_succ, h1]

theorem testBit_two_mul_add_one_zero (a : Nat) : (2 * a + 1).testBit 0 = true := by
  simp [Nat.testBit]
  omega

theorem land_two_mul (a b : Nat) : (2 * a) &&& (2 * b) = 2 * (a &&& b) := by
  apply Nat.eq_of_testBit_eq
  intro i
  cases i with
  | zero => simp [testBit_two_mul_zero, Nat.testBit_land]
  | succ i => simp [Nat.testBit_land, testBit_two_mul]

theorem land_two_mul_add_one_left (a b : Nat) :
    (2 * a + 1) &&& (2 * b) = 2 * (a &&& b) := by
  apply Nat.eq_of_testBit_eq
  intro i
  cases i with
  | zero => simp [testBit_two_mul_zero, Nat.testBit_land]
  | succ i => simp [Nat.testBit_land, testBit_two_mul, testBit_two_mul_add_one]

theorem land_pred (n : Nat) (h : n ≠ 0) :
    countOnes (n &&& (n - 1)) = countOnes n - 1 := by
  induction n using Nat.strong_induction_on with
  | _ n ih =>
    rcases Nat.even_or_odd n with he | ho
    · obtain ⟨m, hm⟩ := he
      have hm2 : n = 2 * m := by omega
      subst hm2
      have hmne : m ≠ 0 := by omega
      have e1 : 2 * m - 1 = 2 * (m - 1) + 1 := by omega
      rw [e1, Nat.land_comm, land_two_mul_add_one_left]
      rw [countOnes_two_mul, countOnes_two_mul]
      rw [Nat.land_comm]
      exact ih m (by omega) hmne
    · obtain ⟨m, hm⟩ := ho
      subst hm
      have e1 : 2 * m + 1 - 1 = 2 * m := by omega
      rw [e1, land_two_mul_add_one_left, Nat.and_self]
      rw [countOnes_two_mul, countOnes_two_mul_add_one]
      omega

theorem countOnes_pos {n : Nat} (h : n ≠ 0) : 1 ≤ countOnes n := by
  rcases Nat.eq_zero_or_pos (countOnes n) with h0 | h1
  · exact absurd (countOnes_eq_zero.mp h0) h
  · exact h1

/-- The classic bit trick: `n & (n-1) = 0` iff `n` has at most one set bit. -/
theorem land_pred_eq_zero_iff (n : Nat) :
    n &&& (n - 1) = 0 ↔ countOnes n ≤ 1 := by
  by_cases h : n = 0
  · subst h; simp [countOnes_zero]
  · rw [← countOnes_eq_zero, land_pred n h]
    have := countOnes_pos h
    omega

theorem countOnes_eq_one_iff (n : Nat) :
    countOnes n = 1 ↔ ∃ k, n = 2 ^ k := by
  constructor
  · intro h
    induction n using Nat.strong_induction_on with
    | _ n ih =>
      rcases Nat.even_or_odd n with he | ho
      · obtain ⟨m, hm⟩ := he
        have hm2 : n = 2 * m := by omega
        subst hm2
        rw [countOnes_two_mul] at h
        have hmne : m ≠ 0 := by
          intro h0; subst h0; simp [countOnes_zero] at h
        obtain ⟨k, hk⟩ := ih m (by omega) h
        exact ⟨k + 1, by rw [hk]; ring⟩
      · obtain ⟨m, hm⟩ := ho
        subst hm
        rw [countOnes_two_mul_add_one] at h
        have : countOnes m = 0 := by omega
        have hm0 : m = 0 := countOnes_eq_zero.mp this
        subst hm0
        exact ⟨0, by norm_num⟩
  · rintro ⟨k, rfl⟩
    exact countOnes_two_pow k

/-- Bit `i` of the two-part number `a + 2 ^ k * r` (low part `a < 2 ^ k`). -/
theorem testBit_concat {a : Nat} (k r i : Nat) (h : a < 2 ^ k) :
    (a + 2 ^ k * r).testBit i =
      if i < k then a.testBit i else r.testBit (i - k) := by
  induction k generalizing a r i with
  | zero =>
    interval_cases a
    simp
  | succ k ih =>
    have e0 : 2 ^ (k+1) * r = 2 * (2 ^ k * r) := by ring
    have e1 : a + 2 ^ (k+1) * r = a % 2 + 2 * (a / 2 + 2 ^ k * r) := by
      rw [e0]
      omega
    cases i with
    | zero =>
      have hm : (a % 2 + 2 * (a / 2 + 2 ^ k * r)) % 2 = a % 2 := by
        rw [Nat.mul_comm 2 (a / 2 + 2 ^ k * r), Nat.add_mul_mod_self_right]
        omega
      rw [e1, if_pos (Nat.succ_pos k), Nat.testBit_zero, Nat.testBit_zero, hm]
    | succ i =>
      rw [e1, Nat.testBit_succ]
      have hd : (a % 2 + 2 * (a / 2 + 2 ^ k * r)) / 2 = a / 2 + 2 ^ k * r := by
        rw [Nat.mul_comm 2 (a / 2 + 2 ^ k * r),
          Nat.add_mul_div_right _ _ (by norm_num : (0:Nat) < 2),
          Nat.div_eq_of_lt (Nat.mod_lt a (by norm_num)), Nat.zero_add]
      rw [hd, ih (a := a / 2) r i (by rw [pow_succ] at h; omega)]
      by_cases hik : i < k
      · rw [if_pos hik, if_pos (by omega), Nat.testBit_succ]
      · rw [if_neg hik, if_neg (by omega)]
        congr 1
        omega

theorem concat_lt {a r : Nat} (k m : Nat) (ha : a < 2 ^ k) (hr : r < 2 ^ m) :
    a + 2 ^ k * r < 2 ^ (k + m) := by
  rw [pow_add]
  calc a + 2 ^ k * r < 2 ^ k + 2 ^ k * r := by omega
  _ = 2 ^ k * (r + 1) := by ring
  _ ≤ 2 ^ k * 2 ^ m := Nat.mul_le_mul_left _ (by omega)

theorem concat_land {a b : Nat} (k r s : Nat) (ha : a < 2 ^ k) (hb : b < 2 ^ k) :
    (a + 2 ^ k * r) &&& (b + 2 ^ k * s) = (a &&& b) + 2 ^ k * (r &&& s) := by
  apply Nat.eq_of_testBit_eq
  intro i
  rw [Nat.testBit_land, testBit_concat k r i ha, testBit_concat k s i hb,
    testBit_concat k (r &&& s) i (lt_of_le_of_lt Nat.and_le_left ha)]
  by_cases hik : i < k
  · simp [hik]
  · simp [hik, Nat.testBit_land]

theorem concat_lor {a b : Nat} (k r s : Nat) (ha : a < 2 ^ k) (hb : b < 2 ^ k) :
    (a + 2 ^ k * r) ||| (b + 2 ^ k * s) = (a ||| b) + 2 ^ k * (r ||| s) := by
  apply Nat.eq_of_testBit_eq
  intro i
  rw [Nat.testBit_lor, testBit_concat k r i ha, testBit_concat k s i hb,
    testBit_concat k (r ||| s) i (Nat.or_lt_two_pow ha hb)]
  by_cases hik : i < k
  · simp [hik]
  · simp [hik, Nat.testBit_lor]

theorem concat_xor {a b : Nat} (k r s : Nat) (ha : a < 2 ^ k) (hb : b < 2 ^ k) :
    (a + 2 ^ k * r) ^^^ (b + 2 ^ k * s) = (a ^^^ b) + 2 ^ k * (r ^^^ s) := by
  apply Nat.eq_of_testBit_eq
  intro i
  rw [Nat.testBit_xor, testBit_concat k r i ha, testBit_concat k s i hb,
    testBit_concat k (r ^^^ s) i (Nat.xor_lt_two_pow ha hb)]
  by_cases hik : i < k
  · simp [hik]
  · simp [hik, Nat.testBit_xor]

/-! ### Lane-assembly lemmas -/

theorem ofLanes_nil : ofLanes [] = 0 := rfl

theorem ofLanes_cons (a : Nat) (l : List Nat) :
    ofLanes (a :: l) = a + 2 ^ 7 * ofLanes l := rfl

theorem ofLanes_lt {l : List Nat} (h : ∀ x ∈ l, x < 128) :
    ofLanes l < 2 ^ (7 * l.length) := by
  induction l with
  | nil => simp [ofLanes_nil]
  | cons a rest ih =>
    have e : 7 * (a :: rest).length = 7 + 7 * rest.length := by
      simp [List.length_cons]
      ring
    rw [ofLanes_cons, e]
    exact concat_lt 7 (7 * rest.length) (h a (List.mem_cons_self a rest))
      (ih (fun x hx => h x (List.mem_cons_of_mem a hx)))

theorem testBit_ofLanes {l : List Nat} (h : ∀ x ∈ l, x < 128) (i r : Nat) (hr : r < 7) :
    (ofLanes l).testBit (7 * i + r) = (l.getD i 0).testBit r := by
  induction l generalizing i with
  | nil => simp [ofLanes_nil, Nat.zero_testBit]
  | cons a rest ih =>
    cases i with
    | zero =>
      rw [ofLanes_cons, testBit_concat 7 (ofLanes rest) _ (h a (List.mem_cons_self a rest)),
        if_pos (by omega)]
      simp
    | succ i =>
      have e : 7 * (i + 1) + r = 7 + (7 * i + r) := by ring
      rw [ofLanes_cons, e, testBit_concat 7 (ofLanes rest) _ (h a (List.mem_cons_self a rest)),
        if_neg (by omega)]
      have e2 : 7 + (7 * i + r) - 7 = 7 * i + r := by omega
      rw [e2, ih (fun x hx => h x (List.mem_cons_of_mem a hx)) i]
      simp

theorem ofLanes_zipWith_add (l1 l2 : List Nat) (h : l1.length = l2.length) :
    ofLanes (List.zipWith (· + ·) l1 l2) = ofLanes l1 + ofLanes l2 := by
  induction l1 generalizing l2 with
  | nil =>
    cases l2 with
    | nil => rfl
    | cons b bs => simp at h
  | cons a as ih =>
    cases l2 with
    | nil => simp at h
    | cons b bs =>
      simp only [List.zipWith_cons_cons, ofLanes_cons]
      rw [ih bs (by simpa using h)]
      ring

theorem ofLanes_zipWith_land (l1 l2 : List Nat) (h : l1.length = l2.length)
    (h1 : ∀ x ∈ l1, x < 128) (h2 : ∀ x ∈ l2, x < 128) :
    ofLanes l1 &&& ofLanes l2 = ofLanes (List.zipWith (· &&& ·) l1 l2) := by
  induction l1 generalizing l2 with
  | nil =>
    cases l2 with
    | nil => rfl
    | cons b bs => simp at h
  | cons a as ih =>
    cases l2 with
    | nil => simp at h
    | cons b bs =>
      simp only [List.zipWith_cons_cons, ofLanes_cons]
      rw [concat_land 7 _ _ (h1 a (List.mem_cons_self a as)) (h2 b (List.mem_cons_self b bs)),
        ih bs (by simpa using h) (fun x hx => h1 x (List.mem_cons_of_mem a hx))
          (fun x hx => h2 x (List.mem_cons_of_mem b hx))]

theorem ofLanes_zipWith_lor (l1 l2 : List Nat) (h : l1.length = l2.length)
    (h1 : ∀ x ∈ l1, x < 128) (h2 : ∀ x ∈ l2, x < 128) :
    ofLanes l1 ||| ofLanes l2 = ofLanes (List.zipWith (· ||| ·) l1 l2) := by
  induction l1 generalizing l2 with
  | nil =>
    cases l2 with
    | nil => rfl
    | cons b bs => simp at h
  | cons a as ih =>
    cases l2 with
    | nil => simp at h
    | cons b bs =>
      simp only [List.zipWith_cons_cons, ofLanes_cons]
      rw [concat_lor 7 _ _ (h1 a (List.mem_cons_self a as)) (h2 b (List.mem_cons_self b bs)),
        ih bs (by simpa using h) (fun x hx => h1 x (List.mem_cons_of_mem a hx))
          (fun x hx => h2 x (List.mem_cons_of_mem b hx))]

theorem ofLanes_zipWith_xor (l1 l2 : List Nat) (h : l1.length = l2.length)
    (h1 : ∀ x ∈ l1, x < 128) (h2 : ∀ x ∈ l2, x < 128) :
    ofLanes l1 ^^^ ofLanes l2 = ofLanes (List.zipWith (· ^^^ ·) l1 l2) := by
  induction l1 generalizing l2 with
  | nil =>
    cases l2 with
    | nil => rfl
    | cons b bs => simp at h
  | cons a as ih =>
    cases l2 with
    | nil => simp at h
    | cons b bs =>
      simp only [List.zipWith_cons_cons, ofLanes_cons]
      rw [concat_xor 7 _ _ (h1 a (List.mem_cons_self a as)) (h2 b (List.mem_cons_self b bs)),
        ih bs (by simpa using h) (fun x hx => h1 x (List.mem_cons_of_mem a hx))
          (fun x hx => h2 x (List.mem_cons_of_mem b hx))]

theorem countOnes_ofLanes {l : List Nat} (h : ∀ x ∈ l, x < 128) :
    countOnes (ofLanes l) = (l.map countOnes).sum := by
  induction l with
  | nil => simp [ofLanes_nil, countOnes_zero]
  | cons a rest ih =>
    rw [ofLanes_cons, countOnes_concat 7 _ (h a (List.mem_cons_self a rest)),
      ih (fun x hx => h x (List.mem_cons_of_mem a hx))]
    simp

theorem lane_ofLanes {l : List Nat} (h : ∀ x ∈ l, x < 128) (i : Nat) :
    lane (ofLanes l) i = l.getD i 0 := by
  induction l generalizing i with
  | nil =>
    simp [ofLanes_nil, lane]
  | cons a rest ih =>
    cases i with
    | zero =>
      show (ofLanes (a :: rest) >>> 0) &&& 127 = a
      rw [Nat.shiftRight_zero, ofLanes_cons]
      have h127 : (127 : Nat) = 2 ^ 7 - 1 := by norm_num
      rw [h127, Nat.and_pow_two_sub_one_eq_mod,
        Nat.mul_comm (2 ^ 7) (ofLanes rest), Nat.add_mul_mod_self_right]
      have := h a (List.mem_cons_self a rest)
      omega
    | succ i =>
      show (ofLanes (a :: rest) >>> (7 * (i + 1))) &&& 127 = rest.getD i 0
      have e : 7 * (i + 1) = 7 + 7 * i := by ring
      rw [ofLanes_cons, e, Nat.shiftRight_eq_div_pow, pow_add]
      have hdiv : (a + 2 ^ 7 * ofLanes rest) / (2 ^ 7 * 2 ^ (7 * i)) =
          ofLanes rest / 2 ^ (7 * i) := by
        rw [← Nat.div_div_eq_div_mul]
        congr 1
        rw [Nat.mul_comm (2^7) (ofLanes rest), Nat.add_mul_div_right _ _ (by norm_num : (0:Nat) < 2^7)]
        have := h a (List.mem_cons_self a rest)
        omega
      rw [hdiv]
      have := ih (fun x hx => h x (List.mem_cons_of_mem a hx)) i
      rw [lane, Nat.shiftRight_eq_div_pow] at this
      exact this

theorem lanesOf_mem_lt (x : Nat) : ∀ y ∈ lanesOf x, y < 128 := by
  intro y hy
  simp only [lanesOf, List.mem_cons, List.not_mem_nil, or_false] at hy
  have hgen : ∀ i, lane x i < 128 := by
    intro i
    have : lane x i ≤ 127 := Nat.and_le_right
    omega
  rcases hy with h | h | h | h | h | h | h <;> (subst h; exact hgen _)

theorem ofLanes_lanesOf {x : Nat} (h : x < 2 ^ 49) : ofLanes (lanesOf x) = x := by
  have hgen : ∀ i r, r < 7 → (lane x i).testBit r = x.testBit (7 * i + r) := by
    intro i r hrlt
    rw [lane, Nat.testBit_land, Nat.testBit_shiftRight]
    have h127 : Nat.testBit 127 r = true := by
      interval_cases r <;> rfl
    rw [h127, Bool.and_true]
  have hof : ofLanes (lanesOf x) < 2 ^ 49 := by
    have hlt := ofLanes_lt (lanesOf_mem_lt x)
    have hlen : (lanesOf x).length = 7 := rfl
    rw [hlen] at hlt
    exact hlt
  apply Nat.eq_of_testBit_eq
  intro k
  by_cases hk : k < 49
  · have e : k = 7 * (k / 7) + k % 7 := by omega
    rw [e, testBit_ofLanes (lanesOf_mem_lt x) (k / 7) (k % 7) (by omega)]
    have hi : k / 7 < 7 := by omega
    interval_cases hq : (k / 7) <;>
      simp only [lanesOf, List.getD_cons_zero, List.getD_cons_succ] <;>
      rw [hgen _ _ (by omega)]
  · rw [Nat.testBit_eq_false_of_lt
      (lt_of_lt_of_le h (Nat.pow_le_pow_right (by norm_num) (by omega))),
      Nat.testBit_eq_false_of_lt
      (lt_of_lt_of_le hof (Nat.pow_le_pow_right (by norm_num) (by omega)))]

/-! ### Board-structure lemmas -/

theorem two_pow_sub_one_add_one (h : Nat) : (2 ^ h - 1) + 1 = 2 ^ h := by
  have := Nat.pos_pow_of_pos h (by norm_num : 0 < 2)
  omega

theorem two_pow_sub_one_lt_128 {h : Nat} (hh : h ≤ 7) : 2 ^ h - 1 < 128 := by
  have : 2 ^ h ≤ 2 ^ 7 := Nat.pow_le_pow_right (by norm_num) hh
  omega

theorem two_pow_lt_128 {h : Nat} (hh : h ≤ 6) : 2 ^ h < 128 := by
  have : 2 ^ h ≤ 2 ^ 6 := Nat.pow_le_pow_right (by norm_num) hh
  omega

theorem pow_land_63 {h : Nat} (hh : h ≤ 6) :
    2 ^ h &&& 63 = if h ≤ 5 then 2 ^ h else 0 := by
  interval_cases h <;> decide

theorem pow_sub_one_land_63 {h : Nat} (hh : h ≤ 6) : (2 ^ h - 1) &&& 63 = 2 ^ h - 1 := by
  interval_cases h <;> decide

theorem pow_sub_one_lor_pow {h : Nat} (hh : h ≤ 5) :
    (2 ^ h - 1) ||| 2 ^ h = 2 ^ (h + 1) - 1 := by
  interval_cases h <;> decide

theorem BOTTOM_eq : BitBoard.BOTTOM_MASK = ofLanes [1, 1, 1, 1, 1, 1, 1] := by decide

theorem BOARD_eq : BitBoard.BOARD_MASK = ofLanes [63, 63, 63, 63, 63, 63, 63] := by decide

/-- `BitBoard.new` satisfies the invariant (all heights 0). -/
theorem boardInv_new : BoardInv BitBoard.new :=
  ⟨0, 0, 0, 0, 0, 0, 0, by norm_num, by norm_num, by norm_num, by norm_num,
    by norm_num, by norm_num, by norm_num, by decide, by decide, by decide⟩

/-- Heights are bounded lanes. -/
theorem heights_lanes_lt {h0 h1 h2 h3 h4 h5 h6 : Nat}
    (b0 : h0 ≤ 6) (b1 : h1 ≤ 6) (b2 : h2 ≤ 6) (b3 : h3 ≤ 6) (b4 : h4 ≤ 6)
    (b5 : h5 ≤ 6) (b6 : h6 ≤ 6) :
    ∀ x ∈ (([h0, h1, h2, h3, h4, h5, h6] : List Nat).map fun h => 2 ^ h - 1), x < 128 := by
  intro x hx
  simp only [List.map_cons, List.map_nil, List.mem_cons, List.not_mem_nil, or_false] at hx
  rcases hx with rfl | rfl | rfl | rfl | rfl | rfl | rfl <;>
    exact two_pow_sub_one_lt_128 (by omega)

/-- Under the invariant, `colHeight` reads back the height of each column. -/
theorem colHeight_eq {b : BitBoard} {h0 h1 h2 h3 h4 h5 h6 : Nat}
    (b0 : h0 ≤ 6) (b1 : h1 ≤ 6) (b2 : h2 ≤ 6) (b3 : h3 ≤ 6) (b4 : h4 ≤ 6)
    (b5 : h5 ≤ 6) (b6 : h6 ≤ 6)
    (hm : b.mask = maskOfHeights [h0, h1, h2, h3, h4, h5, h6]) (c : Column) :
    colHeight b.mask c = [h0, h1, h2, h3, h4, h5, h6].getD c.toNat 0 := by
  have hlt := heights_lanes_lt b0 b1 b2 b3 b4 b5 b6
  have hlane := lane_ofLanes hlt c.toNat
  rw [colHeight, laneOf, hm, maskOfHeights, hlane]
  cases c <;>
    simp only [Column.toNat, List.map_cons, List.map_nil, List.getD_cons_zero,
      List.getD_cons_succ] <;>
    exact countOnes_two_pow_sub_one _

/-- Under the invariant, bit `(c, r)` of the mask says `r < height c`. -/
theorem mask_testBit {b : BitBoard} {h0 h1 h2 h3 h4 h5 h6 : Nat}
    (b0 : h0 ≤ 6) (b1 : h1 ≤ 6) (b2 : h2 ≤ 6) (b3 : h3 ≤ 6) (b4 : h4 ≤ 6)
    (b5 : h5 ≤ 6) (b6 : h6 ≤ 6)
    (hm : b.mask = maskOfHeights [h0, h1, h2, h3, h4, h5, h6]) (c : Column) (r : Nat)
    (hr : r < 7) :
    b.mask.testBit (7 * c.toNat + r) =
      decide (r < [h0, h1, h2, h3, h4, h5, h6].getD c.toNat 0) := by
  have hlt := heights_lanes_lt b0 b1 b2 b3 b4 b5 b6
  rw [hm, maskOfHeights, testBit_ofLanes hlt c.toNat r hr]
  cases c <;>
    simp only [Column.toNat, List.map_cons, List.map_nil, List.getD_cons_zero,
      List.getD_cons_succ] <;>
    exact Nat.testBit_two_pow_sub_one _ _

theorem and_two_pow_eq_zero_iff (x k : Nat) :
    x &&& 2 ^ k = 0 ↔ x.testBit k = false := by
  rw [Nat.and_two_pow]
  cases hb : x.testBit k
  · simp
  · simp only [Bool.toNat_true, Nat.one_mul]
    have hpos : 0 < 2 ^ k := Nat.pos_pow_of_pos _ (by norm_num)
    constructor
    · intro h
      omega
    · intro h
      exact absurd h (by simp)

/-- Under the invariant, `is_playable` is exactly `height ≤ 5`. -/
theorem is_playable_iff {b : BitBoard} {h0 h1 h2 h3 h4 h5 h6 : Nat}
    (b0 : h0 ≤ 6) (b1 : h1 ≤ 6) (b2 : h2 ≤ 6) (b3 : h3 ≤ 6) (b4 : h4 ≤ 6)
    (b5 : h5 ≤ 6) (b6 : h6 ≤ 6)
    (hm : b.mask = maskOfHeights [h0, h1, h2, h3, h4, h5, h6]) (c : Column) :
    b.is_playable c = true ↔ [h0, h1, h2, h3, h4, h5, h6].getD c.toNat 0 ≤ 5 := by
  have htop : BitBoard.top_mask_col c = 2 ^ (7 * c.toNat + 5) := by
    cases c <;> rfl
  have hbit := mask_testBit b0 b1 b2 b3 b4 b5 b6 hm c 5 (by norm_num)
  rw [BitBoard.is_playable, htop, decide_eq_true_eq, and_two_pow_eq_zero_iff, hbit,
    decide_eq_false_iff_not]
  omega

/-- Under the invariant, `possible_moves` has exactly the landing bit of
each non-full column. -/
theorem possible_moves_eq {b : BitBoard} {h0 h1 h2 h3 h4 h5 h6 : Nat}
    (b0 : h0 ≤ 6) (b1 : h1 ≤ 6) (b2 : h2 ≤ 6) (b3 : h3 ≤ 6) (b4 : h4 ≤ 6)
    (b5 : h5 ≤ 6) (b6 : h6 ≤ 6)
    (hm : b.mask = maskOfHeights [h0, h1, h2, h3, h4, h5, h6]) :
    b.possible_moves =
      ofLanes (([h0, h1, h2, h3, h4, h5, h6] : List Nat).map
        fun h => if h ≤ 5 then 2 ^ h else 0) := by
  have hone : ∀ h : Nat, (2 ^ h - 1) + 1 = 2 ^ h := two_pow_sub_one_add_one
  have hadd : b.mask + BitBoard.BOTTOM_MASK =
      ofLanes (([h0, h1, h2, h3, h4, h5, h6] : List Nat).map fun h => 2 ^ h) := by
    rw [hm, maskOfHeights, BOTTOM_eq,
      ← ofLanes_zipWith_add _ _ (by simp)]
    simp only [List.map_cons, List.map_nil, List.zipWith_cons_cons, List.zipWith_nil_right,
      hone]
  rw [BitBoard.possible_moves, hadd, BOARD_eq,
    ofLanes_zipWith_land _ _ (by simp) ?hb1 ?hb2]
  case hb1 =>
    intro x hx
    simp only [List.map_cons, List.map_nil, List.mem_cons, List.not_mem_nil, or_false] at hx
    rcases hx with rfl | rfl | rfl | rfl | rfl | rfl | rfl <;> exact two_pow_lt_128 (by omega)
  case hb2 =>
    intro x hx
    simp only [List.mem_cons, List.not_mem_nil, or_false] at hx
    rcases hx with rfl | rfl | rfl | rfl | rfl | rfl | rfl <;> norm_num
  simp only [List.map_cons, List.map_nil, List.zipWith_cons_cons, List.zipWith_nil_right,
    pow_land_63 b0, pow_land_63 b1, pow_land_63 b2, pow_land_63 b3, pow_land_63 b4,
    pow_land_63 b5, pow_land_63 b6]

/-- Landing-bit view of `possible_moves`. -/
theorem possible_moves_testBit {b : BitBoard} {h0 h1 h2 h3 h4 h5 h6 : Nat}
    (b0 : h0 ≤ 6) (b1 : h1 ≤ 6) (b2 : h2 ≤ 6) (b3 : h3 ≤ 6) (b4 : h4 ≤ 6)
    (b5 : h5 ≤ 6) (b6 : h6 ≤ 6)
    (hm : b.mask = maskOfHeights [h0, h1, h2, h3, h4, h5, h6]) (c : Column) (r : Nat)
    (hr : r < 7) :
    b.possible_moves.testBit (7 * c.toNat + r) =
      decide (r = [h0, h1, h2, h3, h4, h5, h6].getD c.toNat 0 ∧ r ≤ 5) := by
  rw [possible_moves_eq b0 b1 b2 b3 b4 b5 b6 hm]
  have hbnd : ∀ x ∈ (([h0, h1, h2, h3, h4, h5, h6] : List Nat).map
      fun h => if h ≤ 5 then 2 ^ h else 0), x < 128 := by
    intro x hx
    simp only [List.map_cons, List.map_nil, List.mem_cons, List.not_mem_nil, or_false] at hx
    rcases hx with rfl | rfl | rfl | rfl | rfl | rfl | rfl <;>
      (split <;> [exact two_pow_lt_128 (by omega); norm_num])
  rw [testBit_ofLanes hbnd c.toNat r hr]
  have key : ∀ h : Nat, h ≤ 6 →
      (if h ≤ 5 then 2 ^ h else 0).testBit r = decide (r = h ∧ r ≤ 5) := by
    intro h hh
    by_cases h5 : h ≤ 5
    · rw [if_pos h5, Nat.testBit_two_pow]
      by_cases hrh : r = h
      · subst hrh; simp [h5]
      · have : ¬ h = r := fun he => hrh he.symm
        simp [hrh, this]
    · rw [if_neg h5, Nat.zero_testBit]
      have : ¬ (r = h ∧ r ≤ 5) := by omega
      simp [this]
  cases c <;>
    simp only [Column.toNat, List.map_cons, List.map_nil, List.getD_cons_zero,
      List.getD_cons_succ] <;>
    [exact key h0 b0; exact key h1 b1; exact key h2 b2; exact key h3 b3;
     exact key h4 b4; exact key h5 b5; exact key h6 b6]

theorem pow_sub_one_add_pow (h : Nat) : (2 ^ h - 1) + 2 ^ h = 2 ^ (h + 1) - 1 := by
  have e : (2:Nat) ^ (h+1) = 2 * 2 ^ h := by rw [pow_succ]; ring
  have hp : 1 ≤ (2:Nat) ^ h := Nat.pos_pow_of_pos _ (by norm_num)
  omega

/-- Bit-subset in `&&&` form implies bit-level inclusion. -/
theorem testBit_of_land_eq {x y : Nat} (h : x &&& y = x) {i : Nat}
    (hx : x.testBit i = true) : y.testBit i = true := by
  have := congrArg (fun z => z.testBit i) h
  simp only [Nat.testBit_land] at this
  cases hy : y.testBit i
  · rw [hx, hy] at this
    simp at this
  · rfl

/-- A subset of the mask stays a subset of any superset of the mask. -/
theorem xor_mask_land_superset {pos mask y : Nat} (hsub : pos &&& mask = pos) :
    (pos ^^^ mask) &&& (mask ||| y) = pos ^^^ mask := by
  apply Nat.eq_of_testBit_eq
  intro i
  rw [Nat.testBit_land, Nat.testBit_lor]
  cases hx : (pos ^^^ mask).testBit i
  · simp
  · rw [Nat.testBit_xor] at hx
    have hm : mask.testBit i = true := by
      cases hm : mask.testBit i
      · cases hp : pos.testBit i
        · rw [hp, hm] at hx
          simp at hx
        · exact absurd (testBit_of_land_eq hsub hp) (by rw [hm]; simp)
      · rfl
    simp [hm]

/-- Playing a playable column: invariant preservation plus the exact
arithmetic effect (one stone added at the landing cell, that column's
height incremented). -/
theorem boardInv_play {b : BitBoard} (hb : BoardInv b) (c : Column)
    (hp : b.is_playable c = true) :
    BoardInv (b.play c) ∧
    (b.play c).mask = b.mask + 2 ^ (7 * c.toNat + colHeight b.mask c) ∧
    colHeight b.mask c ≤ 5 ∧
    (b.play c).n_moves = b.n_moves + 1 ∧
    (∀ d : Column, colHeight (b.play c).mask d =
      if d = c then colHeight b.mask c + 1 else colHeight b.mask d) := by
  obtain ⟨h0, h1, h2, h3, h4, h5, h6, b0, b1, b2, b3, b4, b5, b6, hm, hpos, hn⟩ := hb
  have hch := colHeight_eq b0 b1 b2 b3 b4 b5 b6 hm c
  rw [is_playable_iff b0 b1 b2 b3 b4 b5 b6 hm] at hp
  have hbnd := heights_lanes_lt b0 b1 b2 b3 b4 b5 b6
  cases c
  case A =>
    simp only [Column.toNat, List.getD_cons_zero, List.getD_cons_succ] at hch hp
    rw [hch]
    have hbot : BitBoard.bottom_mask_col Column.A = ofLanes [1, 0, 0, 0, 0, 0, 0] := by decide
    have hadd : b.mask + BitBoard.bottom_mask_col Column.A =
        ofLanes [2^h0, 2^h1-1, 2^h2-1, 2^h3-1, 2^h4-1, 2^h5-1, 2^h6-1] := by
      rw [hm, maskOfHeights, hbot, ← ofLanes_zipWith_add _ _ (by simp)]
      simp only [List.map_cons, List.map_nil, List.zipWith_cons_cons, List.zipWith_nil_right,
        Nat.add_zero, two_pow_sub_one_add_one]
    have hmask2 : (b.play Column.A).mask =
        maskOfHeights [h0 + 1, h1, h2, h3, h4, h5, h6] := by
      show b.mask ||| (b.mask + BitBoard.bottom_mask_col Column.A) = _
      rw [hadd, hm, maskOfHeights, maskOfHeights,
        ofLanes_zipWith_lor _ _ (by simp) (by simpa [maskOfHeights] using hbnd) ?bnd2]
      case bnd2 =>
        intro x hx
        simp only [List.mem_cons, List.not_mem_nil, or_false] at hx
        rcases hx with rfl | rfl | rfl | rfl | rfl | rfl | rfl <;>
          first
          | exact two_pow_sub_one_lt_128 (by omega)
          | exact two_pow_lt_128 (by omega)
      simp only [List.map_cons, List.map_nil, List.zipWith_cons_cons, List.zipWith_nil_right,
        Nat.or_self, pow_sub_one_lor_pow hp]
    have hchild : ∀ d : Column, colHeight (b.play Column.A).mask d =
        if d = Column.A then h0 + 1 else colHeight b.mask d := by
      intro d
      have hchp := colHeight_eq b0 b1 b2 b3 b4 b5 b6 hm d
      rw [colHeight_eq (by omega) b1 b2 b3 b4 b5 b6 hmask2 d, hchp]
      cases d <;>
        simp [Column.toNat, List.getD_cons_zero, List.getD_cons_succ]
    refine ⟨⟨h0 + 1, h1, h2, h3, h4, h5, h6, by omega, b1, b2, b3, b4, b5, b6, hmask2, ?_, ?_⟩, ?_, hp, ?_, hchild⟩
    · show (b.pos ^^^ b.mask) &&& (b.mask ||| _) = b.pos ^^^ b.mask
      exact xor_mask_land_superset hpos
    · have e1 : (b.play Column.A).n_moves = b.n_moves + 1 := rfl
      omega
    · rw [hmask2, hm, maskOfHeights, maskOfHeights,
        show (7 * Column.A.toNat + h0 = 0 + h0) from by simp [Column.toNat]]
      have hX : (2:Nat) ^ (0 + h0) = ofLanes [2 ^ h0, 0, 0, 0, 0, 0, 0] := by
        simp [ofLanes, pow_add]
        try ring
      rw [hX, ← ofLanes_zipWith_add _ _ (by simp)]
      simp only [List.map_cons, List.map_nil, List.zipWith_cons_cons, List.zipWith_nil_right,
        Nat.add_zero, pow_sub_one_add_pow]
    · rfl
  case B =>
    simp only [Column.toNat, List.getD_cons_zero, List.getD_cons_succ] at hch hp
    rw [hch]
    have hbot : BitBoard.bottom_mask_col Column.B = ofLanes [0, 1, 0, 0, 0, 0, 0] := by decide
    have hadd : b.mask + BitBoard.bottom_mask_col Column.B =
        ofLanes [2^h0-1, 2^h1, 2^h2-1, 2^h3-1, 2^h4-1, 2^h5-1, 2^h6-1] := by
      rw [hm, maskOfHeights, hbot, ← ofLanes_zipWith_add _ _ (by simp)]
      simp only [List.map_cons, List.map_nil, List.zipWith_cons_cons, List.zipWith_nil_right,
        Nat.add_zero, two_pow_sub_one_add_one]
    have hmask2 : (b.play Column.B).mask =
        maskOfHeights [h0, h1 + 1, h2, h3, h4, h5, h6] := by
      show b.mask ||| (b.mask + BitBoard.bottom_mask_col Column.B) = _
      rw [hadd, hm, maskOfHeights, maskOfHeights,
        ofLanes_zipWith_lor _ _ (by simp) (by simpa [maskOfHeights] using hbnd) ?bnd2]
      case bnd2 =>
        intro x hx
        simp only [List.mem_cons, List.not_mem_nil, or_false] at hx
        rcases hx with rfl | rfl | rfl | rfl | rfl | rfl | rfl <;>
          first
          | exact two_pow_sub_one_lt_128 (by omega)
          | exact two_pow_lt_128 (by omega)
      simp only [List.map_cons, List.map_nil, List.zipWith_cons_cons, List.zipWith_nil_right,
        Nat.or_self, pow_sub_one_lor_pow hp]
    have hchild : ∀ d : Column, colHeight (b.play Column.B).mask d =
        if d = Column.B then h1 + 1 else colHeight b.mask d := by
      intro d
      have hchp := colHeight_eq b0 b1 b2 b3 b4 b5 b6 hm d
      rw [colHeight_eq b0 (by omega) b2 b3 b4 b5 b6 hmask2 d, hchp]
      cases d <;>
        simp [Column.toNat, List.getD_cons_zero, List.getD_cons_succ]
    refine ⟨⟨h0, h1 + 1, h2, h3, h4, h5, h6, b0, by omega, b2, b3, b4, b5, b6, hmask2, ?_, ?_⟩, ?_, hp, ?_, hchild⟩
    · show (b.pos ^^^ b.mask) &&& (b.mask ||| _) = b.pos ^^^ b.mask
      exact xor_mask_land_superset hpos
    · have e1 : (b.play Column.B).n_moves = b.n_moves + 1 := rfl
      omega
    · rw [hmask2, hm, maskOfHeights, maskOfHeights,
        show (7 * Column.B.toNat + h1 = 7 + h1) from by simp [Column.toNat]]
      have hX : (2:Nat) ^ (7 + h1) = ofLanes [0, 2 ^ h1, 0, 0, 0, 0, 0] := by
        simp [ofLanes, pow_add]
        try ring
      rw [hX, ← ofLanes_zipWith_add _ _ (by simp)]
      simp only [List.map_cons, List.map_nil, List.zipWith_cons_cons, List.zipWith_nil_right,
        Nat.add_zero, pow_sub_one_add_pow]
    · rfl
  case C =>
    simp only [Column.toNat, List.getD_cons_zero, List.getD_cons_succ] at hch hp
    rw [hch]
    have hbot : BitBoard.bottom_mask_col Column.C = ofLanes [0, 0, 1, 0, 0, 0, 0] := by decide
    have hadd : b.mask + BitBoard.bottom_mask_col Column.C =
        ofLanes [2^h0-1, 2^h1-1, 2^h2, 2^h3-1, 2^h4-1, 2^h5-1, 2^h6-1] := by
      rw [hm, maskOfHeights, hbot, ← ofLanes_zipWith_add _ _ (by simp)]
      simp only [List.map_cons, List.map_nil, List.zipWith_cons_cons, List.zipWith_nil_right,
        Nat.add_zero, two_pow_sub_one_add_one]
    have hmask2 : (b.play Column.C).mask =
        maskOfHeights [h0, h1, h2 + 1, h3, h4, h5, h6] := by
      show b.mask ||| (b.mask + BitBoard.bottom_mask_col Column.C) = _
      rw [hadd, hm, maskOfHeights, maskOfHeights,
        ofLanes_zipWith_lor _ _ (by simp) (by simpa [maskOfHeights] using hbnd) ?bnd2]
      case bnd2 =>
        intro x hx
        simp only [List.mem_cons, List.not_mem_nil, or_false] at hx
        rcases hx with rfl | rfl | rfl | rfl | rfl | rfl | rfl <;>
          first
          | exact two_pow_sub_one_lt_128 (by omega)
          | exact two_pow_lt_128 (by omega)
      simp only [List.map_cons, List.map_nil, List.zipWith_cons_cons, List.zipWith_nil_right,
        Nat.or_self, pow_sub_one_lor_pow hp]
    have hchild : ∀ d : Column, colHeight (b.play Column.C).mask d =
        if d = Column.C then h2 + 1 else colHeight b.mask d := by
      intro d
      have hchp := colHeight_eq b0 b1 b2 b3 b4 b5 b6 hm d
      rw [colHeight_eq b0 b1 (by omega) b3 b4 b5 b6 hmask2 d, hchp]
      cases d <;>
        simp [Column.toNat, List.getD_cons_zero, List.getD_cons_succ]
    refine ⟨⟨h0, h1, h2 + 1, h3, h4, h5, h6, b0, b1, by omega, b3, b4, b5, b6, hmask2, ?_, ?_⟩, ?_, hp, ?_, hchild⟩
    · show (b.pos ^^^ b.mask) &&& (b.mask ||| _) = b.pos ^^^ b.mask
      exact xor_mask_land_superset hpos
    · have e1 : (b.play Column.C).n_moves = b.n_moves + 1 := rfl
      omega
    · rw [hmask2, hm, maskOfHeights, maskOfHeights,
        show (7 * Column.C.toNat + h2 = 14 + h2) from by simp [Column.toNat]]
      have hX : (2:Nat) ^ (14 + h2) = ofLanes [0, 0, 2 ^ h2, 0, 0, 0, 0] := by
        simp [ofLanes, pow_add]
        try ring
      rw [hX, ← ofLanes_zipWith_add _ _ (by simp)]
      simp only [List.map_cons, List.map_nil, List.zipWith_cons_cons, List.zipWith_nil_right,
        Nat.add_zero, pow_sub_one_add_pow]
    · rfl
  case D =>
    simp only [Column.toNat, List.getD_cons_zero, List.getD_cons_succ] at hch hp
    rw [hch]
    have hbot : BitBoard.bottom_mask_col Column.D = ofLanes [0, 0, 0, 1, 0, 0, 0] := by decide
    have hadd : b.mask + BitBoard.bottom_mask_col Column.D =
        ofLanes [2^h0-1, 2^h1-1, 2^h2-1, 2^h3, 2^h4-1, 2^h5-1, 2^h6-1] := by
      rw [hm, maskOfHeights, hbot, ← ofLanes_zipWith_add _ _ (by simp)]
      simp only [List.map_cons, List.map_nil, List.zipWith_cons_cons, List.zipWith_nil_right,
        Nat.add_zero, two_pow_sub_one_add_one]
    have hmask2 : (b.play Column.D).mask =
        maskOfHeights [h0, h1, h2, h3 + 1, h4, h5, h6] := by
      show b.mask ||| (b.mask + BitBoard.bottom_mask_col Column.D) = _
      rw [hadd, hm, maskOfHeights, maskOfHeights,
        ofLanes_zipWith_lor _ _ (by simp) (by simpa [maskOfHeights] using hbnd) ?bnd2]
      case bnd2 =>
        intro x hx
        simp only [List.mem_cons, List.not_mem_nil, or_false] at hx
        rcases hx with rfl | rfl | rfl | rfl | rfl | rfl | rfl <;>
          first
          | exact two_pow_sub_one_lt_128 (by omega)
          | exact two_pow_lt_128 (by omega)
      simp only [List.map_cons, List.map_nil, List.zipWith_cons_cons, List.zipWith_nil_right,
        Nat.or_self, pow_sub_one_lor_pow hp]
    have hchild : ∀ d : Column, colHeight (b.play Column.D).mask d =
        if d = Column.D then h3 + 1 else colHeight b.mask d := by
      intro d
      have hchp := colHeight_eq b0 b1 b2 b3 b4 b5 b6 hm d
      rw [colHeight_eq b0 b1 b2 (by omega) b4 b5 b6 hmask2 d, hchp]
      cases d <;>
        simp [Column.toNat, List.getD_cons_zero, List.getD_cons_succ]
    refine ⟨⟨h0, h1, h2, h3 + 1, h4, h5, h6, b0, b1, b2, by omega, b4, b5, b6, hmask2, ?_, ?_⟩, ?_, hp, ?_, hchild⟩
    · show (b.pos ^^^ b.mask) &&& (b.mask ||| _) = b.pos ^^^ b.mask
      exact xor_mask_land_superset hpos
    · have e1 : (b.play Column.D).n_moves = b.n_moves + 1 := rfl
      omega
    · rw [hmask2, hm, maskOfHeights, maskOfHeights,
        show (7 * Column.D.toNat + h3 = 21 + h3) from by simp [Column.toNat]]
      have hX : (2:Nat) ^ (21 + h3) = ofLanes [0, 0, 0, 2 ^ h3, 0, 0, 0] := by
        simp [ofLanes, pow_add]
        try ring
      rw [hX, ← ofLanes_zipWith_add _ _ (by simp)]
      simp only [List.map_cons, List.map_nil, List.zipWith_cons_cons, List.zipWith_nil_right,
        Nat.add_zero, pow_sub_one_add_pow]
    · rfl
  case E =>
    simp only [Column.toNat, List.getD_cons_zero, List.getD_cons_succ] at hch hp
    rw [hch]
    have hbot : BitBoard.bottom_mask_col Column.E = ofLanes [0, 0, 0, 0, 1, 0, 0] := by decide
    have hadd : b.mask + BitBoard.bottom_mask_col Column.E =
        ofLanes [2^h0-1, 2^h1-1, 2^h2-1, 2^h3-1, 2^h4, 2^h5-1, 2^h6-1] := by
      rw [hm, maskOfHeights, hbot, ← ofLanes_zipWith_add _ _ (by simp)]
      simp only [List.map_cons, List.map_nil, List.zipWith_cons_cons, List.zipWith_nil_right,
        Nat.add_zero, two_pow_sub_one_add_one]
    have hmask2 : (b.play Column.E).mask =
        maskOfHeights [h0, h1, h2, h3, h4 + 1, h5, h6] := by
      show b.mask ||| (b.mask + BitBoard.bottom_mask_col Column.E) = _
      rw [hadd, hm, maskOfHeights, maskOfHeights,
        ofLanes_zipWith_lor _ _ (by simp) (by simpa [maskOfHeights] using hbnd) ?bnd2]
      case bnd2 =>
        intro x hx
        simp only [List.mem_cons, List.not_mem_nil, or_false] at hx
        rcases hx with rfl | rfl | rfl | rfl | rfl | rfl | rfl <;>
          first
          | exact two_pow_sub_one_lt_128 (by omega)
          | exact two_pow_lt_128 (by omega)
      simp only [List.map_cons, List.map_nil, List.zipWith_cons_cons, List.zipWith_nil_right,
        Nat.or_self, pow_sub_one_lor_pow hp]
    have hchild : ∀ d : Column, colHeight (b.play Column.E).mask d =
        if d = Column.E then h4 + 1 else colHeight b.mask d := by
      intro d
      have hchp := colHeight_eq b0 b1 b2 b3 b4 b5 b6 hm d
      rw [colHeight_eq b0 b1 b2 b3 (by omega) b5 b6 hmask2 d, hchp]
      cases d <;>
        simp [Column.toNat, List.getD_cons_zero, List.getD_cons_succ]
    refine ⟨⟨h0, h1, h2, h3, h4 + 1, h5, h6, b0, b1, b2, b3, by omega, b5, b6, hmask2, ?_, ?_⟩, ?_, hp, ?_, hchild⟩
    · show (b.pos ^^^ b.mask) &&& (b.mask ||| _) = b.pos ^^^ b.mask
      exact xor_mask_land_superset hpos
    · have e1 : (b.play Column.E).n_moves = b.n_moves + 1 := rfl
      omega
    · rw [hmask2, hm, maskOfHeights, maskOfHeights,
        show (7 * Column.E.toNat + h4 = 28 + h4) from by simp [Column.toNat]]
      have hX : (2:Nat) ^ (28 + h4) = ofLanes [0, 0, 0, 0, 2 ^ h4, 0, 0] := by
        simp [ofLanes, pow_add]
        try ring
      rw [hX, ← ofLanes_zipWith_add _ _ (by simp)]
      simp only [List.map_cons, List.map_nil, List.zipWith_cons_cons, List.zipWith_nil_right,
        Nat.add_zero, pow_sub_one_add_pow]
    · rfl
  case F =>
    simp only [Column.toNat, List.getD_cons_zero, List.getD_cons_succ] at hch hp
    rw [hch]
    have hbot : BitBoard.bottom_mask_col Column.F = ofLanes [0, 0, 0, 0, 0, 1, 0] := by decide
    have hadd : b.mask + BitBoard.bottom_mask_col Column.F =
        ofLanes [2^h0-1, 2^h1-1, 2^h2-1, 2^h3-1, 2^h4-1, 2^h5, 2^h6-1] := by
      rw [hm, maskOfHeights, hbot, ← ofLanes_zipWith_add _ _ (by simp)]
      simp only [List.map_cons, List.map_nil, List.zipWith_cons_cons, List.zipWith_nil_right,
        Nat.add_zero, two_pow_sub_one_add_one]
    have hmask2 : (b.play Column.F).mask =
        maskOfHeights [h0, h1, h2, h3, h4, h5 + 1, h6] := by
      show b.mask ||| (b.mask + BitBoard.bottom_mask_col Column.F) = _
      rw [hadd, hm, maskOfHeights, maskOfHeights,
        ofLanes_zipWith_lor _ _ (by simp) (by simpa [maskOfHeights] using hbnd) ?bnd2]
      case bnd2 =>
        intro x hx
        simp only [List.mem_cons, List.not_mem_nil, or_false] at hx
        rcases hx with rfl | rfl | rfl | rfl | rfl | rfl | rfl <;>
          first
          | exact two_pow_sub_one_lt_128 (by omega)
          | exact two_pow_lt_128 (by omega)
      simp only [List.map_cons, List.map_nil, List.zipWith_cons_cons, List.zipWith_nil_right,
        Nat.or_self, pow_sub_one_lor_pow hp]
    have hchild : ∀ d : Column, colHeight (b.play Column.F).mask d =
        if d = Column.F then h5 + 1 else colHeight b.mask d := by
      intro d
      have hchp := colHeight_eq b0 b1 b2 b3 b4 b5 b6 hm d
      rw [colHeight_eq b0 b1 b2 b3 b4 (by omega) b6 hmask2 d, hchp]
      cases d <;>
        simp [Column.toNat, List.getD_cons_zero, List.getD_cons_succ]
    refine ⟨⟨h0, h1, h2, h3, h4, h5 + 1, h6, b0, b1, b2, b3, b4, by omega, b6, hmask2, ?_, ?_⟩, ?_, hp, ?_, hchild⟩
    · show (b.pos ^^^ b.mask) &&& (b.mask ||| _) = b.pos ^^^ b.mask
      exact xor_mask_land_superset hpos
    · have e1 : (b.play Column.F).n_moves = b.n_moves + 1 := rfl
      omega
    · rw [hmask2, hm, maskOfHeights, maskOfHeights,
        show (7 * Column.F.toNat + h5 = 35 + h5) from by simp [Column.toNat]]
      have hX : (2:Nat) ^ (35 + h5) = ofLanes [0, 0, 0, 0, 0, 2 ^ h5, 0] := by
        simp [ofLanes, pow_add]
        try ring
      rw [hX, ← ofLanes_zipWith_add _ _ (by simp)]
      simp only [List.map_cons, List.map_nil, List.zipWith_cons_cons, List.zipWith_nil_right,
        Nat.add_zero, pow_sub_one_add_pow]
    · rfl
  case G =>
    simp only [Column.toNat, List.getD_cons_zero, List.getD_cons_succ] at hch hp
    rw [hch]
    have hbot : BitBoard.bottom_mask_col Column.G = ofLanes [0, 0, 0, 0, 0, 0, 1] := by decide
    have hadd : b.mask + BitBoard.bottom_mask_col Column.G =
        ofLanes [2^h0-1, 2^h1-1, 2^h2-1, 2^h3-1, 2^h4-1, 2^h5-1, 2^h6] := by
      rw [hm, maskOfHeights, hbot, ← ofLanes_zipWith_add _ _ (by simp)]
      simp only [List.map_cons, List.map_nil, List.zipWith_cons_cons, List.zipWith_nil_right,
        Nat.add_zero, two_pow_sub_one_add_one]
    have hmask2 : (b.play Column.G).mask =
        maskOfHeights [h0, h1, h2, h3, h4, h5, h6 + 1] := by
      show b.mask ||| (b.mask + BitBoard.bottom_mask_col Column.G) = _
      rw [hadd, hm, maskOfHeights, maskOfHeights,
        ofLanes_zipWith_lor _ _ (by simp) (by simpa [maskOfHeights] using hbnd) ?bnd2]
      case bnd2 =>
        intro x hx
        simp only [List.mem_cons, List.not_mem_nil, or_false] at hx
        rcases hx with rfl | rfl | rfl | rfl | rfl | rfl | rfl <;>
          first
          | exact two_pow_sub_one_lt_128 (by omega)
          | exact two_pow_lt_128 (by omega)
      simp only [List.map_cons, List.map_nil, List.zipWith_cons_cons, List.zipWith_nil_right,
        Nat.or_self, pow_sub_one_lor_pow hp]
    have hchild : ∀ d : Column, colHeight (b.play Column.G).mask d =
        if d = Column.G then h6 + 1 else colHeight b.mask d := by
      intro d
      have hchp := colHeight_eq b0 b1 b2 b3 b4 b5 b6 hm d
      rw [colHeight_eq b0 b1 b2 b3 b4 b5 (by omega) hmask2 d, hchp]
      cases d <;>
        simp [Column.toNat, List.getD_cons_zero, List.getD_cons_succ]
    refine ⟨⟨h0, h1, h2, h3, h4, h5, h6 + 1, b0, b1, b2, b3, b4, b5, by omega, hmask2, ?_, ?_⟩, ?_, hp, ?_, hchild⟩
    · show (b.pos ^^^ b.mask) &&& (b.mask ||| _) = b.pos ^^^ b.mask
      exact xor_mask_land_superset hpos
    · have e1 : (b.play Column.G).n_moves = b.n_moves + 1 := rfl
      omega
    · rw [hmask2, hm, maskOfHeights, maskOfHeights,
        show (7 * Column.G.toNat + h6 = 42 + h6) from by simp [Column.toNat]]
      have hX : (2:Nat) ^ (42 + h6) = ofLanes [0, 0, 0, 0, 0, 0, 2 ^ h6] := by
        simp [ofLanes, pow_add]
        try ring
      rw [hX, ← ofLanes_zipWith_add _ _ (by simp)]
      simp only [List.map_cons, List.map_nil, List.zipWith_cons_cons, List.zipWith_nil_right,
        Nat.add_zero, pow_sub_one_add_pow]
    · rfl

/-- The mask of an invariant board is contained in the 42 playable cells. -/
theorem mask_land_BOARD {b : BitBoard} (hb : BoardInv b) :
    b.mask &&& BitBoard.BOARD_MASK = b.mask := by
  obtain ⟨h0, h1, h2, h3, h4, h5, h6, b0, b1, b2, b3, b4, b5, b6, hm, hpos, hn⟩ := hb
  have hbnd := heights_lanes_lt b0 b1 b2 b3 b4 b5 b6
  rw [hm, maskOfHeights, BOARD_eq, ofLanes_zipWith_land _ _ (by simp) hbnd ?b63]
  case b63 =>
    intro x hx
    simp only [List.mem_cons, List.not_mem_nil, or_false] at hx
    rcases hx with rfl | rfl | rfl | rfl | rfl | rfl | rfl <;> norm_num
  simp only [List.map_cons, List.map_nil, List.zipWith_cons_cons, List.zipWith_nil_right,
    pow_sub_one_land_63 b0, pow_sub_one_land_63 b1, pow_sub_one_land_63 b2,
    pow_sub_one_land_63 b3, pow_sub_one_land_63 b4, pow_sub_one_land_63 b5,
    pow_sub_one_land_63 b6]

/-- The move counter of an invariant board counts the mask's set bits. -/
theorem n_moves_eq_countOnes {b : BitBoard} (hb : BoardInv b) :
    b.n_moves = countOnes b.mask := by
  obtain ⟨h0, h1, h2, h3, h4, h5, h6, b0, b1, b2, b3, b4, b5, b6, hm, hpos, hn⟩ := hb
  have hbnd := heights_lanes_lt b0 b1 b2 b3 b4 b5 b6
  rw [hm, maskOfHeights, countOnes_ofLanes hbnd]
  simp only [List.map_cons, List.map_nil, List.sum_cons, List.sum_nil,
    countOnes_two_pow_sub_one, Nat.add_zero]
  omega

/-- No guard bit of an invariant board is ever set. -/
theorem mask_guard_bits {b : BitBoard} (hb : BoardInv b) (c : Column) :
    b.mask.testBit (7 * c.toNat + 6) = false := by
  obtain ⟨h0, h1, h2, h3, h4, h5, h6, b0, b1, b2, b3, b4, b5, b6, hm, hpos, hn⟩ := hb
  rw [mask_testBit b0 b1 b2 b3 b4 b5 b6 hm c 6 (by norm_num)]
  cases c <;>
    simp only [Column.toNat, List.getD_cons_zero, List.getD_cons_succ] <;>
    (rw [decide_eq_false_iff_not]; omega)

/-- The mask of an invariant board is a 49-bit value. -/
theorem mask_lt {b : BitBoard} (hb : BoardInv b) : b.mask < 2 ^ 49 := by
  obtain ⟨h0, h1, h2, h3, h4, h5, h6, b0, b1, b2, b3, b4, b5, b6, hm, hpos, hn⟩ := hb
  have hbnd := heights_lanes_lt b0 b1 b2 b3 b4 b5 b6
  have := ofLanes_lt hbnd
  rw [hm, maskOfHeights]
  have e : 7 * ((([h0, h1, h2, h3, h4, h5, h6] : List Nat)).map fun h => 2 ^ h - 1).length = 49 := by
    simp
  rw [e] at this
  exact this

/-- Every board built from a playable move sequence satisfies the
invariant. -/
theorem boardInv_fromSeq_aux :
    ∀ (s : List Column) (b : BitBoard), BoardInv b → playableSeq b s = true →
      BoardInv (s.foldl BitBoard.play b) := by
  intro s
  induction s with
  | nil => intro b hb _; exact hb
  | cons c cs ih =>
    intro b hb hs
    rw [playableSeq] at hs
    have hp : b.is_playable c = true := by
      cases hpc : b.is_playable c
      · rw [hpc] at hs; simp at hs
      · rfl
    have hrest : playableSeq (b.play c) cs = true := by
      rw [hp, Bool.true_and] at hs
      exact hs
    exact ih (b.play c) (boardInv_play hb c hp).1 hrest

/-- Any board built by playable `play` calls from the empty board satisfies
the structural invariant. -/
theorem boardInv_fromSeq {s : List Column} (hs : playableSeq BitBoard.new s = true) :
    BoardInv (BitBoard.fromSeq s) :=
  boardInv_fromSeq_aux s BitBoard.new boardInv_new hs

/-- C8: for every `BitBoard` reached from the empty board by `play` calls on
playable columns, the current player's stones are a subset of the occupied
mask, the mask stays inside the 42 playable cells (in particular every
column's guard bit is clear, so the arithmetic add of `play` can never
carry between column lanes), and `n_moves` counts the set bits of the
mask. -/
theorem c8_reachable_board_invariant (s : List Column)
    (hs : playableSeq BitBoard.new s = true) :
    (BitBoard.fromSeq s).pos &&& (BitBoard.fromSeq s).mask = (BitBoard.fromSeq s).pos ∧
    (BitBoard.fromSeq s).mask &&& BitBoard.BOARD_MASK = (BitBoard.fromSeq s).mask ∧
    (∀ c : Column, (BitBoard.fromSeq s).mask.testBit (7 * c.toNat + 6) = false) ∧
    (BitBoard.fromSeq s).n_moves = countOnes (BitBoard.fromSeq s).mask := by
  have hb := boardInv_fromSeq hs
  obtain ⟨h0, h1, h2, h3, h4, h5, h6, b0, b1, b2, b3, b4, b5, b6, hm, hpos, hn⟩ := hb
  refine ⟨hpos, mask_land_BOARD ⟨h0, h1, h2, h3, h4, h5, h6, b0, b1, b2, b3, b4, b5, b6, hm, hpos, hn⟩,
    fun c => mask_guard_bits ⟨h0, h1, h2, h3, h4, h5, h6, b0, b1, b2, b3, b4, b5, b6, hm, hpos, hn⟩ c,
    n_moves_eq_countOnes ⟨h0, h1, h2, h3, h4, h5, h6, b0, b1, b2, b3, b4, b5, b6, hm, hpos, hn⟩⟩

/-- Witness for `c8_reachable_board_invariant` at a concrete sequence. -/
theorem c8_reachable_board_invariant_witness :
    playableSeq BitBoard.new [Column.D, Column.D, Column.E] = true ∧
    ((BitBoard.fromSeq [Column.D, Column.D, Column.E]).pos &&&
        (BitBoard.fromSeq [Column.D, Column.D, Column.E]).mask =
      (BitBoard.fromSeq [Column.D, Column.D, Column.E]).pos ∧
    (BitBoard.fromSeq [Column.D, Column.D, Column.E]).mask &&& BitBoard.BOARD_MASK =
      (BitBoard.fromSeq [Column.D, Column.D, Column.E]).mask ∧
    (∀ c : Column, (BitBoard.fromSeq [Column.D, Column.D, Column.E]).mask.testBit
      (7 * c.toNat + 6) = false) ∧
    (BitBoard.fromSeq [Column.D, Column.D, Column.E]).n_moves =
      countOnes (BitBoard.fromSeq [Column.D, Column.D, Column.E]).mask) :=
  ⟨by decide, c8_reachable_board_invariant [Column.D, Column.D, Column.E] (by decide)⟩

/-- Under the invariant, the landing cell of a playable column is the lowest
empty slot: every cell below it is occupied and it is free. -/
theorem landing_lowest_empty {b : BitBoard} (hb : BoardInv b) (c : Column) :
    b.mask.testBit (7 * c.toNat + colHeight b.mask c) = false ∧
    (∀ r, r < colHeight b.mask c → b.mask.testBit (7 * c.toNat + r) = true) := by
  obtain ⟨h0, h1, h2, h3, h4, h5, h6, b0, b1, b2, b3, b4, b5, b6, hm, hpos, hn⟩ := hb
  have hch := colHeight_eq b0 b1 b2 b3 b4 b5 b6 hm c
  have hle : [h0, h1, h2, h3, h4, h5, h6].getD c.toNat 0 ≤ 6 := by
    cases c <;>
      simp only [Column.toNat, List.getD_cons_zero, List.getD_cons_succ] <;>
      omega
  constructor
  · rw [hch, mask_testBit b0 b1 b2 b3 b4 b5 b6 hm c _ (by omega)]
    simp
  · intro r hr
    rw [hch] at hr
    rw [mask_testBit b0 b1 b2 b3 b4 b5 b6 hm c r (by omega)]
    simpa using hr

/-- C7 (amended): `BitBoard::play` is the unchecked mutator the claim
describes (it switches the current-player stones, adds one stone at the
lowest empty slot, increments and returns the move counter, without any
validation), but `ArrayBoard::play` *does* validate: on a full column or a
winning move it leaves the board untouched and returns the old counter,
and only otherwise does it place a stone and increment. -/
theorem c7_play_mutator_behaviour :
    (∀ (b : BitBoard) (c : Column),
        (b.play c).pos = b.pos ^^^ b.mask ∧ (b.play c).n_moves = b.n_moves + 1) ∧
    (∀ (b : BitBoard) (c : Column), BoardInv b → b.is_playable c = true →
        (b.play c).mask = b.mask + 2 ^ (7 * c.toNat + colHeight b.mask c) ∧
        colHeight b.mask c ≤ 5 ∧
        b.mask.testBit (7 * c.toNat + colHeight b.mask c) = false ∧
        (∀ r, r < colHeight b.mask c → b.mask.testBit (7 * c.toNat + r) = true)) ∧
    (∀ (a : ArrayBoard) (c : Column),
        (a.is_playable c = false ∨ a.is_winning c = true) → a.play c = a) ∧
    (∀ (a : ArrayBoard) (c : Column), a.is_playable c = true → a.is_winning c = false →
        (a.play c).slots = a.setSlot (a.height.getD c.toNat 0) c.toNat a.get_current_player ∧
        (a.play c).height = a.height.set c.toNat (a.height.getD c.toNat 0 + 1) ∧
        (a.play c).n_moves = a.n_moves + 1) := by
  refine ⟨fun b c => ⟨rfl, rfl⟩, fun b c hb hp => ?_, fun a c hbad => ?_, fun a c hp hw => ?_⟩
  · obtain ⟨-, e2, e3, -⟩ := boardInv_play hb c hp
    exact ⟨e2, e3, landing_lowest_empty hb c⟩
  · rw [ArrayBoard.play, if_pos]
    rcases hbad with h | h
    · exact Or.inl (by simp [h])
    · exact Or.inr (by simp [h])
  · rw [ArrayBoard.play, if_neg]
    · exact ⟨rfl, rfl, rfl⟩
    · intro hcon
      rcases hcon with h | h
      · rw [hp] at h
        simp at h
      · rw [hw] at h
        simp at h

/-- Witness for `c7_play_mutator_behaviour` at concrete inputs. -/
theorem c7_play_mutator_behaviour_witness :
    ((BitBoard.fromSeq [Column.D]).play Column.D).mask =
      (BitBoard.fromSeq [Column.D]).mask +
        2 ^ (7 * Column.D.toNat + colHeight (BitBoard.fromSeq [Column.D]).mask Column.D) ∧
    (ArrayBoard.fromSeq [Column.A, Column.B, Column.A, Column.B, Column.A, Column.B]).play
      Column.A =
      ArrayBoard.fromSeq [Column.A, Column.B, Column.A, Column.B, Column.A, Column.B] ∧
    ((ArrayBoard.fromSeq [Column.D]).play Column.E).n_moves =
      (ArrayBoard.fromSeq [Column.D]).n_moves + 1 := by
  refine ⟨(c7_play_mutator_behaviour.2.1 (BitBoard.fromSeq [Column.D]) Column.D
      (boardInv_fromSeq (by decide)) (by decide)).1,
    c7_play_mutator_behaviour.2.2.1 _ Column.A (Or.inr (by decide)),
    (c7_play_mutator_behaviour.2.2.2 _ Column.E (by decide) (by decide)).2.2⟩

/-! ### Support for the non-losing-move characterization -/

theorem u64not_testBit {x : Nat} (hx : x < 2 ^ 64) (k : Nat) (hk : k < 64) :
    (u64not x).testBit k = ! x.testBit k := by
  rw [u64not, Nat.testBit_xor]
  have h1 : ((2 : Nat) ^ 64 - 1).testBit k = true := Nat.testBit_two_pow_sub_one 64 k ▸ by
    simp [hk]
  rw [h1]
  cases x.testBit k <;> rfl

theorem testBit_BOARD (k : Nat) :
    BitBoard.BOARD_MASK.testBit k = decide (k < 49 ∧ k % 7 < 6) := by
  rw [BOARD_eq]
  by_cases hk : k < 49
  · have e : k = 7 * (k / 7) + k % 7 := by omega
    rw [e, testBit_ofLanes (by intro x hx; simp at hx; omega) (k / 7) (k % 7) (by omega)]
    have hq : k / 7 < 7 := by omega
    have h63 : ∀ r, (63 : Nat).testBit r = decide (r < 6) := by
      intro r
      have : (63 : Nat) = 2 ^ 6 - 1 := by norm_num
      rw [this, Nat.testBit_two_pow_sub_one]
    interval_cases hqe : (k / 7) <;>
      simp only [List.getD_cons_zero, List.getD_cons_succ, h63] <;>
      (congr 1; rw [eq_iff_iff]; omega)
  · have hof : ofLanes [63, 63, 63, 63, 63, 63, 63] < 2 ^ 49 := by decide
    rw [Nat.testBit_eq_false_of_lt
      (lt_of_lt_of_le hof (Nat.pow_le_pow_right (by norm_num) (by omega)))]
    simp
    omega

/-- Bit-level subset extensionality for sub-board values. -/
theorem eq_zero_of_board_bits {x : Nat} (hx : x &&& BitBoard.BOARD_MASK = x)
    (h : ∀ (c : Column) (r : Nat), r < 6 → x.testBit (7 * c.toNat + r) = false) :
    x = 0 := by
  by_contra hne
  obtain ⟨k, hk⟩ := Nat.ne_zero_implies_bit_true hne
  have hb : BitBoard.BOARD_MASK.testBit k = true := testBit_of_land_eq hx hk
  rw [testBit_BOARD] at hb
  have hb2 := of_decide_eq_true hb
  obtain ⟨c, hc⟩ : ∃ c : Column, c.toNat = k / 7 := by
    have : k / 7 < 7 := by omega
    interval_cases h7 : (k / 7)
    · exact ⟨Column.A, rfl⟩
    · exact ⟨Column.B, rfl⟩
    · exact ⟨Column.C, rfl⟩
    · exact ⟨Column.D, rfl⟩
    · exact ⟨Column.E, rfl⟩
    · exact ⟨Column.F, rfl⟩
    · exact ⟨Column.G, rfl⟩
  have := h c (k % 7) (by omega)
  rw [hc] at this
  have e : 7 * (k / 7) + k % 7 = k := by omega
  rw [e] at this
  rw [this] at hk
  exact Bool.false_ne_true hk

/-- `compute_winning_position` only marks empty in-board cells. -/
theorem compute_land_BOARD {p mask : Nat} (hmask : mask &&& BitBoard.BOARD_MASK = mask) :
    BitBoard.compute_winning_position p mask &&& BitBoard.BOARD_MASK =
      BitBoard.compute_winning_position p mask := by
  apply Nat.eq_of_testBit_eq
  intro k
  rw [Nat.testBit_land]
  cases hck : (BitBoard.compute_winning_position p mask).testBit k
  · simp
  · have hxor : (mask ^^^ BitBoard.BOARD_MASK).testBit k = true := by
      have : (BitBoard.compute_winning_position p mask).testBit k =
          (_ &&& (mask ^^^ BitBoard.BOARD_MASK)).testBit k := rfl
      rw [this, Nat.testBit_land] at hck
      exact (Bool.and_eq_true_iff.mp hck).2
    rw [Nat.testBit_xor] at hxor
    have hbd : BitBoard.BOARD_MASK.testBit k = true := by
      cases hbk : BitBoard.BOARD_MASK.testBit k
      · cases hmk : mask.testBit k
        · rw [hmk, hbk] at hxor
          exact absurd hxor (by simp)
        · exact absurd (testBit_of_land_eq hmask hmk) (by rw [hbk]; simp)
      · rfl
    simp [hbd]

/-- Values below the whole board word. -/
theorem lt_two_pow_64_of_land_BOARD {x : Nat} (hx : x &&& BitBoard.BOARD_MASK = x) :
    x < 2 ^ 64 := by
  have h1 : x ≤ BitBoard.BOARD_MASK := by
    conv_lhs => rw [← hx]
    exact Nat.and_le_right
  have h2 : BitBoard.BOARD_MASK < 2 ^ 64 := by decide
  omega

/-- Column-lane emptiness of a sub-board value. -/
theorem and_colMask_ne_zero_iff {x : Nat} (hx : x &&& BitBoard.BOARD_MASK = x) (c : Column) :
    (x &&& BitBoard.column_mask c ≠ 0) ↔
      ∃ r, r < 6 ∧ x.testBit (7 * c.toNat + r) = true := by
  have hcm : BitBoard.column_mask c = 63 <<< (7 * c.toNat) := by
    cases c <;> rfl
  constructor
  · intro hne
    obtain ⟨k, hk⟩ := Nat.ne_zero_implies_bit_true hne
    rw [Nat.testBit_land] at hk
    obtain ⟨hxk, hmk⟩ := Bool.and_eq_true_iff.mp hk
    rw [hcm, Nat.testBit_shiftLeft] at hmk
    obtain ⟨hge, h63⟩ := Bool.and_eq_true_iff.mp hmk
    have hge2 := of_decide_eq_true hge
    have h63b : k - 7 * c.toNat < 6 := by
      have : (63 : Nat) = 2 ^ 6 - 1 := by norm_num
      rw [this, Nat.testBit_two_pow_sub_one] at h63
      exact of_decide_eq_true h63
    refine ⟨k - 7 * c.toNat, h63b, ?_⟩
    have e : 7 * c.toNat + (k - 7 * c.toNat) = k := by omega
    rw [e]
    exact hxk
  · rintro ⟨r, hr, hbit⟩
    intro h0
    have := congrArg (fun z => z.testBit (7 * c.toNat + r)) h0
    simp only [Nat.testBit_land, Nat.zero_testBit] at this
    rw [hbit, hcm, Nat.testBit_shiftLeft] at this
    simp only [Bool.true_and] at this
    have hd : (7 * c.toNat + r ≥ 7 * c.toNat) := by omega
    rw [decide_eq_true hd] at this
    have e : 7 * c.toNat + r - 7 * c.toNat = r := by omega
    rw [e] at this
    have : (63 : Nat).testBit r = false := by simpa using this
    have h63 : (63 : Nat).testBit r = true := by
      have h6 : (63 : Nat) = 2 ^ 6 - 1 := by norm_num
      rw [h6, Nat.testBit_two_pow_sub_one]
      simpa using hr
    rw [h63] at this
    exact absurd this (by decide)

theorem Column.toNat_inj : ∀ {c d : Column}, c.toNat = d.toNat → c = d := by
  intro c d
  cases c <;> cases d <;> simp [Column.toNat]

/-- `possible_moves` only marks in-board cells. -/
theorem possible_land_BOARD {b : BitBoard} (hb : BoardInv b) :
    b.possible_moves &&& BitBoard.BOARD_MASK = b.possible_moves := by
  obtain ⟨h0, h1, h2, h3, h4, h5, h6, b0, b1, b2, b3, b4, b5, b6, hm, hpos, hn⟩ := hb
  rw [possible_moves_eq b0 b1 b2 b3 b4 b5 b6 hm, BOARD_eq,
    ofLanes_zipWith_land _ _ (by simp) ?p128 ?p63]
  case p128 =>
    intro x hx
    simp only [List.map_cons, List.map_nil, List.mem_cons, List.not_mem_nil, or_false] at hx
    rcases hx with rfl | rfl | rfl | rfl | rfl | rfl | rfl <;>
      (split <;> [exact two_pow_lt_128 (by omega); norm_num])
  case p63 =>
    intro x hx
    simp only [List.mem_cons, List.not_mem_nil, or_false] at hx
    rcases hx with rfl | rfl | rfl | rfl | rfl | rfl | rfl <;> norm_num
  have key : ∀ h : Nat, h ≤ 6 → (if h ≤ 5 then 2 ^ h else 0) &&& 63 = if h ≤ 5 then 2 ^ h else 0 := by
    intro h hh
    by_cases h5 : h ≤ 5
    · rw [if_pos h5]
      interval_cases h <;> decide
    · rw [if_neg h5, Nat.zero_and]
  simp only [List.map_cons, List.map_nil, List.zipWith_cons_cons, List.zipWith_nil_right,
    key h0 b0, key h1 b1, key h2 b2, key h3 b3, key h4 b4, key h5 b5, key h6 b6]

/-- A set bit of `possible_moves` is the landing cell of a playable column. -/
theorem possible_bit_decompose {b : BitBoard} (hb : BoardInv b) {k : Nat}
    (hk : b.possible_moves.testBit k = true) :
    ∃ c : Column, k = 7 * c.toNat + colHeight b.mask c ∧ colHeight b.mask c ≤ 5 := by
  have hPB := possible_land_BOARD hb
  have hbd : BitBoard.BOARD_MASK.testBit k = true := testBit_of_land_eq hPB hk
  rw [testBit_BOARD] at hbd
  have hbd2 := of_decide_eq_true hbd
  obtain ⟨c, hc⟩ : ∃ c : Column, c.toNat = k / 7 := by
    have : k / 7 < 7 := by omega
    interval_cases h7 : (k / 7)
    · exact ⟨Column.A, rfl⟩
    · exact ⟨Column.B, rfl⟩
    · exact ⟨Column.C, rfl⟩
    · exact ⟨Column.D, rfl⟩
    · exact ⟨Column.E, rfl⟩
    · exact ⟨Column.F, rfl⟩
    · exact ⟨Column.G, rfl⟩
  obtain ⟨h0, h1, h2, h3, h4, h5, h6, b0, b1, b2, b3, b4, b5, b6, hm, hpos, hn⟩ := hb
  have hch := colHeight_eq b0 b1 b2 b3 b4 b5 b6 hm c
  have hbit := possible_moves_testBit b0 b1 b2 b3 b4 b5 b6 hm c (k % 7) (by omega)
  have e : 7 * c.toNat + k % 7 = k := by omega
  rw [e, hk] at hbit
  have hbit2 := of_decide_eq_true hbit.symm
  refine ⟨c, ?_, ?_⟩
  · rw [hch, ← hbit2.1]
    omega
  · rw [hch, ← hbit2.1]
    exact hbit2.2

/-- A one-bit value survives the below-threat filter iff the cell above is
not an opponent winning cell. -/
theorem single_bit_filter {y k : Nat} (hy : y < 2 ^ 64) (hk : k < 48) :
    2 ^ k &&& u64not (y >>> 1) = if y.testBit (k + 1) then 0 else 2 ^ k := by
  apply Nat.eq_of_testBit_eq
  intro i
  rw [Nat.testBit_land, Nat.testBit_two_pow]
  by_cases hik : k = i
  · subst hik
    rw [u64not_testBit (by
        have : y >>> 1 ≤ y := by
          rw [Nat.shiftRight_eq_div_pow]
          exact Nat.div_le_self _ _
        omega) k (by omega),
      Nat.testBit_shiftRight]
    have e : 1 + k = k + 1 := by ring
    rw [e]
    cases hyk : y.testBit (k + 1)
    · simp
    · simp [Nat.zero_testBit]
  · cases hcond : y.testBit (k + 1)
    · simp [Nat.testBit_two_pow, hik]
    · simp [hik, Nat.zero_testBit]

/-- Reduction of `possible_nonlosing_moves` when the assert passes. -/
theorem possible_nonlosing_moves_body (b : BitBoard)
    (hcw : b.can_win_in_one_move = false) :
    b.possible_nonlosing_moves =
      (if (b.possible_moves &&& b.opponent_winning_position) ≠ 0 ∧
          (b.possible_moves &&& b.opponent_winning_position) &&&
            ((b.possible_moves &&& b.opponent_winning_position) - 1) ≠ 0 then some none
       else
         if ((if (b.possible_moves &&& b.opponent_winning_position) ≠ 0 then
              b.possible_moves &&& b.opponent_winning_position else b.possible_moves) &&&
            u64not (b.opponent_winning_position >>> 1)) = 0 then some none
         else some (some (Column.iter.map (fun c => decide
           (((if (b.possible_moves &&& b.opponent_winning_position) ≠ 0 then
              b.possible_moves &&& b.opponent_winning_position else b.possible_moves) &&&
            u64not (b.opponent_winning_position >>> 1)) &&& BitBoard.column_mask c ≠ 0))))) := by
  unfold BitBoard.possible_nonlosing_moves
  rw [if_neg (by rw [hcw]; simp)]

/-- Lane-level reading of the below-threat filter applied to
`possible_moves`. -/
theorem filtered_possible_testBit {b : BitBoard} (hb : BoardInv b) (d : Column) (r : Nat)
    (hr : r < 6) :
    ((b.possible_moves &&& u64not (b.opponent_winning_position >>> 1)).testBit
        (7 * d.toNat + r)) =
      (b.possible_moves.testBit (7 * d.toNat + r) &&
        ! b.opponent_winning_position.testBit (7 * d.toNat + r + 1)) := by
  have hWB : b.opponent_winning_position &&& BitBoard.BOARD_MASK =
      b.opponent_winning_position := compute_land_BOARD (mask_land_BOARD hb)
  have hW64 : b.opponent_winning_position < 2 ^ 64 := lt_two_pow_64_of_land_BOARD hWB
  have hs64 : b.opponent_winning_position >>> 1 < 2 ^ 64 := by
    have : b.opponent_winning_position >>> 1 ≤ b.opponent_winning_position := by
      rw [Nat.shiftRight_eq_div_pow]
      exact Nat.div_le_self _ _
    omega
  rw [Nat.testBit_land, u64not_testBit hs64 _ (by
      have := d.toNat
      have hd7 : d.toNat ≤ 6 := by cases d <;> simp [Column.toNat]
      omega), Nat.testBit_shiftRight]
  have e : 1 + (7 * d.toNat + r) = 7 * d.toNat + r + 1 := by ring
  rw [e]

/-- Column flag of the filtered landing set, semantically. -/
theorem filtered_flag_iff {b : BitBoard} (hb : BoardInv b) (d : Column) :
    ((b.possible_moves &&& u64not (b.opponent_winning_position >>> 1)) &&&
        BitBoard.column_mask d ≠ 0) ↔
      (colHeight b.mask d ≤ 5 ∧
        b.opponent_winning_position.testBit (7 * d.toNat + colHeight b.mask d + 1) = false) := by
  have hPB := possible_land_BOARD hb
  have hsub : (b.possible_moves &&& u64not (b.opponent_winning_position >>> 1)) &&&
      BitBoard.BOARD_MASK =
      b.possible_moves &&& u64not (b.opponent_winning_position >>> 1) := by
    rw [Nat.land_assoc, Nat.land_comm (u64not _) BitBoard.BOARD_MASK, ← Nat.land_assoc, hPB]
  obtain ⟨h0, h1, h2, h3, h4, h5, h6, b0, b1, b2, b3, b4, b5, b6, hm, hpos, hn⟩ := hb
  have hbx : BoardInv b := ⟨h0, h1, h2, h3, h4, h5, h6, b0, b1, b2, b3, b4, b5, b6, hm, hpos, hn⟩
  have hch := colHeight_eq b0 b1 b2 b3 b4 b5 b6 hm d
  rw [and_colMask_ne_zero_iff hsub d]
  constructor
  · rintro ⟨r, hr, hbit⟩
    rw [filtered_possible_testBit hbx d r hr] at hbit
    obtain ⟨hp, hw⟩ := Bool.and_eq_true_iff.mp hbit
    rw [possible_moves_testBit b0 b1 b2 b3 b4 b5 b6 hm d r (by omega)] at hp
    have hp2 := of_decide_eq_true hp
    have hr_eq : colHeight b.mask d = r := by rw [hch]; exact hp2.1.symm
    constructor
    · rw [hr_eq]; exact hp2.2
    · rw [hr_eq]
      cases hwv : b.opponent_winning_position.testBit (7 * d.toNat + r + 1)
      · rfl
      · rw [hwv] at hw
        exact absurd hw (by simp)
  · rintro ⟨hh, hw⟩
    refine ⟨colHeight b.mask d, by omega, ?_⟩
    rw [hch] at hh hw ⊢
    rw [filtered_possible_testBit hbx d _ (by omega),
      possible_moves_testBit b0 b1 b2 b3 b4 b5 b6 hm d _ (by omega), hw,
      Bool.not_false, Bool.and_true, decide_eq_true_eq]
    exact ⟨rfl, hh⟩

theorem two_pow_land_BOARD {k : Nat} (hk : BitBoard.BOARD_MASK.testBit k = true) :
    2 ^ k &&& BitBoard.BOARD_MASK = 2 ^ k := by
  rw [Nat.two_pow_and, hk]
  simp

/-- Exact behaviour of `possible_nonlosing_moves` on an invariant position
where the current player cannot win at once, by a case split on the number
of playable opponent-winning cells. -/
theorem nonlosing_characterization (b : BitBoard) (hb : BoardInv b)
    (hcw : b.can_win_in_one_move = false) :
    (2 ≤ countOnes (b.possible_moves &&& b.opponent_winning_position) →
      b.possible_nonlosing_moves = some none) ∧
    (countOnes (b.possible_moves &&& b.opponent_winning_position) = 1 →
      ∃ c : Column, colHeight b.mask c ≤ 5 ∧
        b.possible_moves &&& b.opponent_winning_position =
          2 ^ (7 * c.toNat + colHeight b.mask c) ∧
        (b.opponent_winning_position.testBit (7 * c.toNat + colHeight b.mask c + 1) = true →
          b.possible_nonlosing_moves = some none) ∧
        (b.opponent_winning_position.testBit (7 * c.toNat + colHeight b.mask c + 1) = false →
          b.possible_nonlosing_moves =
            some (some (Column.iter.map fun d => decide (d = c))))) ∧
    (countOnes (b.possible_moves &&& b.opponent_winning_position) = 0 →
      ((∀ c : Column, colHeight b.mask c ≤ 5 →
          b.opponent_winning_position.testBit (7 * c.toNat + colHeight b.mask c + 1) = true) →
        b.possible_nonlosing_moves = some none) ∧
      ((∃ c : Column, colHeight b.mask c ≤ 5 ∧
          b.opponent_winning_position.testBit (7 * c.toNat + colHeight b.mask c + 1) = false) →
        b.possible_nonlosing_moves =
          some (some (Column.iter.map fun c => decide (colHeight b.mask c ≤ 5 ∧
            b.opponent_winning_position.testBit
              (7 * c.toNat + colHeight b.mask c + 1) = false))))) := by
  have hWB : b.opponent_winning_position &&& BitBoard.BOARD_MASK =
      b.opponent_winning_position := compute_land_BOARD (mask_land_BOARD hb)
  have hW64 : b.opponent_winning_position < 2 ^ 64 := lt_two_pow_64_of_land_BOARD hWB
  refine ⟨?_, ?_, ?_⟩
  · -- two or more forced cells
    intro h2
    rw [possible_nonlosing_moves_body b hcw, if_pos]
    constructor
    · intro h0
      rw [h0, countOnes_zero] at h2
      omega
    · intro hpz
      have := (land_pred_eq_zero_iff _).mp hpz
      omega
  · -- exactly one forced cell
    intro h1
    obtain ⟨k, hk⟩ := (countOnes_eq_one_iff _).mp h1
    have hFk : (b.possible_moves &&& b.opponent_winning_position).testBit k = true := by
      rw [hk, Nat.testBit_two_pow]
      simp
    have hPk : b.possible_moves.testBit k = true := by
      rw [Nat.testBit_land] at hFk
      exact (Bool.and_eq_true_iff.mp hFk).1
    obtain ⟨c, hkc, hc5⟩ := possible_bit_decompose hb hPk
    have hk48 : k < 48 := by
      have hd7 : c.toNat ≤ 6 := by cases c <;> simp [Column.toNat]
      omega
    have hFne : b.possible_moves &&& b.opponent_winning_position ≠ 0 := by
      rw [hk]
      exact (Nat.pos_pow_of_pos _ (by norm_num)).ne'
    have hFpair : (b.possible_moves &&& b.opponent_winning_position) &&&
        ((b.possible_moves &&& b.opponent_winning_position) - 1) = 0 :=
      (land_pred_eq_zero_iff _).mpr (by omega)
    have hsent : ¬ ((b.possible_moves &&& b.opponent_winning_position) ≠ 0 ∧
        (b.possible_moves &&& b.opponent_winning_position) &&&
          ((b.possible_moves &&& b.opponent_winning_position) - 1) ≠ 0) := by
      intro hcon
      exact hcon.2 hFpair
    have hif : (if (b.possible_moves &&& b.opponent_winning_position) ≠ 0 then
        b.possible_moves &&& b.opponent_winning_position else b.possible_moves) =
        2 ^ k := by
      rw [if_pos hFne, hk]
    refine ⟨c, hc5, by rw [← hkc]; exact hk, ?_, ?_⟩
    · intro hwt
      have hwt' : b.opponent_winning_position.testBit (k + 1) = true := by
        rw [hkc]; exact hwt
      have hzero : ((if (b.possible_moves &&& b.opponent_winning_position) ≠ 0 then
          b.possible_moves &&& b.opponent_winning_position else b.possible_moves) &&&
          u64not (b.opponent_winning_position >>> 1)) = 0 := by
        rw [hif, single_bit_filter hW64 hk48, hwt']
        simp
      rw [possible_nonlosing_moves_body b hcw, if_neg hsent, if_pos hzero]
    · intro hwf
      have hwf' : b.opponent_winning_position.testBit (k + 1) = false := by
        rw [hkc]; exact hwf
      have hfil : ((if (b.possible_moves &&& b.opponent_winning_position) ≠ 0 then
          b.possible_moves &&& b.opponent_winning_position else b.possible_moves) &&&
          u64not (b.opponent_winning_position >>> 1)) = 2 ^ k := by
        rw [hif, single_bit_filter hW64 hk48, hwf']
        simp
      rw [possible_nonlosing_moves_body b hcw, if_neg hsent]
      rw [if_neg (by rw [hfil]; exact (Nat.pos_pow_of_pos _ (by norm_num)).ne')]
      simp only [Option.some.injEq]
      · apply List.map_congr_left
        intro d _
        rw [hfil]
        apply decide_eq_decide.mpr
        constructor
        · intro hne
          have hbd : BitBoard.BOARD_MASK.testBit k = true := by
            rw [testBit_BOARD]
            have hd7 : c.toNat ≤ 6 := by cases c <;> simp [Column.toNat]
            apply decide_eq_true
            constructor
            · omega
            · have : k % 7 = colHeight b.mask c := by omega
              omega
          obtain ⟨r, hr, hbit⟩ := (and_colMask_ne_zero_iff (two_pow_land_BOARD hbd) d).mp hne
          rw [Nat.testBit_two_pow] at hbit
          have hkd := of_decide_eq_true hbit
          have : c.toNat = d.toNat := by omega
          exact (Column.toNat_inj this).symm
        · intro hdc
          rw [hdc]
          apply (and_colMask_ne_zero_iff ?hb2 c).mpr
          case hb2 =>
            apply two_pow_land_BOARD
            rw [testBit_BOARD]
            have hd7 : c.toNat ≤ 6 := by cases c <;> simp [Column.toNat]
            apply decide_eq_true
            constructor
            · omega
            · have : k % 7 = colHeight b.mask c := by omega
              omega
          refine ⟨colHeight b.mask c, by omega, ?_⟩
          rw [hkc, Nat.testBit_two_pow]
          simp
  · -- no forced cell
    intro h0
    have hF0 : b.possible_moves &&& b.opponent_winning_position = 0 :=
      countOnes_eq_zero.mp h0
    have hsent : ¬ ((b.possible_moves &&& b.opponent_winning_position) ≠ 0 ∧
        (b.possible_moves &&& b.opponent_winning_position) &&&
          ((b.possible_moves &&& b.opponent_winning_position) - 1) ≠ 0) := by
      intro hcon
      exact hcon.1 hF0
    have hif : (if (b.possible_moves &&& b.opponent_winning_position) ≠ 0 then
        b.possible_moves &&& b.opponent_winning_position else b.possible_moves) =
        b.possible_moves := if_neg (by intro hcon; exact hcon hF0)
    have hsubB : (b.possible_moves &&& u64not (b.opponent_winning_position >>> 1)) &&&
        BitBoard.BOARD_MASK =
        b.possible_moves &&& u64not (b.opponent_winning_position >>> 1) := by
      rw [Nat.land_assoc, Nat.land_comm (u64not _) BitBoard.BOARD_MASK, ← Nat.land_assoc,
        possible_land_BOARD hb]
    constructor
    · intro hall
      rw [possible_nonlosing_moves_body b hcw, if_neg hsent, if_pos]
      rw [hif]
      apply eq_zero_of_board_bits hsubB
      intro c r hr
      rw [filtered_possible_testBit hb c r hr]
      obtain ⟨h0', h1', h2', h3', h4', h5', h6', b0, b1, b2, b3, b4, b5, b6, hm, hpos, hn⟩ := hb
      rw [possible_moves_testBit b0 b1 b2 b3 b4 b5 b6 hm c r (by omega)]
      have hch := colHeight_eq b0 b1 b2 b3 b4 b5 b6 hm c
      by_cases hcase : r = [h0', h1', h2', h3', h4', h5', h6'].getD c.toNat 0 ∧ r ≤ 5
      · have hw := hall c (by rw [hch]; omega)
        rw [hch] at hw
        rw [← hcase.1] at hw
        rw [hw]
        simp
      · rw [decide_eq_false hcase]
        simp
    · rintro ⟨c, hc5, hcw2⟩
      rw [possible_nonlosing_moves_body b hcw, if_neg hsent, if_neg ?hnz]
      case hnz =>
        rw [hif]
        intro hz
        have := (filtered_flag_iff hb c).mpr ⟨hc5, hcw2⟩
        rw [hz, Nat.zero_and] at this
        exact this rfl
      simp only [Option.some.injEq]
      apply List.map_congr_left
      intro d _
      rw [hif]
      exact decide_eq_decide.mpr (filtered_flag_iff hb d)

/-- C3 (amended): the exact behaviour of `possible_nonlosing_moves` on an
invariant position where the current player cannot win at once.  Writing
`F` for the set of playable opponent-winning cells ("forced-defense
cells"): with two or more forced cells the sentinel is returned; with
exactly one forced cell — necessarily the landing cell of some column `c`
— the array marking exactly `c` is returned *unless* the cell directly
above it is also an opponent winning cell, in which case the sentinel is
returned; with no forced cell, the legal moves are the playable columns
whose landing cell is not directly below an opponent winning cell, and the
sentinel is returned when no such column remains. -/
theorem c3_nonlosing_moves_characterization (b : BitBoard) (hb : BoardInv b)
    (hcw : b.can_win_in_one_move = false) :
    (2 ≤ countOnes (b.possible_moves &&& b.opponent_winning_position) →
      b.possible_nonlosing_moves = some none) ∧
    (countOnes (b.possible_moves &&& b.opponent_winning_position) = 1 →
      ∃ c : Column, colHeight b.mask c ≤ 5 ∧
        b.possible_moves &&& b.opponent_winning_position =
          2 ^ (7 * c.toNat + colHeight b.mask c) ∧
        (b.opponent_winning_position.testBit (7 * c.toNat + colHeight b.mask c + 1) = true →
          b.possible_nonlosing_moves = some none) ∧
        (b.opponent_winning_position.testBit (7 * c.toNat + colHeight b.mask c + 1) = false →
          b.possible_nonlosing_moves =
            some (some (Column.iter.map fun d => decide (d = c))))) ∧
    (countOnes (b.possible_moves &&& b.opponent_winning_position) = 0 →
      ((∀ c : Column, colHeight b.mask c ≤ 5 →
          b.opponent_winning_position.testBit (7 * c.toNat + colHeight b.mask c + 1) = true) →
        b.possible_nonlosing_moves = some none) ∧
      ((∃ c : Column, colHeight b.mask c ≤ 5 ∧
          b.opponent_winning_position.testBit (7 * c.toNat + colHeight b.mask c + 1) = false) →
        b.possible_nonlosing_moves =
          some (some (Column.iter.map fun c => decide (colHeight b.mask c ≤ 5 ∧
            b.opponent_winning_position.testBit
              (7 * c.toNat + colHeight b.mask c + 1) = false))))) :=
  nonlosing_characterization b hb hcw

/-- Witness for `c3_nonlosing_moves_characterization` on the empty board
(no forced cell; all seven columns stay legal). -/
theorem c3_nonlosing_moves_characterization_witness :
    BitBoard.new.possible_nonlosing_moves =
      some (some (Column.iter.map fun c => decide (colHeight BitBoard.new.mask c ≤ 5 ∧
        BitBoard.new.opponent_winning_position.testBit
          (7 * c.toNat + colHeight BitBoard.new.mask c + 1) = false))) :=
  ((c3_nonlosing_moves_characterization BitBoard.new boardInv_new (by decide)).2.2
    (by decide)).2 ⟨Column.A, by decide, by decide⟩

/-! ### The forced-move step lemma: a move kept by
`possible_nonlosing_moves` never hands the opponent an immediate win -/

/-- The mask-independent 13-term accumulation of
`compute_winning_position` (its value before the final empty-cell mask). -/
def computeRaw (position : Nat) : Nat :=
  let vertical := (position <<< 1) &&& (position <<< 2) &&& (position <<< 3)
  let m0 := vertical
  let horizontal1 := (position <<< (HEIGHT + 1)) &&& (position <<< (2 * (HEIGHT + 1)))
  let m1 := m0 ||| (horizontal1 &&& (position <<< (3 * (HEIGHT + 1))))
  let m2 := m1 ||| (horizontal1 &&& (position >>> (HEIGHT + 1)))
  let horizontal2 := (position >>> (HEIGHT + 1)) &&& (position >>> (2 * (HEIGHT + 1)))
  let m3 := m2 ||| (horizontal2 &&& (position >>> (3 * (HEIGHT + 1))))
  let m4 := m3 ||| (horizontal2 &&& (position <<< (HEIGHT + 1)))
  let diag1a := (position <<< HEIGHT) &&& (position <<< (2 * HEIGHT))
  let m5 := m4 ||| (diag1a &&& (position <<< (3 * HEIGHT)))
  let m6 := m5 ||| (diag1a &&& (position >>> HEIGHT))
  let diag1b := (position >>> HEIGHT) &&& (position >>> (2 * HEIGHT))
  let m7 := m6 ||| (diag1b &&& (position >>> (3 * HEIGHT)))
  let m8 := m7 ||| (diag1b &&& (position <<< HEIGHT))
  let diag2a := (position <<< (HEIGHT + 2)) &&& (position <<< (2 * (HEIGHT + 2)))
  let m9 := m8 ||| (diag2a &&& (position <<< (3 * (HEIGHT + 2))))
  let m10 := m9 ||| (diag2a &&& (position >>> (HEIGHT + 2)))
  let diag2b := (position >>> (HEIGHT + 2)) &&& (position >>> (2 * (HEIGHT + 2)))
  let m11 := m10 ||| (diag2b &&& (position >>> (3 * (HEIGHT + 2))))
  let m12 := m11 ||| (diag2b &&& (position <<< (HEIGHT + 2)))
  m12

theorem compute_eq_raw (p mask : Nat) :
    BitBoard.compute_winning_position p mask =
      computeRaw p &&& (mask ^^^ BitBoard.BOARD_MASK) := rfl

/-- Adding occupied cells only shrinks the winning set. -/
theorem compute_mono {p m m' : Nat} (hsub : m &&& m' = m)
    (hbb : m' &&& BitBoard.BOARD_MASK = m') {j : Nat}
    (hj : (BitBoard.compute_winning_position p m').testBit j = true) :
    (BitBoard.compute_winning_position p m).testBit j = true := by
  rw [compute_eq_raw, Nat.testBit_land] at hj ⊢
  obtain ⟨hraw, hx⟩ := Bool.and_eq_true_iff.mp hj
  rw [hraw, Bool.true_and]
  rw [Nat.testBit_xor] at hx ⊢
  cases hmb : m'.testBit j
  · -- the cell is empty in the bigger mask, hence in the smaller one
    have hm : m.testBit j = false := by
      cases hmm : m.testBit j
      · rfl
      · exact absurd (testBit_of_land_eq hsub hmm) (by rw [hmb]; simp)
    rw [hmb] at hx
    rw [hm]
    exact hx
  · -- an occupied cell of the bigger mask lies on the board, so the xor
    -- bit of the bigger mask was false there, a contradiction
    have hbd : BitBoard.BOARD_MASK.testBit j = true := testBit_of_land_eq hbb hmb
    rw [hmb, hbd] at hx
    exact absurd hx (by simp)

theorem land_lor_self (x y : Nat) : x &&& (x ||| y) = x := by
  apply Nat.eq_of_testBit_eq
  intro i
  rw [Nat.testBit_land, Nat.testBit_lor]
  cases x.testBit i <;> simp

theorem iter_map_getD {α : Type} (f : Column → α) (c : Column) (dflt : α) :
    (Column.iter.map f).getD c.toNat dflt = f c := by
  cases c <;> rfl

theorem is_playable_colHeight {b : BitBoard} (hb : BoardInv b) (c : Column) :
    b.is_playable c = true ↔ colHeight b.mask c ≤ 5 := by
  obtain ⟨h0, h1, h2, h3, h4, h5, h6, b0, b1, b2, b3, b4, b5, b6, hm, hpos, hn⟩ := hb
  rw [is_playable_iff b0 b1 b2 b3 b4 b5 b6 hm c,
    colHeight_eq b0 b1 b2 b3 b4 b5 b6 hm c]

/-- Core of the step lemma: if column `c` is open, the cell above its
landing cell is not an opponent winning cell, and every playable
opponent-winning cell (if any) is exactly `c`'s landing cell, then playing
`c` leaves the opponent without an immediate win. -/
theorem child_safe_core {b : BitBoard} (hb : BoardInv b) (c : Column)
    (hc5 : colHeight b.mask c ≤ 5)
    (habove : b.opponent_winning_position.testBit
      (7 * c.toNat + colHeight b.mask c + 1) = false)
    (hFbit : ∀ j, (b.possible_moves &&& b.opponent_winning_position).testBit j = true →
      j = 7 * c.toNat + colHeight b.mask c) :
    b.is_playable c = true ∧ (b.play c).can_win_in_one_move = false := by
  have hp : b.is_playable c = true := (is_playable_colHeight hb c).mpr hc5
  refine ⟨hp, ?_⟩
  obtain ⟨hbInv2, hmadd, hc5x, hnm2, hhts⟩ := boardInv_play hb c hp
  have hzero : (b.play c).possible_moves &&& (b.play c).winning_position = 0 → 
      (b.play c).can_win_in_one_move = false := by
    intro h
    unfold BitBoard.can_win_in_one_move
    rw [h]
    simp
  apply hzero
  by_contra hne
  obtain ⟨j, hj⟩ := Nat.ne_zero_implies_bit_true hne
  rw [Nat.testBit_land] at hj
  obtain ⟨hjp, hjw⟩ := Bool.and_eq_true_iff.mp hj
  obtain ⟨d, hjd, hd5⟩ := possible_bit_decompose hbInv2 hjp
  have hsub : b.mask &&& (b.play c).mask = b.mask := land_lor_self _ _
  have hbb2 : (b.play c).mask &&& BitBoard.BOARD_MASK = (b.play c).mask :=
    mask_land_BOARD hbInv2
  have hjW : b.opponent_winning_position.testBit j = true :=
    compute_mono hsub hbb2 hjw
  by_cases hdc : d = c
  · subst hdc
    have hhd : colHeight (b.play d).mask d = colHeight b.mask d + 1 := by
      have h := hhts d
      rw [if_pos rfl] at h
      exact h
    rw [hjd, hhd, ← Nat.add_assoc, habove] at hjW
    exact Bool.noConfusion hjW
  · have hhd : colHeight (b.play c).mask d = colHeight b.mask d := by
      have h := hhts d
      rw [if_neg hdc] at h
      exact h
    rw [hhd] at hjd hd5
    obtain ⟨h0, h1, h2, h3, h4, h5, h6, b0, b1, b2, b3, b4, b5, b6, hm, hposl, hnml⟩ := hb
    have hch := colHeight_eq b0 b1 b2 b3 b4 b5 b6 hm d
    have hpp : b.possible_moves.testBit (7 * d.toNat + colHeight b.mask d) = true := by
      rw [possible_moves_testBit b0 b1 b2 b3 b4 b5 b6 hm d (colHeight b.mask d) (by omega),
        ← hch]
      simp [hd5]
    have hFj : (b.possible_moves &&& b.opponent_winning_position).testBit j = true := by
      rw [Nat.testBit_land, hjW, hjd, hpp]
      rfl
    have hj2 := hFbit j hFj
    have hdn : d.toNat = c.toNat := by omega
    exact hdc (Column.toNat_inj hdn)

/-- Step lemma: a column flagged by `possible_nonlosing_moves` is playable
and its child position gives the opponent no immediate win (so the assert
at the head of `possible_nonlosing_moves` cannot fire on the child). -/
theorem nonlosing_child_safe {b : BitBoard} (hb : BoardInv b)
    (hcw : b.can_win_in_one_move = false) {flags : List Bool}
    (hnl : b.possible_nonlosing_moves = some (some flags)) (c : Column)
    (hfc : flags.getD c.toNat false = true) :
    b.is_playable c = true ∧ (b.play c).can_win_in_one_move = false := by
  have hchar := nonlosing_characterization b hb hcw
  rcases Nat.lt_or_ge (countOnes (b.possible_moves &&& b.opponent_winning_position)) 2
    with hn2 | hn2
  · interval_cases hn : countOnes (b.possible_moves &&& b.opponent_winning_position)
    · -- no forced cell
      have hF0 : b.possible_moves &&& b.opponent_winning_position = 0 :=
        countOnes_eq_zero.mp hn
      have hch0 := hchar.2.2 rfl
      by_cases hall : ∀ d : Column, colHeight b.mask d ≤ 5 →
          b.opponent_winning_position.testBit (7 * d.toNat + colHeight b.mask d + 1) = true
      · rw [hch0.1 hall] at hnl
        simp at hnl
      · push_neg at hall
        obtain ⟨d, hd5, hdw⟩ := hall
        have hdw2 : b.opponent_winning_position.testBit
            (7 * d.toNat + colHeight b.mask d + 1) = false := by
          cases hx : b.opponent_winning_position.testBit
              (7 * d.toNat + colHeight b.mask d + 1)
          · rfl
          · exact absurd hx (by simp [hdw])
        rw [hch0.2 ⟨d, hd5, hdw2⟩] at hnl
        have hflags : flags = Column.iter.map fun e => decide (colHeight b.mask e ≤ 5 ∧
            b.opponent_winning_position.testBit
              (7 * e.toNat + colHeight b.mask e + 1) = false) := by
          injection hnl with h9
          injection h9 with h8
          exact h8.symm
        rw [hflags, iter_map_getD] at hfc
        obtain ⟨hc5, habove⟩ := of_decide_eq_true hfc
        refine child_safe_core ?_ c hc5 habove ?_
        · exact hb
        · intro j hj
          rw [hF0, Nat.zero_testBit] at hj
          exact Bool.noConfusion hj
    · -- exactly one forced cell
      obtain ⟨c0, hc05, hFeq, hsent, hone⟩ := hchar.2.1 rfl
      cases habv : b.opponent_winning_position.testBit
          (7 * c0.toNat + colHeight b.mask c0 + 1)
      · rw [hone habv] at hnl
        have hflags : flags = Column.iter.map fun e => decide (e = c0) := by
          injection hnl with h9
          injection h9 with h8
          exact h8.symm
        rw [hflags, iter_map_getD] at hfc
        have hcc : c = c0 := of_decide_eq_true hfc
        subst hcc
        refine child_safe_core hb c hc05 habv ?_
        intro j hj
        rw [hFeq, Nat.testBit_two_pow] at hj
        exact (of_decide_eq_true hj).symm
      · rw [hsent habv] at hnl
        simp at hnl
  · -- two or more forced cells: the sentinel contradicts `hnl`
    rw [hchar.1 hn2] at hnl
    simp at hnl

/-! ### Heap bookkeeping: the sift routines permute-or-insert, never
invent elements, and `pop` shrinks the vector by one -/

theorem hget_mem {l : List ScoredMove} {i : Nat} (h : i < l.length) : hget l i ∈ l := by
  unfold hget
  rw [List.getD_eq_getElem l default h]
  exact List.getElem_mem h

theorem siftUpGo_length :
    ∀ (fuel : Nat) (l : List ScoredMove) (e : ScoredMove) (pos start : Nat),
      (siftUpGo fuel l e pos start).length = l.length := by
  intro fuel
  induction fuel with
  | zero => intro l e pos start; simp [siftUpGo]
  | succ f ih =>
    intro l e pos start
    rw [siftUpGo]
    split
    · rw [ih, List.length_set]
    · rw [List.length_set]

theorem siftUpGo_subset :
    ∀ (fuel : Nat) (l : List ScoredMove) (e : ScoredMove) (pos start : Nat),
      pos < l.length → ∀ x ∈ siftUpGo fuel l e pos start, x ∈ l ∨ x = e := by
  intro fuel
  induction fuel with
  | zero =>
    intro l e pos start _ x hx
    exact List.mem_or_eq_of_mem_set hx
  | succ f ih =>
    intro l e pos start hpos x hx
    rw [siftUpGo] at hx
    by_cases hc : pos > start ∧ ¬ (ScoredMove.le e (hget l ((pos - 1) / 2))) = true
    · rw [if_pos hc] at hx
      have hq : (pos - 1) / 2 < (l.set pos (hget l ((pos - 1) / 2))).length := by
        rw [List.length_set]; omega
      rcases ih _ e _ start hq x hx with hx2 | hx2
      · rcases List.mem_or_eq_of_mem_set hx2 with hx3 | hx3
        · exact Or.inl hx3
        · exact Or.inl (hx3 ▸ hget_mem (by omega))
      · exact Or.inr hx2
    · rw [if_neg hc] at hx
      exact List.mem_or_eq_of_mem_set hx

theorem sdtbGo_length :
    ∀ (fuel : Nat) (l : List ScoredMove) (pos len : Nat),
      (sdtbGo fuel l pos len).1.length = l.length := by
  intro fuel
  induction fuel with
  | zero => intro l pos len; rfl
  | succ f ih =>
    intro l pos len
    rw [sdtbGo]
    split
    · rw [ih, List.length_set]
    · split <;> simp [List.length_set]

theorem sdtbGo_pos_lt :
    ∀ (fuel : Nat) (l : List ScoredMove) (pos len : Nat),
      pos < len → len = l.length → (sdtbGo fuel l pos len).2 < len := by
  intro fuel
  induction fuel with
  | zero => intro l pos len h _; exact h
  | succ f ih =>
    intro l pos len hpos hlen
    rw [sdtbGo]
    by_cases hc : 2 * pos + 1 ≤ len - 2
    · rw [if_pos hc]
      have hd : (if ScoredMove.le (hget l (2 * pos + 1)) (hget l (2 * pos + 1 + 1)) = true
          then 1 else 0) ≤ 1 := by
        split <;> omega
      exact ih _ _ _ (by omega) (by rw [List.length_set]; exact hlen)
    · rw [if_neg hc]
      by_cases hc2 : 2 * pos + 1 = len - 1
      · rw [if_pos hc2]
        show 2 * pos + 1 < len
        omega
      · rw [if_neg hc2]
        exact hpos

theorem sdtbGo_subset :
    ∀ (fuel : Nat) (l : List ScoredMove) (pos len : Nat),
      len = l.length → ∀ x ∈ (sdtbGo fuel l pos len).1, x ∈ l := by
  intro fuel
  induction fuel with
  | zero => intro l pos len _ x hx; exact hx
  | succ f ih =>
    intro l pos len hlen x hx
    rw [sdtbGo] at hx
    by_cases hc : 2 * pos + 1 ≤ len - 2
    · rw [if_pos hc] at hx
      have hm : hget l (2 * pos + 1 +
          (if ScoredMove.le (hget l (2 * pos + 1)) (hget l (2 * pos + 1 + 1)) = true
            then 1 else 0)) ∈ l := by
        apply hget_mem
        by_cases hle : ScoredMove.le (hget l (2 * pos + 1)) (hget l (2 * pos + 1 + 1)) = true
        · rw [if_pos hle]; omega
        · rw [if_neg hle]; omega
      have := ih _ _ _ (by rw [List.length_set]; exact hlen) x hx
      rcases List.mem_or_eq_of_mem_set this with hx2 | hx2
      · exact hx2
      · exact hx2 ▸ hm
    · rw [if_neg hc] at hx
      by_cases hc2 : 2 * pos + 1 = len - 1
      · rw [if_pos hc2] at hx
        rcases List.mem_or_eq_of_mem_set hx with hx2 | hx2
        · exact hx2
        · exact hx2 ▸ hget_mem (by omega)
      · rw [if_neg hc2] at hx
        exact hx

theorem siftDownToBottom_length (l : List ScoredMove) (e : ScoredMove) :
    (siftDownToBottom l e).length = l.length := by
  unfold siftDownToBottom
  rw [siftUpGo_length, sdtbGo_length]

theorem siftDownToBottom_subset {l : List ScoredMove} (hl : 0 < l.length)
    (e : ScoredMove) : ∀ x ∈ siftDownToBottom l e, x ∈ l ∨ x = e := by
  intro x hx
  unfold siftDownToBottom at hx
  have hp : (sdtbGo l.length l 0 l.length).2 < (sdtbGo l.length l 0 l.length).1.length := by
    rw [sdtbGo_length]
    exact sdtbGo_pos_lt _ _ _ _ hl rfl
  rcases siftUpGo_subset _ _ e _ 0 hp x hx with hx2 | hx2
  · exact Or.inl (sdtbGo_subset _ _ _ _ rfl x hx2)
  · exact Or.inr hx2

theorem heapPush_subset {l : List ScoredMove} {e : ScoredMove} :
    ∀ x ∈ heapPush l e, x ∈ l ∨ x = e := by
  intro x hx
  unfold heapPush at hx
  have hpos : l.length < (l ++ [e]).length := by
    rw [List.length_append]; simp
  rcases siftUpGo_subset _ _ e _ 0 hpos x hx with hx2 | hx2
  · rcases List.mem_append.mp hx2 with hx3 | hx3
    · exact Or.inl hx3
    · exact Or.inr (List.mem_singleton.mp hx3)
  · exact Or.inr hx2

theorem mem_of_getLast? {l : List ScoredMove} {a : ScoredMove}
    (h : l.getLast? = some a) : a ∈ l := by
  cases l with
  | nil => exact absurd h (by simp)
  | cons b bs =>
    rw [List.getLast?_eq_getLast _ (by simp)] at h
    injection h with h2
    exact h2 ▸ List.getLast_mem (by simp)

theorem heapPop_subset {l rest : List ScoredMove} {sm : ScoredMove}
    (h : heapPop l = some (sm, rest)) : sm ∈ l ∧ ∀ x ∈ rest, x ∈ l := by
  unfold heapPop at h
  split at h
  · exact absurd h (by simp)
  next last hlast =>
    have hlm : last ∈ l := mem_of_getLast? hlast
    have hdl : l.dropLast.Sublist l := List.dropLast_sublist l
    by_cases hemp : l.dropLast.isEmpty = true
    · rw [if_pos hemp] at h
      injection h with h2
      injection h2 with h3 h4
      constructor
      · exact h3 ▸ hlm
      · intro x hx
        rw [← h4] at hx
        exact absurd hx (by simp)
    · rw [if_neg hemp] at h
      injection h with h2
      injection h2 with h3 h4
      have hne : 0 < l.dropLast.length := by
        cases hdrop : l.dropLast with
        | nil => rw [hdrop] at hemp; exact absurd rfl hemp
        | cons y ys => simp [hdrop]
      constructor
      · rw [← h3]
        exact hdl.subset (hget_mem hne)
      · intro x hx
        rw [← h4] at hx
        have hsl : 0 < (l.dropLast.set 0 last).length := by
          rw [List.length_set]; exact hne
        rcases siftDownToBottom_subset hsl last x hx with hx2 | hx2
        · rcases List.mem_or_eq_of_mem_set hx2 with hx3 | hx3
          · exact hdl.subset hx3
          · exact hx3 ▸ hlm
        · exact hx2 ▸ hlm

theorem heapPop_length {l rest : List ScoredMove} {sm : ScoredMove}
    (h : heapPop l = some (sm, rest)) : rest.length + 1 = l.length := by
  unfold heapPop at h
  split at h
  · exact absurd h (by simp)
  next last hlast =>
    have hlen : 0 < l.length := by
      cases l with
      | nil => exact absurd hlast (by simp)
      | cons y ys => simp
    have hdll : l.dropLast.length = l.length - 1 := List.length_dropLast l
    by_cases hemp : l.dropLast.isEmpty = true
    · rw [if_pos hemp] at h
      injection h with h2
      injection h2 with h3 h4
      have : l.dropLast.length = 0 := by
        rw [List.isEmpty_iff] at hemp
        rw [hemp]
        rfl
      rw [← h4]
      simp only [List.length_nil]
      omega
    · rw [if_neg hemp] at h
      injection h with h2
      injection h2 with h3 h4
      have hne : 0 < l.dropLast.length := by
        cases hdrop : l.dropLast with
        | nil => rw [hdrop] at hemp; exact absurd rfl hemp
        | cons y ys => simp [hdrop]
      rw [← h4, siftDownToBottom_length, List.length_set]
      omega

theorem buildHeap_mem (b : BitBoard) (flags : List Bool) :
    ∀ x ∈ buildHeap b flags,
      ∃ c : Column, flags.getD c.toNat false = true ∧ x = b.score_move c := by
  unfold buildHeap
  have key : ∀ (cols : List Column) (acc : List ScoredMove),
      (∀ x ∈ acc, ∃ c : Column, flags.getD c.toNat false = true ∧ x = b.score_move c) →
      ∀ x ∈ cols.foldl
        (fun h c => if flags.getD c.toNat false then heapPush h (b.score_move c) else h) acc,
        ∃ c : Column, flags.getD c.toNat false = true ∧ x = b.score_move c := by
    intro cols
    induction cols with
    | nil => intro acc hacc x hx; exact hacc x hx
    | cons c cs ih =>
      intro acc hacc x hx
      rw [List.foldl_cons] at hx
      refine ih _ ?_ x hx
      intro y hy
      by_cases hf : flags.getD c.toNat false = true
      · rw [if_pos hf] at hy
        rcases heapPush_subset y hy with hy2 | hy2
        · exact hacc y hy2
        · exact ⟨c, hf, hy2⟩
      · rw [if_neg hf] at hy
        exact hacc y hy
  exact key COLUMN_ORDER [] (by intro x hx; exact absurd hx (by simp))

/-! ### Totality and bounds of the negamax search -/

theorem nonlosing_ne_none {b : BitBoard} (hcw : b.can_win_in_one_move = false) :
    b.possible_nonlosing_moves ≠ none := by
  rw [possible_nonlosing_moves_body b hcw]
  split
  · simp
  · split <;> split <;> simp

theorem n_moves_le_42 {b : BitBoard} (hb : BoardInv b) : b.n_moves ≤ 42 := by
  obtain ⟨h0, h1, h2, h3, h4, h5, h6, b0, b1, b2, b3, b4, b5, b6, hm, hpos, hn⟩ := hb
  omega

theorem score_move_column (b : BitBoard) (c : Column) : (b.score_move c).column = c := rfl

/-- One step of `search_loop` when the heap still pops. -/
theorem search_loop_pop
    (recur : BitBoard → Int → Int → TranspositionTable →
      Option (Int × Nat × TranspositionTable))
    (lf : Nat) (b : BitBoard) (heap : List ScoredMove) (alpha beta : Int)
    (t : TranspositionTable) (nodes : Nat) (sm : ScoredMove) (rest : List ScoredMove)
    (hpop : heapPop heap = some (sm, rest)) :
    search_loop recur (lf+1) b heap alpha beta t nodes =
      match recur (b.play sm.column) (-beta) (-alpha) t with
      | none => none
      | some (s, n2, t2) =>
        if -s ≥ beta then some (-s, nodes + n2, t2)
        else search_loop recur lf b rest (max alpha (-s)) beta t2 (nodes + n2) := by
  rw [search_loop, hpop]

/-- One step of `search_loop` on an exhausted heap. -/
theorem search_loop_nil
    (recur : BitBoard → Int → Int → TranspositionTable →
      Option (Int × Nat × TranspositionTable))
    (lf : Nat) (b : BitBoard) (heap : List ScoredMove) (alpha beta : Int)
    (t : TranspositionTable) (nodes : Nat)
    (hpop : heapPop heap = none) :
    search_loop recur (lf+1) b heap alpha beta t nodes =
      some (alpha, nodes, t.set b.key (((alpha - MIN_SCORE + 1) % 256).toNat)) := by
  rw [search_loop, hpop]

/-- Totality and bounds of the expansion loop: provided every recursive
call on a child returns a value within the child's fail-soft bounds, the
loop returns a value `r` with `-(40-m)/2 ≤ r ≤ max alpha (41-m)/2`. -/
theorem search_loop_spec
    (recur : BitBoard → Int → Int → TranspositionTable →
      Option (Int × Nat × TranspositionTable))
    (b : BitBoard) (P : ScoredMove → Prop) (m : Int)
    (hrec : ∀ sm, P sm → ∀ (a2 b2 : Int) (t2 : TranspositionTable), a2 < b2 →
      ∃ r n t3, recur (b.play sm.column) a2 b2 t2 = some (r, n, t3) ∧
        -(((41 : Int) - m).tdiv 2) ≤ r ∧ r ≤ max a2 (((41 : Int) - m).tdiv 2)) :
    ∀ (lf : Nat) (heap : List ScoredMove) (alpha beta : Int)
      (t : TranspositionTable) (nodes : Nat),
      (∀ x ∈ heap, P x) → heap.length < lf → alpha < beta →
      -(((40 : Int) - m).tdiv 2) ≤ alpha →
      ∃ r n t2, search_loop recur lf b heap alpha beta t nodes = some (r, n, t2) ∧
        -(((40 : Int) - m).tdiv 2) ≤ r ∧ r ≤ max alpha (((41 : Int) - m).tdiv 2) := by
  intro lf
  induction lf with
  | zero =>
    intro heap alpha beta t nodes _ hlen _ _
    exact absurd hlen (by omega)
  | succ lf ih =>
    intro heap alpha beta t nodes hmem hlen hab halpha
    cases hpop : heapPop heap with
    | none =>
      exact ⟨alpha, nodes, _, search_loop_nil recur lf b heap alpha beta t nodes hpop,
        halpha, le_max_left _ _⟩
    | some pr =>
      obtain ⟨sm, rest⟩ := pr
      obtain ⟨hsm_mem, hrest_mem⟩ := heapPop_subset hpop
      have hlen2 := heapPop_length hpop
      obtain ⟨r1, n1, t1, hr1, hr1L, hr1U⟩ :=
        hrec sm (hmem sm hsm_mem) (-beta) (-alpha) t (by omega)
      have hkey : search_loop recur (lf+1) b heap alpha beta t nodes =
          (if -r1 ≥ beta then some (-r1, nodes + n1, t1)
           else search_loop recur lf b rest (max alpha (-r1)) beta t1 (nodes + n1)) := by
        rw [search_loop_pop recur lf b heap alpha beta t nodes sm rest hpop, hr1]
      have hsc_le : -r1 ≤ ((41 : Int) - m).tdiv 2 := by omega
      by_cases hcut : -r1 ≥ beta
      · rw [hkey, if_pos hcut]
        exact ⟨-r1, nodes + n1, t1, rfl, by omega,
          le_trans hsc_le (le_max_right _ _)⟩
      · rw [hkey, if_neg hcut]
        obtain ⟨r2, n2, t2, hr2, hr2L, hr2U⟩ := ih rest (max alpha (-r1)) beta t1
          (nodes + n1) (fun x hx => hmem x (hrest_mem x hx)) (by omega)
          (by rw [max_lt_iff]; exact ⟨hab, by omega⟩)
          (le_trans halpha (le_max_left _ _))
        refine ⟨r2, n2, t2, hr2, hr2L, le_trans hr2U (max_le ?_ (le_max_right _ _))⟩
        exact max_le (le_max_left _ _) (le_trans hsc_le (le_max_right _ _))

/-- One ply of `solve_impl` in dispatch form. -/
theorem solve_impl_succ_pnl (fuel : Nat) (b : BitBoard) (alpha0 beta0 : Int)
    (t : TranspositionTable) :
    solve_impl (fuel+1) b alpha0 beta0 t =
      solve_impl_dispatch (solve_impl fuel) b alpha0 beta0 t
        b.possible_nonlosing_moves := rfl

theorem solve_impl_dispatch_loss
    (recur : BitBoard → Int → Int → TranspositionTable →
      Option (Int × Nat × TranspositionTable))
    (b : BitBoard) (alpha0 beta0 : Int) (t : TranspositionTable) :
    solve_impl_dispatch recur b alpha0 beta0 t (some none) =
      some ((-((WIDTH * HEIGHT : Int) - b.number_of_moves)).tdiv 2, 1, t) := rfl

/-- `solve_impl` on a lost position (the non-losing move set is empty). -/
theorem solve_impl_loss (fuel : Nat) (b : BitBoard) (alpha0 beta0 : Int)
    (t : TranspositionTable) (hnl : b.possible_nonlosing_moves = some none) :
    solve_impl (fuel+1) b alpha0 beta0 t =
      some ((-((WIDTH * HEIGHT : Int) - b.number_of_moves)).tdiv 2, 1, t) := by
  rw [solve_impl_succ_pnl, hnl, solve_impl_dispatch_loss]

/-- `solve_impl_dispatch` on a non-empty non-losing move set, with the
clamp values named. -/
theorem solve_impl_dispatch_flags
    (recur : BitBoard → Int → Int → TranspositionTable →
      Option (Int × Nat × TranspositionTable))
    (b : BitBoard) (alpha0 beta0 : Int) (mn alpha mx0 mx beta : Int)
    (t : TranspositionTable) (flags : List Bool)
    (hmn : mn = (-((WIDTH * HEIGHT - 2 : Int) - b.number_of_moves)).tdiv 2)
    (halpha : alpha = if alpha0 < mn then mn else alpha0)
    (hmx0 : mx0 = ((WIDTH * HEIGHT - 1 : Int) - b.number_of_moves).tdiv 2)
    (hmx : mx = table_clamp t b mx0)
    (hbeta : beta = if beta0 > mx then mx else beta0) :
    solve_impl_dispatch recur b alpha0 beta0 t (some (some flags)) =
      if b.number_of_moves ≥ WIDTH * HEIGHT - 2 then some (0, 1, t)
      else if alpha0 < mn ∧ alpha ≥ beta0 then some (alpha, 1, t)
      else if beta0 > mx ∧ alpha ≥ beta then some (alpha, 1, t)
      else search_loop recur ((buildHeap b flags).length + 1) b
        (buildHeap b flags) alpha beta t 1 := by
  subst hmn halpha hmx0 hmx hbeta
  rfl

/-- `solve_impl` with a non-empty non-losing move set, with the clamp
values named. -/
theorem solve_impl_flags (fuel : Nat) (b : BitBoard) (alpha0 beta0 : Int)
    (mn alpha mx0 mx beta : Int)
    (t : TranspositionTable) (flags : List Bool)
    (hnl : b.possible_nonlosing_moves = some (some flags))
    (hmn : mn = (-((WIDTH * HEIGHT - 2 : Int) - b.number_of_moves)).tdiv 2)
    (halpha : alpha = if alpha0 < mn then mn else alpha0)
    (hmx0 : mx0 = ((WIDTH * HEIGHT - 1 : Int) - b.number_of_moves).tdiv 2)
    (hmx : mx = table_clamp t b mx0)
    (hbeta : beta = if beta0 > mx then mx else beta0) :
    solve_impl (fuel+1) b alpha0 beta0 t =
      if b.number_of_moves ≥ WIDTH * HEIGHT - 2 then some (0, 1, t)
      else if alpha0 < mn ∧ alpha ≥ beta0 then some (alpha, 1, t)
      else if beta0 > mx ∧ alpha ≥ beta then some (alpha, 1, t)
      else search_loop (solve_impl fuel) ((buildHeap b flags).length + 1) b
        (buildHeap b flags) alpha beta t 1 := by
  rw [solve_impl_succ_pnl, hnl]
  exact solve_impl_dispatch_flags (solve_impl fuel) b alpha0 beta0 mn alpha mx0 mx beta
    t flags hmn halpha hmx0 hmx hbeta

/-- Totality and fail-soft bounds of `solve_impl`: on an invariant position
whose player cannot win at once, with a valid window and enough fuel, the
search returns, and the score lies in `[-(42-m)/2, max alpha (42-m)/2]`. -/
theorem solve_impl_spec :
    ∀ (fuel : Nat) (b : BitBoard) (alpha0 beta0 : Int) (t : TranspositionTable),
      BoardInv b → b.can_win_in_one_move = false → alpha0 < beta0 →
      1 ≤ fuel → 41 ≤ b.n_moves + fuel →
      ∃ r n t2, solve_impl fuel b alpha0 beta0 t = some (r, n, t2) ∧
        -(((42 : Int) - (b.n_moves : Int)).tdiv 2) ≤ r ∧
        r ≤ max alpha0 (((42 : Int) - (b.n_moves : Int)).tdiv 2) := by
  intro fuel
  induction fuel with
  | zero => intro b alpha0 beta0 t _ _ _ h1 _; exact absurd h1 (by omega)
  | succ fuel ih =>
    intro b alpha0 beta0 t hb hcw hab hf1 hfuel
    have hm42 : b.n_moves ≤ 42 := n_moves_le_42 hb
    have hno : b.number_of_moves = b.n_moves := rfl
    have t42 : ((42 : Int) - (b.n_moves : Int)).tdiv 2 =
        ((42 : Int) - (b.n_moves : Int)) / 2 :=
      Int.tdiv_eq_ediv (by omega) (by omega)
    have t41 : ((41 : Int) - (b.n_moves : Int)).tdiv 2 =
        ((41 : Int) - (b.n_moves : Int)) / 2 ∨ 42 ≤ b.n_moves := by
      by_cases h : b.n_moves ≤ 41
      · exact Or.inl (Int.tdiv_eq_ediv (by omega) (by omega))
      · exact Or.inr (by omega)
    have hlossval : (-((WIDTH * HEIGHT : Int) - (b.number_of_moves : Int))).tdiv 2 =
        -(((42 : Int) - (b.n_moves : Int)).tdiv 2) := by
      have h1 : (WIDTH * HEIGHT : Int) = 42 := by decide
      rw [h1, hno, Int.neg_tdiv]
    cases hnl : b.possible_nonlosing_moves with
    | none => exact absurd hnl (nonlosing_ne_none hcw)
    | some o =>
      cases o with
      | none =>
        refine ⟨_, 1, t, solve_impl_loss fuel b alpha0 beta0 t hnl, ?_, ?_⟩
        · rw [hlossval]
        · rw [hlossval]
          have h0 : 0 ≤ ((42 : Int) - (b.n_moves : Int)).tdiv 2 := by omega
          exact le_trans (by omega) (le_max_right _ _)
      | some flags =>
        have hWHn : WIDTH * HEIGHT - 2 = 40 := by decide
        by_cases hdraw : b.number_of_moves ≥ WIDTH * HEIGHT - 2
        · have hkey := solve_impl_flags fuel b alpha0 beta0 _ _ _ _ _ t flags hnl
            rfl rfl rfl rfl rfl
          rw [if_pos hdraw] at hkey
          have h0 : 0 ≤ ((42 : Int) - (b.n_moves : Int)).tdiv 2 := by omega
          exact ⟨0, 1, t, hkey, by omega, le_trans h0 (le_max_right _ _)⟩
        · have hd39 : b.n_moves ≤ 39 := by rw [hWHn, hno] at hdraw; omega
          have t40 : ((40 : Int) - (b.n_moves : Int)).tdiv 2 =
              ((40 : Int) - (b.n_moves : Int)) / 2 :=
            Int.tdiv_eq_ediv (by omega) (by omega)
          have t41e : ((41 : Int) - (b.n_moves : Int)).tdiv 2 =
              ((41 : Int) - (b.n_moves : Int)) / 2 :=
            Int.tdiv_eq_ediv (by omega) (by omega)
          have hmnval : (-((WIDTH * HEIGHT - 2 : Int) - (b.number_of_moves : Int))).tdiv 2
              = -(((40 : Int) - (b.n_moves : Int)).tdiv 2) := by
            have h1 : (WIDTH * HEIGHT - 2 : Int) = 40 := by decide
            rw [h1, hno, Int.neg_tdiv]
          have hmx0val : ((WIDTH * HEIGHT - 1 : Int) - (b.number_of_moves : Int)).tdiv 2
              = ((41 : Int) - (b.n_moves : Int)).tdiv 2 := by
            have h1 : (WIDTH * HEIGHT - 1 : Int) = 41 := by decide
            rw [h1, hno]
          have hkey := solve_impl_flags fuel b alpha0 beta0
            (-(((40 : Int) - (b.n_moves : Int)).tdiv 2)) _
            (((41 : Int) - (b.n_moves : Int)).tdiv 2) _ _ t flags hnl
            hmnval.symm rfl hmx0val.symm rfl rfl
          rw [if_neg hdraw] at hkey
          set mnv := -(((40 : Int) - (b.n_moves : Int)).tdiv 2) with hmnv
          set A := if alpha0 < mnv then mnv else alpha0 with hA
          set MX := table_clamp t b (((41 : Int) - (b.n_moves : Int)).tdiv 2) with hMX
          set B := if beta0 > MX then MX else beta0 with hB
          have hA_ge : alpha0 ≤ A ∧ mnv ≤ A := by
            rw [hA]; split <;> constructor <;> omega
          have hA_cases : A = mnv ∨ A = alpha0 := by
            rw [hA]; split
            · exact Or.inl rfl
            · exact Or.inr rfl
          have hL_A : -(((42 : Int) - (b.n_moves : Int)).tdiv 2) ≤ A := by omega
          have hU_A : A ≤ max alpha0 (((42 : Int) - (b.n_moves : Int)).tdiv 2) := by
            rcases hA_cases with h | h
            · rw [h, hmnv]
              exact le_trans (by omega) (le_max_right _ _)
            · rw [h]
              exact le_max_left _ _
          by_cases hg1 : alpha0 < mnv ∧ A ≥ beta0
          · rw [if_pos hg1] at hkey
            exact ⟨A, 1, t, hkey, hL_A, hU_A⟩
          · rw [if_neg hg1] at hkey
            have hAb : A < beta0 := by
              by_cases hc : alpha0 < mnv
              · have he : A = mnv := by rw [hA, if_pos hc]
                by_cases hge : A ≥ beta0
                · exact absurd ⟨hc, hge⟩ hg1
                · omega
              · have he : A = alpha0 := by rw [hA, if_neg hc]
                omega
            by_cases hg2 : beta0 > MX ∧ A ≥ B
            · rw [if_pos hg2] at hkey
              exact ⟨A, 1, t, hkey, hL_A, hU_A⟩
            · rw [if_neg hg2] at hkey
              have hAB : A < B := by
                by_cases hc : beta0 > MX
                · have hBe : B = MX := by rw [hB, if_pos hc]
                  by_cases hge : A ≥ B
                  · exact absurd ⟨hc, hge⟩ hg2
                  · omega
                · have hBe : B = beta0 := by rw [hB, if_neg hc]
                  omega
              have hrec : ∀ sm : ScoredMove,
                  (∃ c : Column, flags.getD c.toNat false = true ∧ sm = b.score_move c) →
                  ∀ (a2 b2 : Int) (t2 : TranspositionTable), a2 < b2 →
                  ∃ r n t3, solve_impl fuel (b.play sm.column) a2 b2 t2 = some (r, n, t3) ∧
                    -(((41 : Int) - (b.n_moves : Int)).tdiv 2) ≤ r ∧
                    r ≤ max a2 (((41 : Int) - (b.n_moves : Int)).tdiv 2) := by
                rintro sm ⟨c, hflag, hsm⟩ a2 b2 t2 hab2
                obtain ⟨hplay, hccw⟩ := nonlosing_child_safe hb hcw hnl c hflag
                obtain ⟨hbInv2, hmadd2, hc52, hnm2, hhts2⟩ := boardInv_play hb c hplay
                have hcol : sm.column = c := by rw [hsm, score_move_column]
                rw [hcol]
                obtain ⟨r, n, t3, hr, hrL, hrU⟩ := ih (b.play c) a2 b2 t2 hbInv2 hccw hab2
                  (by omega) (by rw [hnm2]; omega)
                have hcast : (((b.play c).n_moves : Nat) : Int) = (b.n_moves : Int) + 1 := by
                  rw [hnm2]; push_cast; ring
                rw [hcast] at hrL hrU
                have he : (42 : Int) - ((b.n_moves : Int) + 1) = 41 - (b.n_moves : Int) := by
                  ring
                rw [he] at hrL hrU
                exact ⟨r, n, t3, hr, hrL, hrU⟩
              obtain ⟨r, n, t2, hsl, hslL, hslU⟩ := search_loop_spec (solve_impl fuel) b
                (fun sm => ∃ c : Column, flags.getD c.toNat false = true ∧
                  sm = b.score_move c)
                ((b.n_moves : Int)) hrec ((buildHeap b flags).length + 1)
                (buildHeap b flags) A B t 1 (buildHeap_mem b flags) (by omega) hAB
                (by rw [← hmnv]; exact hA_ge.2)
              refine ⟨r, n, t2, ?_, by omega, ?_⟩
              · rw [hkey]; exact hsl
              · rcases le_max_iff.mp hslU with h | h
                · exact le_trans h hU_A
                · refine le_trans h (le_trans (by omega) (le_max_right _ _))

/-! ### Totality and bounds of the bisection driver -/

theorem solve_loop_zero (b : BitBoard) (mn mx : Int) (nodes : Nat)
    (t : TranspositionTable) : solve_loop 0 b mn mx nodes t = none := rfl

theorem solve_loop_succ (lf : Nat) (b : BitBoard) (mn mx : Int) (nodes : Nat)
    (t : TranspositionTable) (mid0 mid : Int)
    (hmid0 : mid0 = mn + (mx - mn).tdiv 2)
    (hmid : mid = if mid0 ≤ 0 ∧ mn.tdiv 2 < mid0 then mn.tdiv 2
      else if mid0 ≥ 0 ∧ mx.tdiv 2 > mid0 then mx.tdiv 2
      else mid0) :
    solve_loop (lf+1) b mn mx nodes t =
      if mn < mx then
        solve_loop_body (solve_loop lf) b mn mx nodes mid
          (solve_impl 43 b mid (mid + 1) t)
      else some (mn, nodes, t) := by
  subst hmid
  subst hmid0
  rfl

theorem solve_loop_body_some
    (recur : BitBoard → Int → Int → Nat → TranspositionTable →
      Option (Int × Nat × TranspositionTable))
    (b : BitBoard) (mn mx : Int) (nodes : Nat) (mid : Int) (s : Int) (n : Nat)
    (t2 : TranspositionTable) :
    solve_loop_body recur b mn mx nodes mid (some (s, n, t2)) =
      if s > mid then recur b s mx (nodes + n) t2
      else recur b mn s (nodes + n) t2 := rfl

/-- Unfolding of `Solver::solve`. -/
theorem solver_solve_eq (b : BitBoard) (t : TranspositionTable) :
    Solver.solve b t =
      if b.can_win_in_one_move then some (score b.number_of_moves, 1, t)
      else
        solve_loop 64 b
          ((-((WIDTH * HEIGHT : Int) - b.number_of_moves)).tdiv 2)
          (((WIDTH * HEIGHT + 1 : Int) - b.number_of_moves).tdiv 2)
          0 t := rfl

/-- Totality and bounds of the bisection loop: the interval width bounds
the fuel, the lower end only rises (to probe results), and the final
answer stays inside `[-(42-m)/2, (42-m)/2]`. -/
theorem solve_loop_spec :
    ∀ (lf : Nat) (b : BitBoard) (mn mx : Int) (nodes : Nat)
      (t : TranspositionTable),
      BoardInv b → b.can_win_in_one_move = false →
      (mx - mn).toNat < lf →
      -(((42 : Int) - (b.n_moves : Int)).tdiv 2) ≤ mn →
      mn ≤ ((42 : Int) - (b.n_moves : Int)).tdiv 2 →
      ∃ r n t2, solve_loop lf b mn mx nodes t = some (r, n, t2) ∧
        -(((42 : Int) - (b.n_moves : Int)).tdiv 2) ≤ r ∧
        r ≤ ((42 : Int) - (b.n_moves : Int)).tdiv 2 := by
  intro lf
  induction lf with
  | zero => intro b mn mx nodes t _ _ hm _ _; exact absurd hm (by omega)
  | succ lf ih =>
    intro b mn mx nodes t hb hcw hfuel hL hU
    by_cases hlt : mn < mx
    · obtain ⟨mid0, hmid0⟩ : ∃ m0 : Int, m0 = mn + (mx - mn).tdiv 2 := ⟨_, rfl⟩
      obtain ⟨mid, hmid⟩ : ∃ m : Int,
          m = (if mid0 ≤ 0 ∧ mn.tdiv 2 < mid0 then mn.tdiv 2
            else if mid0 ≥ 0 ∧ mx.tdiv 2 > mid0 then mx.tdiv 2
            else mid0) := ⟨_, rfl⟩
      have hkey := solve_loop_succ lf b mn mx nodes t mid0 mid hmid0 hmid
      rw [if_pos hlt] at hkey
      have e1 : (mx - mn).tdiv 2 = (mx - mn) / 2 :=
        Int.tdiv_eq_ediv (by omega) (by omega)
      have hmid0b : mn ≤ mid0 ∧ mid0 < mx := by omega
      have hmidb : mn ≤ mid ∧ mid < mx := by
        by_cases hc1 : mid0 ≤ 0 ∧ mn.tdiv 2 < mid0
        · rw [if_pos hc1] at hmid
          have hmn0 : mn ≤ 0 := by omega
          have e2 : mn.tdiv 2 = -((-mn) / 2) := by
            rw [← Int.tdiv_eq_ediv (by omega : (0:Int) ≤ -mn) (by omega),
              ← Int.neg_tdiv, neg_neg]
          omega
        · rw [if_neg hc1] at hmid
          by_cases hc2 : mid0 ≥ 0 ∧ mx.tdiv 2 > mid0
          · rw [if_pos hc2] at hmid
            have hmx0 : 0 < mx := by omega
            have e3 : mx.tdiv 2 = mx / 2 :=
              Int.tdiv_eq_ediv (by omega) (by omega)
            omega
          · rw [if_neg hc2] at hmid
            omega
      obtain ⟨s, n1, t1, hs, hsL, hsU⟩ := solve_impl_spec 43 b mid (mid+1) t hb hcw
        (by omega) (by omega) (by omega)
      rw [hs, solve_loop_body_some] at hkey
      by_cases hgt : s > mid
      · rw [if_pos hgt] at hkey
        have hsK : s ≤ ((42 : Int) - (b.n_moves : Int)).tdiv 2 := by
          rcases le_max_iff.mp hsU with h | h
          · omega
          · exact h
        obtain ⟨r, n2, t2, hr, hrL, hrU⟩ := ih b s mx (nodes + n1) t1 hb hcw
          (by omega) (by omega) hsK
        exact ⟨r, n2, t2, by rw [hkey]; exact hr, hrL, hrU⟩
      · rw [if_neg hgt] at hkey
        obtain ⟨r, n2, t2, hr, hrL, hrU⟩ := ih b mn s (nodes + n1) t1 hb hcw
          (by omega) hL hU
        exact ⟨r, n2, t2, by rw [hkey]; exact hr, hrL, hrU⟩
    · refine ⟨mn, nodes, t, ?_, hL, hU⟩
      rw [solve_loop_succ lf b mn mx nodes t _ _ rfl rfl, if_neg hlt]

/-- Totality and bounds of `Solver::solve` on any invariant position, with
any table contents: the result exists and lies between the
immediate-loss score `-(42-m)/2` and the immediate-win score `(43-m)/2`. -/
theorem solve_spec (b : BitBoard) (hb : BoardInv b) (t : TranspositionTable) :
    ∃ r n t2, Solver.solve b t = some (r, n, t2) ∧
      -(((42 : Int) - (b.n_moves : Int)).tdiv 2) ≤ r ∧
      r ≤ ((43 : Int) - (b.n_moves : Int)).tdiv 2 := by
  have hm42 : b.n_moves ≤ 42 := n_moves_le_42 hb
  have t42 : ((42 : Int) - (b.n_moves : Int)).tdiv 2 =
      ((42 : Int) - (b.n_moves : Int)) / 2 := Int.tdiv_eq_ediv (by omega) (by omega)
  have t43 : ((43 : Int) - (b.n_moves : Int)).tdiv 2 =
      ((43 : Int) - (b.n_moves : Int)) / 2 := Int.tdiv_eq_ediv (by omega) (by omega)
  rw [solver_solve_eq]
  by_cases hcw : b.can_win_in_one_move = true
  · rw [if_pos hcw]
    have hsc : score b.number_of_moves = ((43 : Int) - (b.n_moves : Int)).tdiv 2 := by
      unfold score
      have h1 : (WIDTH * HEIGHT + 1 : Int) = 43 := by decide
      rw [h1]
      rfl
    refine ⟨score b.number_of_moves, 1, t, rfl, ?_, ?_⟩
    · rw [hsc]; omega
    · rw [hsc]
  · rw [if_neg hcw]
    have hcwf : b.can_win_in_one_move = false := by
      cases h : b.can_win_in_one_move
      · rfl
      · exact absurd h hcw
    have hmn0 : (-((WIDTH * HEIGHT : Int) - (b.number_of_moves : Int))).tdiv 2 =
        -(((42 : Int) - (b.n_moves : Int)).tdiv 2) := by
      have h1 : (WIDTH * HEIGHT : Int) = 42 := by decide
      rw [h1, Int.neg_tdiv]
      rfl
    have hmx0 : ((WIDTH * HEIGHT + 1 : Int) - (b.number_of_moves : Int)).tdiv 2 =
        ((43 : Int) - (b.n_moves : Int)).tdiv 2 := by
      have h1 : (WIDTH * HEIGHT + 1 : Int) = 43 := by decide
      rw [h1]
      rfl
    rw [hmn0, hmx0]
    obtain ⟨r, n, t2, hr, hrL, hrU⟩ := solve_loop_spec 64 b
      (-(((42 : Int) - (b.n_moves : Int)).tdiv 2))
      (((43 : Int) - (b.n_moves : Int)).tdiv 2) 0 t hb hcwf
      (by omega) (le_refl _) (by omega)
    exact ⟨r, n, t2, hr, hrL, by omega⟩

/-! ### The heap really is a max-heap on scores -/

/-- The score stored at index `i` of the heap vector. -/
def sval (l : List ScoredMove) (i : Nat) : Nat := (hget l i).score

/-- Max-heap property on scores: every non-root entry is at most its
parent. -/
def IsHeap (l : List ScoredMove) : Prop :=
  ∀ i, 0 < i → i < l.length → sval l i ≤ sval l ((i-1)/2)

theorem hget_set_self {l : List ScoredMove} {p : Nat} (hp : p < l.length)
    (x : ScoredMove) : hget (l.set p x) p = x := by
  unfold hget
  rw [List.getD_eq_getElem _ _ (by rw [List.length_set]; exact hp)]
  simp

theorem hget_set_ne {l : List ScoredMove} {i p : Nat} (h : i ≠ p)
    (x : ScoredMove) : hget (l.set p x) i = hget l i := by
  unfold hget
  by_cases hi : i < l.length
  · rw [List.getD_eq_getElem _ _ (by rw [List.length_set]; exact hi),
      List.getD_eq_getElem _ _ hi]
    rw [List.getElem_set_ne (fun he => h he.symm)]
  · rw [List.getD_eq_default _ _ (by rw [List.length_set]; omega),
      List.getD_eq_default _ _ (by omega)]

theorem sval_set_self {l : List ScoredMove} {p : Nat} (hp : p < l.length)
    (x : ScoredMove) : sval (l.set p x) p = x.score := by
  unfold sval; rw [hget_set_self hp]

theorem sval_set_ne {l : List ScoredMove} {i p : Nat} (h : i ≠ p)
    (x : ScoredMove) : sval (l.set p x) i = sval l i := by
  unfold sval; rw [hget_set_ne h]

theorem parent_eq_iff (i p : Nat) (hi : 0 < i) :
    (i-1)/2 = p ↔ i = 2*p+1 ∨ i = 2*p+2 := by omega

theorem le_score {a b : ScoredMove} (h : ScoredMove.le a b = true) :
    a.score ≤ b.score := by
  unfold ScoredMove.le at h
  exact of_decide_eq_true h

theorem not_le_score {a b : ScoredMove} (h : ¬ ScoredMove.le a b = true) :
    b.score < a.score := by
  unfold ScoredMove.le at h
  by_cases hab : a.score ≤ b.score
  · exact absurd (decide_eq_true hab) h
  · omega

/-- `sift_up` restores the heap property: starting from a vector that is a
heap away from the hole, whose hole children are bounded by the inserted
score and by the hole's parent, the walk ends in a heap. -/
theorem siftUpGo_heap :
    ∀ (fuel : Nat) (v : List ScoredMove) (e : ScoredMove) (pos : Nat),
      pos < v.length → pos + 1 ≤ fuel →
      (∀ i, 0 < i → i < v.length → i ≠ pos → (i-1)/2 ≠ pos →
        sval v i ≤ sval v ((i-1)/2)) →
      (∀ c, c < v.length → (c = 2*pos+1 ∨ c = 2*pos+2) → sval v c ≤ e.score) →
      (0 < pos → ∀ c, c < v.length → (c = 2*pos+1 ∨ c = 2*pos+2) →
        sval v c ≤ sval v ((pos-1)/2)) →
      IsHeap (siftUpGo fuel v e pos 0) := by
  intro fuel
  induction fuel with
  | zero => intro v e pos _ hf _ _ _; exact absurd hf (by omega)
  | succ f ih =>
    intro v e pos hpos hf hB hC hC2
    rw [siftUpGo]
    by_cases hc : pos > 0 ∧ ¬ (ScoredMove.le e (hget v ((pos - 1) / 2)) = true)
    · rw [if_pos hc]
      have hppos : (pos - 1) / 2 < pos := by omega
      have hplt : (pos - 1) / 2 < v.length := by omega
      have hpe : (hget v ((pos - 1) / 2)).score < e.score := not_le_score hc.2
      apply ih _ e ((pos - 1) / 2) (by rw [List.length_set]; omega) (by omega) ?B ?C ?C2
      case B =>
        intro i hi hlen hip hpp
        rw [List.length_set] at hlen
        by_cases hipos : i = pos
        · exact absurd (by omega : (i-1)/2 = (pos - 1) / 2) hpp
        · rw [sval_set_ne hipos]
          by_cases hppos2 : (i-1)/2 = pos
          · rw [hppos2, sval_set_self hpos]
            have hchild : i = 2*pos+1 ∨ i = 2*pos+2 := (parent_eq_iff i pos hi).mp hppos2
            exact hC2 hc.1 i hlen hchild
          · rw [sval_set_ne hppos2]
            exact hB i hi hlen hipos hppos2
      case C =>
        intro c hlen hcc
        rw [List.length_set] at hlen
        by_cases hcpos : c = pos
        · rw [hcpos, sval_set_self hpos]
          exact le_of_lt hpe
        · rw [sval_set_ne hcpos]
          have h1 : (c-1)/2 = (pos - 1) / 2 := by omega
          have h2 : c ≠ pos := hcpos
          have := hB c (by omega) hlen h2 (by omega)
          rw [h1] at this
          have hk : sval v ((pos - 1) / 2) = (hget v ((pos - 1) / 2)).score := rfl
          omega
      case C2 =>
        intro hp0 c hlen hcc
        rw [List.length_set] at hlen
        have hgp : ((pos - 1) / 2 - 1) / 2 ≠ pos := by omega
        have hgp2 : ((pos - 1) / 2 - 1) / 2 < pos := by omega
        have hpar : sval v ((pos - 1) / 2) ≤ sval v (((pos - 1) / 2 - 1) / 2) :=
          hB ((pos - 1) / 2) hp0 hplt (by omega) (by omega)
        rw [sval_set_ne (by omega : ((pos - 1) / 2 - 1) / 2 ≠ pos)]
        by_cases hcpos : c = pos
        · rw [hcpos, sval_set_self hpos]
          exact hpar
        · rw [sval_set_ne hcpos]
          have h1 : (c-1)/2 = (pos - 1) / 2 := by omega
          have := hB c (by omega) hlen hcpos (by omega)
          rw [h1] at this
          omega
    · rw [if_neg hc]
      intro i hi hlen
      rw [List.length_set] at hlen
      by_cases hip : i = pos
      · subst hip
        have hstop : ScoredMove.le e (hget v ((i - 1) / 2)) = true := by
          by_cases h0 : i > 0
          · by_cases hle : ScoredMove.le e (hget v ((i - 1) / 2)) = true
            · exact hle
            · exact absurd ⟨h0, hle⟩ hc
          · omega
        rw [sval_set_self hpos, sval_set_ne (by omega : (i-1)/2 ≠ i)]
        exact le_score hstop
      · rw [sval_set_ne hip]
        by_cases hpp : (i-1)/2 = pos
        · rw [hpp, sval_set_self hpos]
          exact hC i hlen ((parent_eq_iff i pos hi).mp hpp)
        · rw [sval_set_ne hpp]
          exact hB i hi hlen hip hpp

/-- `BinaryHeap::push` preserves the heap property. -/
theorem heapPush_heap {l : List ScoredMove} (hl : IsHeap l) (e : ScoredMove) :
    IsHeap (heapPush l e) := by
  unfold heapPush
  have hlen : l.length < (l ++ [e]).length := by simp
  apply siftUpGo_heap _ _ e _ hlen (le_refl _) ?B ?C ?C2
  case B =>
    intro i hi hlen2 hip _
    simp only [List.length_append, List.length_cons, List.length_nil] at hlen2
    have hi2 : i < l.length := by omega
    have hp2 : (i-1)/2 < l.length := by omega
    have e1 : hget (l ++ [e]) i = hget l i := by
      unfold hget
      rw [List.getD_eq_getElem _ _ (by simp; omega), List.getD_eq_getElem _ _ hi2]
      exact List.getElem_append_left hi2
    have e2 : hget (l ++ [e]) ((i-1)/2) = hget l ((i-1)/2) := by
      unfold hget
      rw [List.getD_eq_getElem _ _ (by simp; omega), List.getD_eq_getElem _ _ hp2]
      exact List.getElem_append_left hp2
    unfold sval
    rw [e1, e2]
    exact hl i hi hi2
  case C =>
    intro c hlen2 hcc
    simp only [List.length_append, List.length_cons, List.length_nil] at hlen2
    omega
  case C2 =>
    intro _ c hlen2 hcc
    simp only [List.length_append, List.length_cons, List.length_nil] at hlen2
    omega

/-- The hole-descent of `sift_down_to_bottom` ends at a child-free index. -/
theorem sdtbGo_bottom :
    ∀ (fuel : Nat) (v : List ScoredMove) (pos len : Nat),
      len ≤ fuel + pos → 2 * (sdtbGo fuel v pos len).2 + 1 ≥ len := by
  intro fuel
  induction fuel with
  | zero =>
    intro v pos len h
    show 2 * pos + 1 ≥ len
    omega
  | succ f ih =>
    intro v pos len h
    rw [sdtbGo]
    by_cases hc : 2 * pos + 1 ≤ len - 2
    · rw [if_pos hc]
      have hd : (if ScoredMove.le (hget v (2 * pos + 1)) (hget v (2 * pos + 1 + 1)) = true
          then 1 else 0) ≤ 1 := by
        split <;> omega
      exact ih _ _ _ (by omega)
    · rw [if_neg hc]
      by_cases hc2 : 2 * pos + 1 = len - 1
      · rw [if_pos hc2]
        show 2 * (2 * pos + 1) + 1 ≥ len
        omega
      · rw [if_neg hc2]
        show 2 * pos + 1 ≥ len
        omega

/-- The hole-descent of `sift_down_to_bottom` keeps the heap property away
from the hole, and keeps the hole's children below the hole's parent. -/
theorem sdtbGo_heap :
    ∀ (fuel : Nat) (v : List ScoredMove) (pos len : Nat),
      len = v.length → pos < len →
      (∀ i, 0 < i → i < len → i ≠ pos → (i-1)/2 ≠ pos →
        sval v i ≤ sval v ((i-1)/2)) →
      (0 < pos → ∀ c, c < len → (c = 2*pos+1 ∨ c = 2*pos+2) →
        sval v c ≤ sval v ((pos-1)/2)) →
      (∀ i, 0 < i → i < len → i ≠ (sdtbGo fuel v pos len).2 →
          (i-1)/2 ≠ (sdtbGo fuel v pos len).2 →
          sval (sdtbGo fuel v pos len).1 i ≤
            sval (sdtbGo fuel v pos len).1 ((i-1)/2)) ∧
      (0 < (sdtbGo fuel v pos len).2 →
        ∀ c, c < len →
          (c = 2*(sdtbGo fuel v pos len).2+1 ∨ c = 2*(sdtbGo fuel v pos len).2+2) →
          sval (sdtbGo fuel v pos len).1 c ≤
            sval (sdtbGo fuel v pos len).1 (((sdtbGo fuel v pos len).2-1)/2)) := by
  intro fuel
  induction fuel with
  | zero => intro v pos len _ _ hB hC2; exact ⟨hB, hC2⟩
  | succ f ih =>
    intro v pos len hlen hpos hB hC2
    rw [sdtbGo]
    by_cases hc : 2 * pos + 1 ≤ len - 2
    · rw [if_pos hc]
      have hlen2 : 2 ≤ len := by omega
      set cx := 2 * pos + 1 +
        (if ScoredMove.le (hget v (2 * pos + 1)) (hget v (2 * pos + 1 + 1)) = true
          then 1 else 0) with hcx
      have hcxr : cx = 2 * pos + 1 ∨ cx = 2 * pos + 2 := by
        rw [hcx]; split <;> omega
      have hcxlt : cx < len := by omega
      have hcxpos : pos < cx := by omega
      have hposlt : pos < v.length := by omega
      have hmax1 : sval v (2 * pos + 1) ≤ sval v cx := by
        rw [hcx]
        by_cases hle : ScoredMove.le (hget v (2 * pos + 1)) (hget v (2 * pos + 1 + 1)) = true
        · rw [if_pos hle]
          have := le_score hle
          show sval v (2 * pos + 1) ≤ sval v (2 * pos + 1 + 1)
          unfold sval
          omega
        · rw [if_neg hle]
      have hmax2 : 2 * pos + 2 < len → sval v (2 * pos + 2) ≤ sval v cx := by
        intro _
        rw [hcx]
        by_cases hle : ScoredMove.le (hget v (2 * pos + 1)) (hget v (2 * pos + 1 + 1)) = true
        · rw [if_pos hle]
        · rw [if_neg hle]
          have := not_le_score hle
          show sval v (2 * pos + 1 + 1) ≤ sval v (2 * pos + 1)
          unfold sval
          omega
      apply ih (v.set pos (hget v cx)) cx len (by rw [List.length_set]; exact hlen)
        hcxlt ?B ?C2
      case B =>
        intro i hi hilen hicx hpcx
        by_cases hipos : i = pos
        · subst hipos
          have hpar_ne : (i-1)/2 ≠ i := by omega
          rw [sval_set_self (by omega), sval_set_ne (by omega : (i-1)/2 ≠ i)]
          have hi0 : 0 < i := hi
          exact hC2 hi0 cx hcxlt hcxr
        · rw [sval_set_ne hipos]
          by_cases hpp : (i-1)/2 = pos
          · rw [hpp, sval_set_self (by omega)]
            have hchild : i = 2*pos+1 ∨ i = 2*pos+2 := (parent_eq_iff i pos hi).mp hpp
            rcases hchild with h | h
            · rw [h]; exact hmax1
            · rw [h]; exact hmax2 (by omega)
          · rw [sval_set_ne hpp]
            exact hB i hi hilen hipos hpp
      case C2 =>
        intro _ c hclen hcc
        have hpc : (cx - 1) / 2 = pos := by omega
        rw [hpc, sval_set_self (by omega)]
        have hcne : c ≠ pos := by omega
        rw [sval_set_ne hcne]
        have hcpar : (c-1)/2 = cx := by omega
        have := hB c (by omega) hclen (by omega) (by omega)
        rw [hcpar] at this
        exact this
    · rw [if_neg hc]
      by_cases hc2 : 2 * pos + 1 = len - 1
      · rw [if_pos hc2]
        have hlen1 : 2 ≤ len := by omega
        have hchlt : 2 * pos + 1 < len := by omega
        constructor
        · intro i hi hilen hich hpch
          show sval (v.set pos (hget v (2 * pos + 1))) i ≤
            sval (v.set pos (hget v (2 * pos + 1))) ((i-1)/2)
          by_cases hipos : i = pos
          · subst hipos
            rw [sval_set_self (by omega), sval_set_ne (by omega : (i-1)/2 ≠ i)]
            exact hC2 hi (2 * i + 1) hchlt (Or.inl rfl)
          · rw [sval_set_ne hipos]
            by_cases hpp : (i-1)/2 = pos
            · rw [hpp, sval_set_self (by omega)]
              have hchild : i = 2*pos+1 ∨ i = 2*pos+2 := (parent_eq_iff i pos hi).mp hpp
              rcases hchild with h | h
              · exact absurd h hich
              · omega
            · rw [sval_set_ne hpp]
              exact hB i hi hilen hipos hpp
        · intro hp0 c hclen hcc
          show sval (v.set pos (hget v (2 * pos + 1))) c ≤
            sval (v.set pos (hget v (2 * pos + 1))) ((2 * pos + 1 - 1)/2)
          omega
      · rw [if_neg hc2]
        exact ⟨hB, hC2⟩

/-- `sift_down_to_bottom` starting from a heap-with-root-hole yields a
heap. -/
theorem siftDownToBottom_heap (l : List ScoredMove) (e : ScoredMove)
    (hl : 0 < l.length)
    (hB : ∀ i, 0 < i → i < l.length → (i-1)/2 ≠ 0 → sval l i ≤ sval l ((i-1)/2)) :
    IsHeap (siftDownToBottom l e) := by
  unfold siftDownToBottom
  have h1 := sdtbGo_heap l.length l 0 l.length rfl hl
    (fun i hi hlen _ hpp => hB i hi hlen hpp) (fun h0 => absurd h0 (by omega))
  have hpos := sdtbGo_pos_lt l.length l 0 l.length hl rfl
  have hbot := sdtbGo_bottom l.length l 0 l.length (by omega)
  have hlen1 := sdtbGo_length l.length l 0 l.length
  apply siftUpGo_heap _ _ e _ (by rw [hlen1]; exact hpos) (le_refl _) ?B ?C ?C2
  case B =>
    intro i hi hlen hip hpp
    rw [hlen1] at hlen
    exact h1.1 i hi hlen hip hpp
  case C =>
    intro c hlen hcc
    rw [hlen1] at hlen
    omega
  case C2 =>
    intro _ c hlen hcc
    rw [hlen1] at hlen
    omega

/-- In a max-heap the root bounds every entry. -/
theorem root_max {l : List ScoredMove} (hl : IsHeap l) :
    ∀ i, i < l.length → sval l i ≤ sval l 0 := by
  intro i
  induction i using Nat.strong_induction_on with
  | _ i ih =>
    intro hi
    by_cases h0 : i = 0
    · rw [h0]
    · have h1 := hl i (by omega) hi
      have h2 := ih ((i-1)/2) (by omega) (by omega)
      omega

theorem mem_score_le_root {l : List ScoredMove} (hl : IsHeap l) {x : ScoredMove}
    (hx : x ∈ l) : x.score ≤ sval l 0 := by
  obtain ⟨i, hi, hgx⟩ := List.mem_iff_getElem.mp hx
  have : sval l i = x.score := by
    unfold sval hget
    rw [List.getD_eq_getElem _ _ hi, hgx]
  rw [← this]
  exact root_max hl i hi

theorem hget_dropLast {l : List ScoredMove} {i : Nat} (h : i < l.dropLast.length) :
    hget l.dropLast i = hget l i := by
  unfold hget
  have h2 : i < l.length := by
    rw [List.length_dropLast] at h
    omega
  rw [List.getD_eq_getElem _ _ h, List.getD_eq_getElem _ _ h2]
  exact List.getElem_dropLast l i h

/-- The heap of a shorter prefix: dropping the last element preserves the
heap property. -/
theorem isHeap_dropLast {l : List ScoredMove} (hl : IsHeap l) :
    IsHeap l.dropLast := by
  intro i hi hlen
  have h2 : i < l.length := by
    rw [List.length_dropLast] at hlen
    omega
  unfold sval
  rw [hget_dropLast hlen, hget_dropLast (by rw [List.length_dropLast] at hlen ⊢; omega)]
  exact hl i hi h2

/-- `BinaryHeap::pop` returns the maximum and leaves a heap. -/
theorem heapPop_max_heap {l : List ScoredMove} (hl : IsHeap l)
    {sm : ScoredMove} {rest : List ScoredMove}
    (h : heapPop l = some (sm, rest)) :
    IsHeap rest ∧ ∀ x ∈ rest, x.score ≤ sm.score := by
  unfold heapPop at h
  split at h
  · exact absurd h (by simp)
  next last hlast =>
    have hlm : last ∈ l := mem_of_getLast? hlast
    by_cases hemp : l.dropLast.isEmpty = true
    · rw [if_pos hemp] at h
      injection h with h2
      injection h2 with h3 h4
      refine ⟨?_, ?_⟩
      · rw [← h4]
        intro i hi hlen
        exact absurd hlen (by simp)
      · intro x hx
        rw [← h4] at hx
        exact absurd hx (by simp)
    · rw [if_neg hemp] at h
      injection h with h2
      injection h2 with h3 h4
      have hne : 0 < l.dropLast.length := by
        cases hdrop : l.dropLast with
        | nil => rw [hdrop] at hemp; exact absurd rfl hemp
        | cons y ys => simp [hdrop]
      have hdheap : IsHeap l.dropLast := isHeap_dropLast hl
      have hsm : sm.score = sval l.dropLast 0 := by
        rw [← h3]
        rfl
      refine ⟨?_, ?_⟩
      · rw [← h4]
        apply siftDownToBottom_heap _ last (by rw [List.length_set]; exact hne)
        intro i hi hlen hpp
        rw [List.length_set] at hlen
        rw [sval_set_ne (by omega), sval_set_ne hpp]
        exact hdheap i hi hlen
      · intro x hx
        rw [← h4] at hx
        have hsub := siftDownToBottom_subset
          (by rw [List.length_set]; exact hne) last x hx
        have hxl : x ∈ l.dropLast ∨ x = last := by
          rcases hsub with h5 | h5
          · rcases List.mem_or_eq_of_mem_set h5 with h6 | h6
            · exact Or.inl h6
            · exact Or.inr h6
          · exact Or.inr h5
        rw [hsm]
        rcases hxl with h5 | h5
        · exact mem_score_le_root hdheap h5
        · -- the last element is bounded by the old root, which is the
          -- same cell as the dropLast root
          have hxl2 : x ∈ l := h5 ▸ hlm
          have := mem_score_le_root hl hxl2
          have hroots : sval l.dropLast 0 = sval l 0 := by
            unfold sval
            rw [hget_dropLast hne]
          omega

theorem popAllGo_subset : ∀ (fuel : Nat) (l : List ScoredMove),
    ∀ x ∈ popAllGo fuel l, x ∈ l := by
  intro fuel
  induction fuel with
  | zero => intro l x hx; exact absurd hx (by simp [popAllGo])
  | succ f ih =>
    intro l x hx
    rw [popAllGo] at hx
    cases hpop : heapPop l with
    | none => rw [hpop] at hx; exact absurd hx (by simp)
    | some pr =>
      obtain ⟨sm, rest⟩ := pr
      rw [hpop] at hx
      obtain ⟨hsm, hrest⟩ := heapPop_subset hpop
      rcases List.mem_cons.mp hx with h | h
      · exact h ▸ hsm
      · exact hrest x (ih rest x h)

/-- Popping a max-heap to exhaustion yields scores in non-increasing
order. -/
theorem popAllGo_chain : ∀ (fuel : Nat) (l : List ScoredMove), IsHeap l →
    (popAllGo fuel l).Chain' (fun a b => b.score ≤ a.score) := by
  intro fuel
  induction fuel with
  | zero => intro l _; simp [popAllGo]
  | succ f ih =>
    intro l hl
    rw [popAllGo]
    cases hpop : heapPop l with
    | none => simp
    | some pr =>
      obtain ⟨sm, rest⟩ := pr
      obtain ⟨hrh, hrle⟩ := heapPop_max_heap hl hpop
      rw [List.chain'_cons']
      constructor
      · intro b hb
        have hbm : b ∈ popAllGo f rest := List.mem_of_mem_head? hb
        exact hrle b (popAllGo_subset f rest b hbm)
      · exact ih rest hrh

theorem isHeap_nil : IsHeap [] := by
  intro i _ hi
  exact absurd hi (by simp)

/-- The heap built in the expansion step is a max-heap. -/
theorem buildHeap_isHeap (b : BitBoard) (flags : List Bool) :
    IsHeap (buildHeap b flags) := by
  unfold buildHeap
  have key : ∀ (cols : List Column) (acc : List ScoredMove), IsHeap acc →
      IsHeap (cols.foldl
        (fun h c => if flags.getD c.toNat false then heapPush h (b.score_move c) else h)
        acc) := by
    intro cols
    induction cols with
    | nil => intro acc hacc; exact hacc
    | cons c cs ihc =>
      intro acc hacc
      rw [List.foldl_cons]
      apply ihc
      by_cases hf : flags.getD c.toNat false = true
      · rw [if_pos hf]
        exact heapPush_heap hacc (b.score_move c)
      · rw [if_neg hf]
        exact hacc
  exact key COLUMN_ORDER [] isHeap_nil

/-! ### C2: bit-parallel win detection agrees with the array line scan -/

/-- A current-player stone at integer board coordinates: column `x` and
row `y` are on the board and the `pos` bit of that cell is set. -/
def PB (p : Nat) (x y : Int) : Prop :=
  0 ≤ x ∧ x < 7 ∧ 0 ≤ y ∧ y < 6 ∧ p.testBit (7 * x.toNat + y.toNat) = true

instance (p : Nat) (x y : Int) : Decidable (PB p x y) := by
  unfold PB
  infer_instance

theorem pos_land_BOARD {b : BitBoard} (hb : BoardInv b) :
    b.pos &&& BitBoard.BOARD_MASK = b.pos := by
  have h1 : b.pos &&& b.mask = b.pos := hb.choose_spec.choose_spec.choose_spec.choose_spec.choose_spec.choose_spec.choose_spec.2.2.2.2.2.2.2.2.1
  have h2 := mask_land_BOARD hb
  conv_lhs => rw [← h1]
  rw [Nat.land_assoc, h2, h1]

/-- A bit of a word contained in the board mask is a real cell: lane
`< 7`, row `< 6`. -/
theorem board_bit_shape {p : Nat} (hP : p &&& BitBoard.BOARD_MASK = p) {j : Nat}
    (hj : p.testBit j = true) : j < 49 ∧ j % 7 < 6 :=
  of_decide_eq_true (testBit_BOARD j ▸ testBit_of_land_eq hP hj)

theorem board_bit_false {p : Nat} (hP : p &&& BitBoard.BOARD_MASK = p) {j : Nat}
    (h : ¬ (j < 49 ∧ j % 7 < 6)) : p.testBit j = false := by
  cases hj : p.testBit j
  · rfl
  · exact absurd (board_bit_shape hP hj) h

/-- A real cell read `PB p x y` for in-range Nat coordinates is exactly the
`pos` bit. -/
theorem PB_iff_testBit {p : Nat} (x y : Nat) (hx : x < 7) (hy : y < 6) :
    PB p (x : Int) (y : Int) ↔ p.testBit (7 * x + y) = true := by
  unfold PB
  have e1 : ((x : Int)).toNat = x := Int.toNat_ofNat x
  have e2 : ((y : Int)).toNat = y := Int.toNat_ofNat y
  rw [e1, e2]
  constructor
  · exact fun h => h.2.2.2.2
  · intro h
    refine ⟨by omega, by omega, by omega, by omega, h⟩

/-- Left-shift atom of the window decomposition: reading bit `7c+h` of
`p <<< (s*j)` tests the cell `j` steps to the left along the slope of
stride `s`, provided the target row stays within one row of the board
(beyond that the index wraps across more than the guard row). -/
theorem atomL_iff {p : Nat} (hP : p &&& BitBoard.BOARD_MASK = p)
    {c h : Nat} (hc : c < 7) (hh : h ≤ 5) (s j : Nat)
    (hs : 6 ≤ s) (hs8 : s ≤ 8) (hj1 : 1 ≤ j) (hj : j ≤ 3)
    (hsafe1 : -1 ≤ (h : Int) + (7 - (s : Int)) * j)
    (hsafe2 : (h : Int) + (7 - (s : Int)) * j ≤ 6) :
    ((p <<< (s * j)).testBit (7 * c + h) = true ↔
      PB p ((c : Int) - j) ((h : Int) + (7 - (s : Int)) * j)) := by
  have hE : (7 - (s : Int)) * (j : Int) = 7 * (j : Int) - ((s : Int) * (j : Int)) := by
    ring
  have hSJ : ((s * j : Nat) : Int) = (s : Int) * (j : Int) := by push_cast; ring
  rw [Nat.testBit_shiftLeft]
  by_cases hcj : j ≤ c
  · -- the column exists; split on the target row
    have hr : (0 : Int) ≤ (h : Int) + (7 - (s : Int)) * j ∨
        (h : Int) + (7 - (s : Int)) * j = -1 := by omega
    rcases hr with hr | hr
    · -- a real (or guard) row
      obtain ⟨r, hrr⟩ : ∃ r : Nat, (r : Int) = (h : Int) + (7 - (s : Int)) * j :=
        ⟨((h : Int) + (7 - (s : Int)) * j).toNat, Int.toNat_of_nonneg hr⟩
      have hr6 : r ≤ 6 := by omega
      have hidx : 7 * c + h - s * j = 7 * (c - j) + r := by omega
      have hge : s * j ≤ 7 * c + h := by omega
      rw [hidx]
      by_cases hr5 : r ≤ 5
      · have hPB : PB p ((c : Int) - j) ((h : Int) + (7 - (s : Int)) * j) ↔
            p.testBit (7 * (c - j) + r) = true := by
          have e : ((c : Int) - j) = ((c - j : Nat) : Int) := by omega
          rw [e, ← hrr, PB_iff_testBit (c - j) r (by omega) (by omega)]
        rw [hPB]
        simp [hge]
      · -- the target is the guard row: both sides are false
        have hr6' : r = 6 := by omega
        have hbit : p.testBit (7 * (c - j) + r) = false := by
          apply board_bit_false hP
          omega
        rw [hbit]
        have hPB : ¬ PB p ((c : Int) - j) ((h : Int) + (7 - (s : Int)) * j) := by
          unfold PB
          omega
        simp [hPB]
    · -- one row below the board: the index is the guard bit of the next
      -- column over (or out of range), and the cell is off the board
      have hPB : ¬ PB p ((c : Int) - j) ((h : Int) + (7 - (s : Int)) * j) := by
        unfold PB
        omega
      by_cases hge : s * j ≤ 7 * c + h
      · have hidx : 7 * c + h - s * j = 7 * (c - j) - 1 := by omega
        have hcj2 : 1 ≤ c - j := by
          by_contra hlt
          omega
        have hidx2 : 7 * c + h - s * j = 7 * (c - j - 1) + 6 := by omega
        rw [hidx2]
        have hbit : p.testBit (7 * (c - j - 1) + 6) = false := by
          apply board_bit_false hP
          omega
        rw [hbit]
        simp [hPB]
      · simp [hge, hPB]
  · -- no column that far left: the shift pushes past the word start
    have hge : ¬ s * j ≤ 7 * c + h := by omega
    have hPB : ¬ PB p ((c : Int) - j) ((h : Int) + (7 - (s : Int)) * j) := by
      unfold PB
      omega
    simp [hge, hPB]

/-- Right-shift atom: reading bit `7c+h` of `p >>> (s*j)` tests the cell
`j` steps to the right along the slope of stride `s`. -/
theorem atomR_iff {p : Nat} (hP : p &&& BitBoard.BOARD_MASK = p)
    {c h : Nat} (hc : c < 7) (hh : h ≤ 5) (s j : Nat)
    (hs : 6 ≤ s) (hs8 : s ≤ 8) (hj1 : 1 ≤ j) (hj : j ≤ 3)
    (hsafe1 : -1 ≤ (h : Int) - (7 - (s : Int)) * j)
    (hsafe2 : (h : Int) - (7 - (s : Int)) * j ≤ 6) :
    ((p >>> (s * j)).testBit (7 * c + h) = true ↔
      PB p ((c : Int) + j) ((h : Int) - (7 - (s : Int)) * j)) := by
  have hE : (7 - (s : Int)) * (j : Int) = 7 * (j : Int) - ((s : Int) * (j : Int)) := by
    ring
  have hSJ : ((s * j : Nat) : Int) = (s : Int) * (j : Int) := by push_cast; ring
  rw [Nat.testBit_shiftRight]
  have hr : (0 : Int) ≤ (h : Int) - (7 - (s : Int)) * j ∨
      (h : Int) - (7 - (s : Int)) * j = -1 := by omega
  rcases hr with hr | hr
  · obtain ⟨r, hrr⟩ : ∃ r : Nat, (r : Int) = (h : Int) - (7 - (s : Int)) * j :=
      ⟨((h : Int) - (7 - (s : Int)) * j).toNat, Int.toNat_of_nonneg hr⟩
    have hr6 : r ≤ 6 := by omega
    have hidx : s * j + (7 * c + h) = 7 * (c + j) + r := by omega
    rw [hidx]
    by_cases hcb : c + j ≤ 6
    · by_cases hr5 : r ≤ 5
      · have hPB : PB p ((c : Int) + j) ((h : Int) - (7 - (s : Int)) * j) ↔
            p.testBit (7 * (c + j) + r) = true := by
          have e : ((c : Int) + j) = ((c + j : Nat) : Int) := by omega
          rw [e, ← hrr, PB_iff_testBit (c + j) r (by omega) (by omega)]
        rw [hPB]
      · have hr6' : r = 6 := by omega
        have hbit : p.testBit (7 * (c + j) + r) = false := by
          apply board_bit_false hP
          omega
        rw [hbit]
        have hPB : ¬ PB p ((c : Int) + j) ((h : Int) - (7 - (s : Int)) * j) := by
          unfold PB
          omega
        simp [hPB]
    · have hbit : p.testBit (7 * (c + j) + r) = false := by
        apply board_bit_false hP
        omega
      rw [hbit]
      have hPB : ¬ PB p ((c : Int) + j) ((h : Int) - (7 - (s : Int)) * j) := by
        unfold PB
        omega
      simp [hPB]
  · have hidx : s * j + (7 * c + h) = 7 * (c + j) - 1 := by omega
    have hidx2 : s * j + (7 * c + h) = 7 * (c + j - 1) + 6 := by omega
    rw [hidx2]
    have hbit : p.testBit (7 * (c + j - 1) + 6) = false := by
      apply board_bit_false hP
      omega
    rw [hbit]
    have hPB : ¬ PB p ((c : Int) + j) ((h : Int) - (7 - (s : Int)) * j) := by
      unfold PB
      omega
    simp [hPB]

/-- `atomL_iff` with the total shift given directly. -/
theorem atomL {p : Nat} (hP : p &&& BitBoard.BOARD_MASK = p)
    {c h : Nat} (hc : c < 7) (hh : h ≤ 5) (s j t : Nat) (ht : t = s * j)
    (hs : 6 ≤ s) (hs8 : s ≤ 8) (hj1 : 1 ≤ j) (hj : j ≤ 3)
    (hsafe1 : -1 ≤ (h : Int) + (7 - (s : Int)) * j)
    (hsafe2 : (h : Int) + (7 - (s : Int)) * j ≤ 6) :
    ((p <<< t).testBit (7 * c + h) = true ↔
      PB p ((c : Int) - j) ((h : Int) + (7 - (s : Int)) * j)) := by
  rw [ht]
  exact atomL_iff hP hc hh s j hs hs8 hj1 hj hsafe1 hsafe2

/-- `atomR_iff` with the total shift given directly. -/
theorem atomR {p : Nat} (hP : p &&& BitBoard.BOARD_MASK = p)
    {c h : Nat} (hc : c < 7) (hh : h ≤ 5) (s j t : Nat) (ht : t = s * j)
    (hs : 6 ≤ s) (hs8 : s ≤ 8) (hj1 : 1 ≤ j) (hj : j ≤ 3)
    (hsafe1 : -1 ≤ (h : Int) - (7 - (s : Int)) * j)
    (hsafe2 : (h : Int) - (7 - (s : Int)) * j ≤ 6) :
    ((p >>> t).testBit (7 * c + h) = true ↔
      PB p ((c : Int) + j) ((h : Int) - (7 - (s : Int)) * j)) := by
  rw [ht]
  exact atomR_iff hP hc hh s j hs hs8 hj1 hj hsafe1 hsafe2

/-- Horizontal window, three cells to the left. -/
theorem term_h_lll {p : Nat} (hP : p &&& BitBoard.BOARD_MASK = p)
    {c h : Nat} (hc : c < 7) (hh : h ≤ 5) :
    ((p <<< 7 &&& p <<< 14) &&& p <<< 21).testBit (7 * c + h) = true ↔
      (PB p ((c : Int) - 1) h ∧ PB p ((c : Int) - 2) h ∧ PB p ((c : Int) - 3) h) := by
  rw [Nat.testBit_land, Nat.testBit_land, Bool.and_eq_true_iff, Bool.and_eq_true_iff]
  have a1 := atomL hP hc hh 7 1 7 (by norm_num) (by norm_num) (by norm_num)
    (by norm_num) (by norm_num) (by omega) (by omega)
  have a2 := atomL hP hc hh 7 2 14 (by norm_num) (by norm_num) (by norm_num)
    (by norm_num) (by norm_num) (by omega) (by omega)
  have a3 := atomL hP hc hh 7 3 21 (by norm_num) (by norm_num) (by norm_num)
    (by norm_num) (by norm_num) (by omega) (by omega)
  rw [a1, a2, a3]
  norm_num [and_assoc]

/-- Horizontal window: two left, one right. -/
theorem term_h_llr {p : Nat} (hP : p &&& BitBoard.BOARD_MASK = p)
    {c h : Nat} (hc : c < 7) (hh : h ≤ 5) :
    ((p <<< 7 &&& p <<< 14) &&& p >>> 7).testBit (7 * c + h) = true ↔
      (PB p ((c : Int) - 1) h ∧ PB p ((c : Int) - 2) h ∧ PB p ((c : Int) + 1) h) := by
  rw [Nat.testBit_land, Nat.testBit_land, Bool.and_eq_true_iff, Bool.and_eq_true_iff]
  have a1 := atomL hP hc hh 7 1 7 (by norm_num) (by norm_num) (by norm_num)
    (by norm_num) (by norm_num) (by omega) (by omega)
  have a2 := atomL hP hc hh 7 2 14 (by norm_num) (by norm_num) (by norm_num)
    (by norm_num) (by norm_num) (by omega) (by omega)
  have a3 := atomR hP hc hh 7 1 7 (by norm_num) (by norm_num) (by norm_num)
    (by norm_num) (by norm_num) (by omega) (by omega)
  rw [a1, a2, a3]
  norm_num [and_assoc]

/-- Horizontal window, three cells to the right. -/
theorem term_h_rrr {p : Nat} (hP : p &&& BitBoard.BOARD_MASK = p)
    {c h : Nat} (hc : c < 7) (hh : h ≤ 5) :
    ((p >>> 7 &&& p >>> 14) &&& p >>> 21).testBit (7 * c + h) = true ↔
      (PB p ((c : Int) + 1) h ∧ PB p ((c : Int) + 2) h ∧ PB p ((c : Int) + 3) h) := by
  rw [Nat.testBit_land, Nat.testBit_land, Bool.and_eq_true_iff, Bool.and_eq_true_iff]
  have a1 := atomR hP hc hh 7 1 7 (by norm_num) (by norm_num) (by norm_num)
    (by norm_num) (by norm_num) (by omega) (by omega)
  have a2 := atomR hP hc hh 7 2 14 (by norm_num) (by norm_num) (by norm_num)
    (by norm_num) (by norm_num) (by omega) (by omega)
  have a3 := atomR hP hc hh 7 3 21 (by norm_num) (by norm_num) (by norm_num)
    (by norm_num) (by norm_num) (by omega) (by omega)
  rw [a1, a2, a3]
  norm_num [and_assoc]

/-- Horizontal window: two right, one left. -/
theorem term_h_rrl {p : Nat} (hP : p &&& BitBoard.BOARD_MASK = p)
    {c h : Nat} (hc : c < 7) (hh : h ≤ 5) :
    ((p >>> 7 &&& p >>> 14) &&& p <<< 7).testBit (7 * c + h) = true ↔
      (PB p ((c : Int) + 1) h ∧ PB p ((c : Int) + 2) h ∧ PB p ((c : Int) - 1) h) := by
  rw [Nat.testBit_land, Nat.testBit_land, Bool.and_eq_true_iff, Bool.and_eq_true_iff]
  have a1 := atomR hP hc hh 7 1 7 (by norm_num) (by norm_num) (by norm_num)
    (by norm_num) (by norm_num) (by omega) (by omega)
  have a2 := atomR hP hc hh 7 2 14 (by norm_num) (by norm_num) (by norm_num)
    (by norm_num) (by norm_num) (by omega) (by omega)
  have a3 := atomL hP hc hh 7 1 7 (by norm_num) (by norm_num) (by norm_num)
    (by norm_num) (by norm_num) (by omega) (by omega)
  rw [a1, a2, a3]
  norm_num [and_assoc]

/-- First diagonal, three cells up-left. -/
theorem term_d1_lll {p : Nat} (hP : p &&& BitBoard.BOARD_MASK = p)
    {c h : Nat} (hc : c < 7) (hh : h ≤ 5) :
    ((p <<< 6 &&& p <<< 12) &&& p <<< 18).testBit (7 * c + h) = true ↔
      (PB p ((c : Int) - 1) ((h : Int) + 1) ∧ PB p ((c : Int) - 2) ((h : Int) + 2) ∧ PB p ((c : Int) - 3) ((h : Int) + 3)) := by
  by_cases hsafe : h ≤ 3
  · rw [Nat.testBit_land, Nat.testBit_land, Bool.and_eq_true_iff, Bool.and_eq_true_iff]
    have a1 := atomL hP hc hh 6 1 6 (by norm_num) (by norm_num) (by norm_num)
      (by norm_num) (by norm_num) (by omega) (by omega)
    have a2 := atomL hP hc hh 6 2 12 (by norm_num) (by norm_num) (by norm_num)
      (by norm_num) (by norm_num) (by omega) (by omega)
    have a3 := atomL hP hc hh 6 3 18 (by norm_num) (by norm_num) (by norm_num)
      (by norm_num) (by norm_num) (by omega) (by omega)
    rw [a1, a2, a3]
    norm_num [and_assoc, Int.sub_eq_add_neg]
  · interval_cases h
    · constructor
      · intro hL
        rw [Nat.testBit_land, Nat.testBit_land, Bool.and_eq_true_iff,
          Bool.and_eq_true_iff] at hL
        have ab := (atomL hP hc (by norm_num) 6 2 12 (by norm_num) (by norm_num)
          (by norm_num) (by norm_num) (by norm_num) (by norm_num) (by norm_num)).mp hL.1.2
        unfold PB at ab
        omega
      · rintro ⟨h1, h2, h3⟩
        unfold PB at h2
        omega
    · constructor
      · intro hL
        rw [Nat.testBit_land, Nat.testBit_land, Bool.and_eq_true_iff,
          Bool.and_eq_true_iff] at hL
        have ab := (atomL hP hc (by norm_num) 6 1 6 (by norm_num) (by norm_num)
          (by norm_num) (by norm_num) (by norm_num) (by norm_num) (by norm_num)).mp hL.1.1
        unfold PB at ab
        omega
      · rintro ⟨h1, h2, h3⟩
        unfold PB at h1
        omega

/-- First diagonal: two up-left, one down-right. -/
theorem term_d1_llr {p : Nat} (hP : p &&& BitBoard.BOARD_MASK = p)
    {c h : Nat} (hc : c < 7) (hh : h ≤ 5) :
    ((p <<< 6 &&& p <<< 12) &&& p >>> 6).testBit (7 * c + h) = true ↔
      (PB p ((c : Int) - 1) ((h : Int) + 1) ∧ PB p ((c : Int) - 2) ((h : Int) + 2) ∧ PB p ((c : Int) + 1) ((h : Int) - 1)) := by
  by_cases hsafe : h ≤ 4
  · rw [Nat.testBit_land, Nat.testBit_land, Bool.and_eq_true_iff, Bool.and_eq_true_iff]
    have a1 := atomL hP hc hh 6 1 6 (by norm_num) (by norm_num) (by norm_num)
      (by norm_num) (by norm_num) (by omega) (by omega)
    have a2 := atomL hP hc hh 6 2 12 (by norm_num) (by norm_num) (by norm_num)
      (by norm_num) (by norm_num) (by omega) (by omega)
    have a3 := atomR hP hc hh 6 1 6 (by norm_num) (by norm_num) (by norm_num)
      (by norm_num) (by norm_num) (by omega) (by omega)
    rw [a1, a2, a3]
    norm_num [and_assoc, Int.sub_eq_add_neg]
  · interval_cases h
    · constructor
      · intro hL
        rw [Nat.testBit_land, Nat.testBit_land, Bool.and_eq_true_iff,
          Bool.and_eq_true_iff] at hL
        have ab := (atomL hP hc (by norm_num) 6 1 6 (by norm_num) (by norm_num)
          (by norm_num) (by norm_num) (by norm_num) (by norm_num) (by norm_num)).mp hL.1.1
        unfold PB at ab
        omega
      · rintro ⟨h1, h2, h3⟩
        unfold PB at h1
        omega

/-- First diagonal, three cells down-right. -/
theorem term_d1_rrr {p : Nat} (hP : p &&& BitBoard.BOARD_MASK = p)
    {c h : Nat} (hc : c < 7) (hh : h ≤ 5) :
    ((p >>> 6 &&& p >>> 12) &&& p >>> 18).testBit (7 * c + h) = true ↔
      (PB p ((c : Int) + 1) ((h : Int) - 1) ∧ PB p ((c : Int) + 2) ((h : Int) - 2) ∧ PB p ((c : Int) + 3) ((h : Int) - 3)) := by
  by_cases hsafe : 2 ≤ h
  · rw [Nat.testBit_land, Nat.testBit_land, Bool.and_eq_true_iff, Bool.and_eq_true_iff]
    have a1 := atomR hP hc hh 6 1 6 (by norm_num) (by norm_num) (by norm_num)
      (by norm_num) (by norm_num) (by omega) (by omega)
    have a2 := atomR hP hc hh 6 2 12 (by norm_num) (by norm_num) (by norm_num)
      (by norm_num) (by norm_num) (by omega) (by omega)
    have a3 := atomR hP hc hh 6 3 18 (by norm_num) (by norm_num) (by norm_num)
      (by norm_num) (by norm_num) (by omega) (by omega)
    rw [a1, a2, a3]
    norm_num [and_assoc, Int.sub_eq_add_neg]
  · interval_cases h
    · constructor
      · intro hL
        rw [Nat.testBit_land, Nat.testBit_land, Bool.and_eq_true_iff,
          Bool.and_eq_true_iff] at hL
        have ab := (atomR hP hc (by norm_num) 6 1 6 (by norm_num) (by norm_num)
          (by norm_num) (by norm_num) (by norm_num) (by norm_num) (by norm_num)).mp hL.1.1
        unfold PB at ab
        omega
      · rintro ⟨h1, h2, h3⟩
        unfold PB at h1
        omega
    · constructor
      · intro hL
        rw [Nat.testBit_land, Nat.testBit_land, Bool.and_eq_true_iff,
          Bool.and_eq_true_iff] at hL
        have ab := (atomR hP hc (by norm_num) 6 2 12 (by norm_num) (by norm_num)
          (by norm_num) (by norm_num) (by norm_num) (by norm_num) (by norm_num)).mp hL.1.2
        unfold PB at ab
        omega
      · rintro ⟨h1, h2, h3⟩
        unfold PB at h2
        omega

/-- First diagonal: two down-right, one up-left. -/
theorem term_d1_rrl {p : Nat} (hP : p &&& BitBoard.BOARD_MASK = p)
    {c h : Nat} (hc : c < 7) (hh : h ≤ 5) :
    ((p >>> 6 &&& p >>> 12) &&& p <<< 6).testBit (7 * c + h) = true ↔
      (PB p ((c : Int) + 1) ((h : Int) - 1) ∧ PB p ((c : Int) + 2) ((h : Int) - 2) ∧ PB p ((c : Int) - 1) ((h : Int) + 1)) := by
  by_cases hsafe : 1 ≤ h
  · rw [Nat.testBit_land, Nat.testBit_land, Bool.and_eq_true_iff, Bool.and_eq_true_iff]
    have a1 := atomR hP hc hh 6 1 6 (by norm_num) (by norm_num) (by norm_num)
      (by norm_num) (by norm_num) (by omega) (by omega)
    have a2 := atomR hP hc hh 6 2 12 (by norm_num) (by norm_num) (by norm_num)
      (by norm_num) (by norm_num) (by omega) (by omega)
    have a3 := atomL hP hc hh 6 1 6 (by norm_num) (by norm_num) (by norm_num)
      (by norm_num) (by norm_num) (by omega) (by omega)
    rw [a1, a2, a3]
    norm_num [and_assoc, Int.sub_eq_add_neg]
  · interval_cases h
    · constructor
      · intro hL
        rw [Nat.testBit_land, Nat.testBit_land, Bool.and_eq_true_iff,
          Bool.and_eq_true_iff] at hL
        have ab := (atomR hP hc (by norm_num) 6 1 6 (by norm_num) (by norm_num)
          (by norm_num) (by norm_num) (by norm_num) (by norm_num) (by norm_num)).mp hL.1.1
        unfold PB at ab
        omega
      · rintro ⟨h1, h2, h3⟩
        unfold PB at h1
        omega

/-- Second diagonal, three cells down-left. -/
theorem term_d2_lll {p : Nat} (hP : p &&& BitBoard.BOARD_MASK = p)
    {c h : Nat} (hc : c < 7) (hh : h ≤ 5) :
    ((p <<< 8 &&& p <<< 16) &&& p <<< 24).testBit (7 * c + h) = true ↔
      (PB p ((c : Int) - 1) ((h : Int) - 1) ∧ PB p ((c : Int) - 2) ((h : Int) - 2) ∧ PB p ((c : Int) - 3) ((h : Int) - 3)) := by
  by_cases hsafe : 2 ≤ h
  · rw [Nat.testBit_land, Nat.testBit_land, Bool.and_eq_true_iff, Bool.and_eq_true_iff]
    have a1 := atomL hP hc hh 8 1 8 (by norm_num) (by norm_num) (by norm_num)
      (by norm_num) (by norm_num) (by omega) (by omega)
    have a2 := atomL hP hc hh 8 2 16 (by norm_num) (by norm_num) (by norm_num)
      (by norm_num) (by norm_num) (by omega) (by omega)
    have a3 := atomL hP hc hh 8 3 24 (by norm_num) (by norm_num) (by norm_num)
      (by norm_num) (by norm_num) (by omega) (by omega)
    rw [a1, a2, a3]
    norm_num [and_assoc, Int.sub_eq_add_neg]
  · interval_cases h
    · constructor
      · intro hL
        rw [Nat.testBit_land, Nat.testBit_land, Bool.and_eq_true_iff,
          Bool.and_eq_true_iff] at hL
        have ab := (atomL hP hc (by norm_num) 8 1 8 (by norm_num) (by norm_num)
          (by norm_num) (by norm_num) (by norm_num) (by norm_num) (by norm_num)).mp hL.1.1
        unfold PB at ab
        omega
      · rintro ⟨h1, h2, h3⟩
        unfold PB at h1
        omega
    · constructor
      · intro hL
        rw [Nat.testBit_land, Nat.testBit_land, Bool.and_eq_true_iff,
          Bool.and_eq_true_iff] at hL
        have ab := (atomL hP hc (by norm_num) 8 2 16 (by norm_num) (by norm_num)
          (by norm_num) (by norm_num) (by norm_num) (by norm_num) (by norm_num)).mp hL.1.2
        unfold PB at ab
        omega
      · rintro ⟨h1, h2, h3⟩
        unfold PB at h2
        omega

/-- Second diagonal: two down-left, one up-right. -/
theorem term_d2_llr {p : Nat} (hP : p &&& BitBoard.BOARD_MASK = p)
    {c h : Nat} (hc : c < 7) (hh : h ≤ 5) :
    ((p <<< 8 &&& p <<< 16) &&& p >>> 8).testBit (7 * c + h) = true ↔
      (PB p ((c : Int) - 1) ((h : Int) - 1) ∧ PB p ((c : Int) - 2) ((h : Int) - 2) ∧ PB p ((c : Int) + 1) ((h : Int) + 1)) := by
  by_cases hsafe : 1 ≤ h
  · rw [Nat.testBit_land, Nat.testBit_land, Bool.and_eq_true_iff, Bool.and_eq_true_iff]
    have a1 := atomL hP hc hh 8 1 8 (by norm_num) (by norm_num) (by norm_num)
      (by norm_num) (by norm_num) (by omega) (by omega)
    have a2 := atomL hP hc hh 8 2 16 (by norm_num) (by norm_num) (by norm_num)
      (by norm_num) (by norm_num) (by omega) (by omega)
    have a3 := atomR hP hc hh 8 1 8 (by norm_num) (by norm_num) (by norm_num)
      (by norm_num) (by norm_num) (by omega) (by omega)
    rw [a1, a2, a3]
    norm_num [and_assoc, Int.sub_eq_add_neg]
  · interval_cases h
    · constructor
      · intro hL
        rw [Nat.testBit_land, Nat.testBit_land, Bool.and_eq_true_iff,
          Bool.and_eq_true_iff] at hL
        have ab := (atomL hP hc (by norm_num) 8 1 8 (by norm_num) (by norm_num)
          (by norm_num) (by norm_num) (by norm_num) (by norm_num) (by norm_num)).mp hL.1.1
        unfold PB at ab
        omega
      · rintro ⟨h1, h2, h3⟩
        unfold PB at h1
        omega

/-- Second diagonal, three cells up-right. -/
theorem term_d2_rrr {p : Nat} (hP : p &&& BitBoard.BOARD_MASK = p)
    {c h : Nat} (hc : c < 7) (hh : h ≤ 5) :
    ((p >>> 8 &&& p >>> 16) &&& p >>> 24).testBit (7 * c + h) = true ↔
      (PB p ((c : Int) + 1) ((h : Int) + 1) ∧ PB p ((c : Int) + 2) ((h : Int) + 2) ∧ PB p ((c : Int) + 3) ((h : Int) + 3)) := by
  by_cases hsafe : h ≤ 3
  · rw [Nat.testBit_land, Nat.testBit_land, Bool.and_eq_true_iff, Bool.and_eq_true_iff]
    have a1 := atomR hP hc hh 8 1 8 (by norm_num) (by norm_num) (by norm_num)
      (by norm_num) (by norm_num) (by omega) (by omega)
    have a2 := atomR hP hc hh 8 2 16 (by norm_num) (by norm_num) (by norm_num)
      (by norm_num) (by norm_num) (by omega) (by omega)
    have a3 := atomR hP hc hh 8 3 24 (by norm_num) (by norm_num) (by norm_num)
      (by norm_num) (by norm_num) (by omega) (by omega)
    rw [a1, a2, a3]
    norm_num [and_assoc, Int.sub_eq_add_neg]
  · interval_cases h
    · constructor
      · intro hL
        rw [Nat.testBit_land, Nat.testBit_land, Bool.and_eq_true_iff,
          Bool.and_eq_true_iff] at hL
        have ab := (atomR hP hc (by norm_num) 8 2 16 (by norm_num) (by norm_num)
          (by norm_num) (by norm_num) (by norm_num) (by norm_num) (by norm_num)).mp hL.1.2
        unfold PB at ab
        omega
      · rintro ⟨h1, h2, h3⟩
        unfold PB at h2
        omega
    · constructor
      · intro hL
        rw [Nat.testBit_land, Nat.testBit_land, Bool.and_eq_true_iff,
          Bool.and_eq_true_iff] at hL
        have ab := (atomR hP hc (by norm_num) 8 1 8 (by norm_num) (by norm_num)
          (by norm_num) (by norm_num) (by norm_num) (by norm_num) (by norm_num)).mp hL.1.1
        unfold PB at ab
        omega
      · rintro ⟨h1, h2, h3⟩
        unfold PB at h1
        omega

/-- Second diagonal: two up-right, one down-left. -/
theorem term_d2_rrl {p : Nat} (hP : p &&& BitBoard.BOARD_MASK = p)
    {c h : Nat} (hc : c < 7) (hh : h ≤ 5) :
    ((p >>> 8 &&& p >>> 16) &&& p <<< 8).testBit (7 * c + h) = true ↔
      (PB p ((c : Int) + 1) ((h : Int) + 1) ∧ PB p ((c : Int) + 2) ((h : Int) + 2) ∧ PB p ((c : Int) - 1) ((h : Int) - 1)) := by
  by_cases hsafe : h ≤ 4
  · rw [Nat.testBit_land, Nat.testBit_land, Bool.and_eq_true_iff, Bool.and_eq_true_iff]
    have a1 := atomR hP hc hh 8 1 8 (by norm_num) (by norm_num) (by norm_num)
      (by norm_num) (by norm_num) (by omega) (by omega)
    have a2 := atomR hP hc hh 8 2 16 (by norm_num) (by norm_num) (by norm_num)
      (by norm_num) (by norm_num) (by omega) (by omega)
    have a3 := atomL hP hc hh 8 1 8 (by norm_num) (by norm_num) (by norm_num)
      (by norm_num) (by norm_num) (by omega) (by omega)
    rw [a1, a2, a3]
    norm_num [and_assoc, Int.sub_eq_add_neg]
  · interval_cases h
    · constructor
      · intro hL
        rw [Nat.testBit_land, Nat.testBit_land, Bool.and_eq_true_iff,
          Bool.and_eq_true_iff] at hL
        have ab := (atomR hP hc (by norm_num) 8 1 8 (by norm_num) (by norm_num)
          (by norm_num) (by norm_num) (by norm_num) (by norm_num) (by norm_num)).mp hL.1.1
        unfold PB at ab
        omega
      · rintro ⟨h1, h2, h3⟩
        unfold PB at h1
        omega

/-- Vertical window: the three cells below the landing cell. -/
theorem term_vertical {p : Nat} (hP : p &&& BitBoard.BOARD_MASK = p)
    {c h : Nat} (hc : c < 7) (hh : h ≤ 5) :
    (((p <<< 1) &&& (p <<< 2)) &&& (p <<< 3)).testBit (7 * c + h) = true ↔
      (PB p (c : Int) ((h : Int) - 1) ∧ PB p (c : Int) ((h : Int) - 2) ∧
        PB p (c : Int) ((h : Int) - 3)) := by
  by_cases h3 : 3 ≤ h
  · rw [Nat.testBit_land, Nat.testBit_land, Bool.and_eq_true_iff, Bool.and_eq_true_iff,
      Nat.testBit_shiftLeft, Nat.testBit_shiftLeft, Nat.testBit_shiftLeft]
    have p1 : PB p (c : Int) ((h : Int) - 1) ↔ p.testBit (7 * c + (h - 1)) = true := by
      have e : ((h : Int) - 1) = ((h - 1 : Nat) : Int) := by omega
      rw [e]
      exact PB_iff_testBit c (h-1) hc (by omega)
    have p2 : PB p (c : Int) ((h : Int) - 2) ↔ p.testBit (7 * c + (h - 2)) = true := by
      have e : ((h : Int) - 2) = ((h - 2 : Nat) : Int) := by omega
      rw [e]
      exact PB_iff_testBit c (h-2) hc (by omega)
    have p3 : PB p (c : Int) ((h : Int) - 3) ↔ p.testBit (7 * c + (h - 3)) = true := by
      have e : ((h : Int) - 3) = ((h - 3 : Nat) : Int) := by omega
      rw [e]
      exact PB_iff_testBit c (h-3) hc (by omega)
    have d1 : decide (7 * c + h ≥ 1) = true := decide_eq_true (by omega)
    have d2 : decide (7 * c + h ≥ 2) = true := decide_eq_true (by omega)
    have d3 : decide (7 * c + h ≥ 3) = true := decide_eq_true (by omega)
    rw [d1, d2, d3]
    simp only [Bool.true_and]
    have e1 : 7 * c + h - 1 = 7 * c + (h - 1) := by omega
    have e2 : 7 * c + h - 2 = 7 * c + (h - 2) := by omega
    have e3 : 7 * c + h - 3 = 7 * c + (h - 3) := by omega
    rw [e1, e2, e3, p1, p2, p3]
    tauto
  · constructor
    · intro hL
      rw [Nat.testBit_land, Nat.testBit_land, Bool.and_eq_true_iff, Bool.and_eq_true_iff,
        Nat.testBit_shiftLeft, Nat.testBit_shiftLeft, Nat.testBit_shiftLeft] at hL
      obtain ⟨⟨hA1, hA2⟩, hA3⟩ := hL
      interval_cases h
      · obtain ⟨hd, hb⟩ := Bool.and_eq_true_iff.mp hA1
        have hge := of_decide_eq_true hd
        have hz : p.testBit (7 * c + 0 - 1) = false := by
          apply board_bit_false hP
          omega
        rw [hz] at hb
        exact Bool.noConfusion hb
      · obtain ⟨hd, hb⟩ := Bool.and_eq_true_iff.mp hA2
        have hge := of_decide_eq_true hd
        have hz : p.testBit (7 * c + 1 - 2) = false := by
          apply board_bit_false hP
          omega
        rw [hz] at hb
        exact Bool.noConfusion hb
      · obtain ⟨hd, hb⟩ := Bool.and_eq_true_iff.mp hA3
        have hge := of_decide_eq_true hd
        have hz : p.testBit (7 * c + 2 - 3) = false := by
          apply board_bit_false hP
          omega
        rw [hz] at hb
        exact Bool.noConfusion hb
    · rintro ⟨h1, h2, h3⟩
      unfold PB at h3
      omega

/-! ### Claim theorems, witnesses and counterexamples -/

/-- C1 (evaluation of the failing input): on the position reached by the
single move `F` — whose key `2 ^ 35` has all-zero low 32 bits — `Solver::solve`
with a fresh table of any capacity returns score `-19` after 5 probed nodes.
`-19` is not the game-theoretic score of any one-stone position (a loss
cannot occur before the opponent's fourth stone, bounding the true score by
`-17`; published solutions give `+2` for this opening), so `solve` is not
exact: the zero `keys` array of a fresh table spuriously matches any key
that is `0 mod 2 ^ 32`, clamping the search window before any expansion. -/
theorem c1_solve_zero_fragment_key_bug (size : Nat) :
    (Solver.solve (BitBoard.fromSeq [Column.F]) (TranspositionTable.new size)).map
      (fun r => (r.1, r.2.1)) = some (-19, 5) := rfl

/-- C4 (counterexample): the claimed bounds
`-((42-2)-m)/2 <= score <= (42-1-m+1)/2` fail on both sides for legally
reached input positions: the double-threat position `"4453623221115"`
(13 moves, an immediate loss) scores `-14 < -13`, and the position
`"4545451"` (7 moves, an immediate win) scores `18 > 17`. -/
theorem c4_claimed_bounds_counterexample :
    (legalSeq BitBoard.new
        [.D, .D, .E, .C, .F, .B, .C, .B, .B, .A, .A, .A, .E] = true ∧
      (Solver.solve
          (BitBoard.fromSeq [.D, .D, .E, .C, .F, .B, .C, .B, .B, .A, .A, .A, .E])
          (TranspositionTable.new (Params.size 2))).map (fun r => r.1) =
        some (-14) ∧
      ¬ ((-(((WIDTH * HEIGHT : Int) - 2) - 13)).tdiv 2 ≤ -14)) ∧
    (legalSeq BitBoard.new [.D, .E, .D, .E, .D, .E, .A] = true ∧
      (Solver.solve (BitBoard.fromSeq [.D, .E, .D, .E, .D, .E, .A])
          (TranspositionTable.new (Params.size 2))).map (fun r => r.1) =
        some 18 ∧
      ¬ ((18 : Int) ≤ ((WIDTH * HEIGHT : Int) - 1 - 7 + 1).tdiv 2)) := by
  decide

/-- C5 (counterexample): the stored key fragment is the low **32** bits,
not the low 56 bits.  With capacity `Params::<2>::SIZE = 5`, the keys `0`
and `5 * 2 ^ 32` map to the same slot and differ in their low 56 bits, yet
after `set(0, 7)` a `get(5 * 2 ^ 32)` *does* return `7`. -/
theorem c5_fragment_is_32_bits_counterexample :
    (0 % Params.size 2 = (5 * 2 ^ 32) % Params.size 2) ∧
    0 % 2 ^ 56 ≠ (5 * 2 ^ 32) % 2 ^ 56 ∧
    ((TranspositionTable.new (Params.size 2)).set 0 7).get (5 * 2 ^ 32) =
      some 7 := by
  decide

/-- C5 (amended): `get` computes `index = key mod capacity` and returns the
stored score exactly when the stored fragment equals the low **32** bits of
the key; consequently, after `set(k1, s)`, a `get(k2)` with `k2` mapping to
the same index but differing from `k1` somewhere in the low 32 bits misses. -/
theorem c5_get_checks_low_32_bits :
    (∀ (t : TranspositionTable) (k s : Nat),
        t.get k = some s → t.keys (k % t.size) = k % 2 ^ 32 ∧ s = t.scores (k % t.size)) ∧
    (∀ (t : TranspositionTable) (k1 k2 s : Nat),
        k1 % t.size = k2 % t.size → k1 % 2 ^ 32 ≠ k2 % 2 ^ 32 →
        (t.set k1 s).get k2 = none) := by
  constructor
  · intro t k s h
    unfold TranspositionTable.get at h
    by_cases hk : t.keys (k % t.size) = k % 2 ^ 32
    · simp only [hk, if_pos rfl] at h
      exact ⟨hk, (Option.some_inj.mp h).symm⟩
    · rw [if_neg hk] at h
      exact Option.noConfusion h
  · intro t k1 k2 s hidx hfrag
    unfold TranspositionTable.get TranspositionTable.set
    simp only [← hidx, if_pos rfl]
    exact if_neg fun h => hfrag h

/-- Witness for `c5_get_checks_low_32_bits` at concrete inputs. -/
theorem c5_get_checks_low_32_bits_witness :
    ((TranspositionTable.new (Params.size 2)).set 0 3).get 5 = none :=
  c5_get_checks_low_32_bits.2 (TranspositionTable.new (Params.size 2)) 0 5 3
    (by decide) (by decide)

/-- C6 (evaluation of the failing input): a freshly constructed (or cleared)
table does **not** miss on every key: any key that is `0 mod 2 ^ 32`
(e.g. `0`, or `2 ^ 35`, the key of the board after one move in column `F`)
matches the zero sentinel of an empty slot and reads back score `0` that
`set` never wrote. -/
theorem c6_cleared_table_false_hit :
    (TranspositionTable.new (Params.size 2)).get 0 = some 0 ∧
    (TranspositionTable.new (Params.size 2)).get (1 <<< 35) = some 0 ∧
    (((TranspositionTable.new (Params.size 2)).set 123 45).clear).get (1 <<< 35) =
      some 0 := by
  decide

/-- C2 (counterexample): the claim quantifies over *playable* sequences
only.  The playable sequence `A B A B A B A` contains a winning seventh
move; `BitBoard::play` (unchecked) plays it while `ArrayBoard::play`
(checked) skips it, after which the two boards disagree about
`is_winning(A)`. -/
theorem c2_playable_sequence_counterexample :
    playableSeq BitBoard.new [.A, .B, .A, .B, .A, .B, .A] = true ∧
    (BitBoard.fromSeq [.A, .B, .A, .B, .A, .B, .A]).is_winning Column.A = false ∧
    (ArrayBoard.fromSeq [.A, .B, .A, .B, .A, .B, .A]).is_winning Column.A = true := by
  decide

/-- C3 (counterexample): in the position `"16273617213"` the opponent has
two stacked winning cells in column `D`; exactly **one** of them is
playable (a single forced-defense cell), yet `possible_nonlosing_moves`
returns the sentinel (`Rust None`) — not the array marking that column —
because the forced cell sits directly below the second winning cell. -/
theorem c3_single_forced_cell_counterexample :
    legalSeq BitBoard.new [.A, .F, .B, .G, .C, .F, .A, .G, .B, .A, .C] = true ∧
    (BitBoard.fromSeq [.A, .F, .B, .G, .C, .F, .A, .G, .B, .A, .C]).can_win_in_one_move
      = false ∧
    countOnes
      ((BitBoard.fromSeq [.A, .F, .B, .G, .C, .F, .A, .G, .B, .A, .C]).possible_moves &&&
        (BitBoard.fromSeq [.A, .F, .B, .G, .C, .F, .A, .G, .B, .A, .C]).opponent_winning_position)
      = 1 ∧
    (BitBoard.fromSeq [.A, .F, .B, .G, .C, .F, .A, .G, .B, .A, .C]).possible_nonlosing_moves
      = some none := by
  decide

/-- C9 (counterexample): on the empty board every move scores 0, so the
exploration order is decided purely by the tie-break; the heap pops the
columns as `D C G A B E F`, not in the claimed canonical center-out order
`D E C F B G A` (`COLUMN_ORDER`). -/
theorem c9_tie_order_counterexample :
    BitBoard.new.possible_nonlosing_moves = some (some (List.replicate 7 true)) ∧
    ((popAll (buildHeap BitBoard.new (List.replicate 7 true))).map
        (fun sm => sm.score) = List.replicate 7 0) ∧
    ((popAll (buildHeap BitBoard.new (List.replicate 7 true))).map
        (fun sm => sm.column) =
      [Column.D, Column.C, Column.G, Column.A, Column.B, Column.E, Column.F]) ∧
    [Column.D, Column.C, Column.G, Column.A, Column.B, Column.E, Column.F] ≠
      COLUMN_ORDER := by
  decide

/-- C7 (counterexample): `ArrayBoard::play` *does* validate, contradicting
the claim for "every board implementing the Board trait": in position
`"123451121517"` column `A` is playable and winning, yet `play(A)` leaves
the board unchanged — no stone is added and the move count is not
incremented. -/
theorem c7_validating_array_play_counterexample :
    (ArrayBoard.fromSeq [.A, .B, .C, .D, .E, .A, .A, .B, .A, .E, .A, .G]).is_playable
      Column.A = true ∧
    (ArrayBoard.fromSeq [.A, .B, .C, .D, .E, .A, .A, .B, .A, .E, .A, .G]).is_winning
      Column.A = true ∧
    (ArrayBoard.fromSeq [.A, .B, .C, .D, .E, .A, .A, .B, .A, .E, .A, .G]).play Column.A =
      ArrayBoard.fromSeq [.A, .B, .C, .D, .E, .A, .A, .B, .A, .E, .A, .G] ∧
    ((ArrayBoard.fromSeq [.A, .B, .C, .D, .E, .A, .A, .B, .A, .E, .A, .G]).play
        Column.A).n_moves = 12 := by
  decide

/-- C4 (amended): for every position reachable from the empty board by
legal play, with **any** table contents, `Solver::solve` returns, and its
score lies between the immediate-loss value `-(42-m)/2` and the
immediate-win value `(43-m)/2` (integer division truncating toward zero) —
the claimed bounds `-((42-2)-m)/2 ≤ score ≤ (42-1-m+1)/2` hold once
widened by one win/loss ply on each side. -/
theorem c4_solve_score_bounds (b : BitBoard) (hb : BoardInv b)
    (t : TranspositionTable) :
    ∃ r n t2, Solver.solve b t = some (r, n, t2) ∧
      -(((42 : Int) - (b.n_moves : Int)).tdiv 2) ≤ r ∧
      r ≤ ((43 : Int) - (b.n_moves : Int)).tdiv 2 :=
  solve_spec b hb t

/-- Witness for `c4_solve_score_bounds` at the empty board with a fresh
capacity-5 table. -/
theorem c4_solve_score_bounds_witness :
    ∃ r n t2, Solver.solve BitBoard.new (TranspositionTable.new 5) =
        some (r, n, t2) ∧
      -(((42 : Int) - (BitBoard.new.n_moves : Int)).tdiv 2) ≤ r ∧
      r ≤ ((43 : Int) - (BitBoard.new.n_moves : Int)).tdiv 2 :=
  c4_solve_score_bounds BitBoard.new boardInv_new (TranspositionTable.new 5)

/-- C10: on every position reachable from the empty board by legal play
whose current player cannot win in one move, `Solver::solve` (with any
table contents) returns a result.  In this embedding the assert at the
entry of `possible_nonlosing_moves` is the outer `none`, which
`solve_impl` and the driver propagate, and `none` is also what fuel
exhaustion would produce — so a `some` result means the assertion never
fired on any recursive call and the search ran to completion (children are
expanded only from the non-losing move set, and by `nonlosing_child_safe`
such a child never lets its player win at once). -/
theorem c10_assert_never_fires (b : BitBoard) (hb : BoardInv b)
    (hcw : b.can_win_in_one_move = false) (t : TranspositionTable) :
    ∃ r, Solver.solve b t = some r := by
  obtain ⟨r, n, t2, hr, _, _⟩ := solve_spec b hb t
  exact ⟨(r, n, t2), hr⟩

/-- Witness for `c10_assert_never_fires` at the empty board with a fresh
capacity-5 table. -/
theorem c10_assert_never_fires_witness :
    BitBoard.new.can_win_in_one_move = false ∧
    ∃ r, Solver.solve BitBoard.new (TranspositionTable.new 5) = some r :=
  ⟨by decide, c10_assert_never_fires BitBoard.new boardInv_new (by decide)
    (TranspositionTable.new 5)⟩

/-- C9 (amended): in the expansion step of `Solver::solve_impl` the
candidate moves are explored in **non-increasing order of their
`score_move` value** — the `BinaryHeap` is a max-heap on the score, and
every popped move is one of the flagged columns' scored moves — but the
order among equal scores is the heap's incidental order, not the canonical
center-out `COLUMN_ORDER` (see `c9_tie_order_counterexample`). -/
theorem c9_moves_explored_in_descending_score_order (b : BitBoard)
    (flags : List Bool) :
    (popAll (buildHeap b flags)).Chain' (fun x y => y.score ≤ x.score) ∧
    ∀ x ∈ popAll (buildHeap b flags),
      ∃ c : Column, flags.getD c.toNat false = true ∧ x = b.score_move c :=
  ⟨popAllGo_chain _ _ (buildHeap_isHeap b flags),
    fun x hx => buildHeap_mem b flags x (popAllGo_subset _ _ x hx)⟩

/-- The 13 shift-AND terms of `compute_winning_position`, read at a
landing cell, are exactly the thirteen 4-in-a-row windows through that
cell (each window described by its three other cells). -/
theorem computeRaw_windows {p : Nat} (hP : p &&& BitBoard.BOARD_MASK = p)
    {c h : Nat} (hc : c < 7) (hh : h ≤ 5) :
    ((computeRaw p).testBit (7 * c + h) = true) ↔
      ((PB p (c:Int) ((h:Int)-1) ∧ PB p (c:Int) ((h:Int)-2) ∧ PB p (c:Int) ((h:Int)-3)) ∨
       (PB p ((c:Int)-1) h ∧ PB p ((c:Int)-2) h ∧ PB p ((c:Int)-3) h) ∨
       (PB p ((c:Int)-1) h ∧ PB p ((c:Int)-2) h ∧ PB p ((c:Int)+1) h) ∨
       (PB p ((c:Int)+1) h ∧ PB p ((c:Int)+2) h ∧ PB p ((c:Int)+3) h) ∨
       (PB p ((c:Int)+1) h ∧ PB p ((c:Int)+2) h ∧ PB p ((c:Int)-1) h) ∨
       (PB p ((c:Int)-1) ((h:Int)+1) ∧ PB p ((c:Int)-2) ((h:Int)+2) ∧
         PB p ((c:Int)-3) ((h:Int)+3)) ∨
       (PB p ((c:Int)-1) ((h:Int)+1) ∧ PB p ((c:Int)-2) ((h:Int)+2) ∧
         PB p ((c:Int)+1) ((h:Int)-1)) ∨
       (PB p ((c:Int)+1) ((h:Int)-1) ∧ PB p ((c:Int)+2) ((h:Int)-2) ∧
         PB p ((c:Int)+3) ((h:Int)-3)) ∨
       (PB p ((c:Int)+1) ((h:Int)-1) ∧ PB p ((c:Int)+2) ((h:Int)-2) ∧
         PB p ((c:Int)-1) ((h:Int)+1)) ∨
       (PB p ((c:Int)-1) ((h:Int)-1) ∧ PB p ((c:Int)-2) ((h:Int)-2) ∧
         PB p ((c:Int)-3) ((h:Int)-3)) ∨
       (PB p ((c:Int)-1) ((h:Int)-1) ∧ PB p ((c:Int)-2) ((h:Int)-2) ∧
         PB p ((c:Int)+1) ((h:Int)+1)) ∨
       (PB p ((c:Int)+1) ((h:Int)+1) ∧ PB p ((c:Int)+2) ((h:Int)+2) ∧
         PB p ((c:Int)+3) ((h:Int)+3)) ∨
       (PB p ((c:Int)+1) ((h:Int)+1) ∧ PB p ((c:Int)+2) ((h:Int)+2) ∧
         PB p ((c:Int)-1) ((h:Int)-1))) := by
  have hre : computeRaw p =
      (((((((((((((p <<< 1 &&& p <<< 2) &&& p <<< 3 |||
        (p <<< 7 &&& p <<< 14) &&& p <<< 21) |||
        (p <<< 7 &&& p <<< 14) &&& p >>> 7) |||
        (p >>> 7 &&& p >>> 14) &&& p >>> 21) |||
        (p >>> 7 &&& p >>> 14) &&& p <<< 7) |||
        (p <<< 6 &&& p <<< 12) &&& p <<< 18) |||
        (p <<< 6 &&& p <<< 12) &&& p >>> 6) |||
        (p >>> 6 &&& p >>> 12) &&& p >>> 18) |||
        (p >>> 6 &&& p >>> 12) &&& p <<< 6) |||
        (p <<< 8 &&& p <<< 16) &&& p <<< 24) |||
        (p <<< 8 &&& p <<< 16) &&& p >>> 8) |||
        (p >>> 8 &&& p >>> 16) &&& p >>> 24) |||
        (p >>> 8 &&& p >>> 16) &&& p <<< 8) := rfl
  rw [hre]
  simp only [Nat.testBit_lor, Bool.or_eq_true]
  rw [term_vertical hP hc hh, term_h_lll hP hc hh, term_h_llr hP hc hh,
    term_h_rrr hP hc hh, term_h_rrl hP hc hh, term_d1_lll hP hc hh,
    term_d1_llr hP hc hh, term_d1_rrr hP hc hh, term_d1_rrl hP hc hh,
    term_d2_lll hP hc hh, term_d2_llr hP hc hh, term_d2_rrr hP hc hh,
    term_d2_rrl hP hc hh]
  simp only [or_assoc]

/-- Under the invariant, `is_winning c` reads the raw 13-term winning bit at
the landing cell of column `c`. -/
theorem bit_is_winning_iff {b : BitBoard} (hb : BoardInv b) (c : Column) :
    b.is_winning c = true ↔
      (colHeight b.mask c ≤ 5 ∧
        (computeRaw b.pos).testBit (7 * c.toNat + colHeight b.mask c) = true) := by
  obtain ⟨h0, h1, h2, h3, h4, h5, h6, b0, b1, b2, b3, b4, b5, b6, hm, hpos, hn⟩ := hb
  have hmB : b.mask &&& BitBoard.BOARD_MASK = b.mask :=
    mask_land_BOARD ⟨h0, h1, h2, h3, h4, h5, h6, b0, b1, b2, b3, b4, b5, b6, hm, hpos, hn⟩
  have hH := colHeight_eq b0 b1 b2 b3 b4 b5 b6 hm c
  have hHle : [h0, h1, h2, h3, h4, h5, h6].getD c.toNat 0 ≤ 6 := by
    cases c <;>
      simp only [Column.toNat, List.getD_cons_zero, List.getD_cons_succ] <;> assumption
  have hc7 : c.toNat < 7 := by cases c <;> decide
  have hW : (b.possible_moves &&& b.winning_position) &&& BitBoard.BOARD_MASK =
      b.possible_moves &&& b.winning_position := by
    simp only [BitBoard.winning_position]
    rw [Nat.land_assoc, compute_land_BOARD hmB]
  rw [hH]
  constructor
  · intro hwin
    rw [BitBoard.is_winning, decide_eq_true_eq] at hwin
    obtain ⟨r, hr6, hbit⟩ := (and_colMask_ne_zero_iff hW c).mp hwin
    rw [Nat.testBit_land] at hbit
    obtain ⟨hpm, hwp⟩ := Bool.and_eq_true_iff.mp hbit
    rw [possible_moves_testBit b0 b1 b2 b3 b4 b5 b6 hm c r (by omega)] at hpm
    obtain ⟨hrH, hr5⟩ := of_decide_eq_true hpm
    rw [BitBoard.winning_position, compute_eq_raw, Nat.testBit_land] at hwp
    obtain ⟨hraw, hx⟩ := Bool.and_eq_true_iff.mp hwp
    subst hrH
    exact ⟨hr5, hraw⟩
  · rintro ⟨hH5, hraw⟩
    rw [BitBoard.is_winning, decide_eq_true_eq]
    refine (and_colMask_ne_zero_iff hW c).mpr
      ⟨[h0, h1, h2, h3, h4, h5, h6].getD c.toNat 0, by omega, ?_⟩
    rw [Nat.testBit_land]
    refine Bool.and_eq_true_iff.mpr ⟨?_, ?_⟩
    · rw [possible_moves_testBit b0 b1 b2 b3 b4 b5 b6 hm c
        ([h0, h1, h2, h3, h4, h5, h6].getD c.toNat 0) (by omega)]
      exact decide_eq_true ⟨rfl, hH5⟩
    · rw [BitBoard.winning_position, compute_eq_raw, Nat.testBit_land]
      refine Bool.and_eq_true_iff.mpr ⟨hraw, ?_⟩
      rw [Nat.testBit_xor,
        mask_testBit b0 b1 b2 b3 b4 b5 b6 hm c
          ([h0, h1, h2, h3, h4, h5, h6].getD c.toNat 0) (by omega), testBit_BOARD]
      have hmod : (7 * c.toNat + [h0, h1, h2, h3, h4, h5, h6].getD c.toNat 0) % 7 =
          [h0, h1, h2, h3, h4, h5, h6].getD c.toNat 0 := by
        omega
      rw [hmod]
      have hlt : ¬ ([h0, h1, h2, h3, h4, h5, h6].getD c.toNat 0 <
          [h0, h1, h2, h3, h4, h5, h6].getD c.toNat 0) := lt_irrefl _
      have hin : 7 * c.toNat + [h0, h1, h2, h3, h4, h5, h6].getD c.toNat 0 < 49 ∧
          [h0, h1, h2, h3, h4, h5, h6].getD c.toNat 0 < 6 := ⟨by omega, by omega⟩
      rw [decide_eq_false hlt, decide_eq_true hin]
      rfl

/-- Under the simulation, a slot holds the side to move exactly when the
`pos` bit of that cell is set. -/
theorem cell_player_iff {bb : BitBoard} {ab : ArrayBoard} (hrel : Sim bb ab)
    (x y : Nat) (hx : x < 7) (hy : y < 6) :
    (ab.slotAt y x = ab.get_current_player) ↔ bb.pos.testBit (7 * x + y) = true := by
  obtain ⟨h0, h1, h2, h3, h4, h5, h6, b0, b1, b2, b3, b4, b5, b6, hm, hpos, hn⟩ := hrel.inv
  have hcur : ab.get_current_player = bb.current_player := by
    rw [ArrayBoard.get_current_player, BitBoard.current_player, hrel.nm]
  have hflip : bb.current_player.flip ≠ bb.current_player := by
    rw [BitBoard.current_player]; split <;> decide
  have hemp : Slot.Empty ≠ bb.current_player := by
    rw [BitBoard.current_player]; split <;> decide
  rw [hrel.cell x y hx hy, hcur, cellOf]
  by_cases hmk : bb.mask.testBit (7 * x + y) = true
  · rw [if_pos hmk]
    by_cases hpk : bb.pos.testBit (7 * x + y) = true
    · rw [if_pos hpk]
      simp [hpk]
    · rw [if_neg hpk]
      exact iff_of_false hflip hpk
  · rw [if_neg hmk]
    have hpk : ¬ (bb.pos.testBit (7 * x + y) = true) :=
      fun h => hmk (testBit_of_land_eq hpos h)
    exact iff_of_false hemp hpk

/-- The walk counter reaches `j` exactly when the first `j` cells along the
ray are in-board cells of `player`. -/
theorem count_walk_ge_iff (ab : ArrayBoard) (player : Slot) (dx dy : Int) :
    ∀ (j fuel : Nat) (x y : Int), j ≤ fuel →
      (j ≤ ab.count_walk player fuel x y dx dy ↔
        ∀ i : Nat, i < j →
          (0 ≤ x + i * dx ∧ x + i * dx < (WIDTH : Int) ∧
            0 ≤ y + i * (dy * dx) ∧ y + i * (dy * dx) < (HEIGHT : Int)) ∧
          ab.slotAt (y + i * (dy * dx)).toNat (x + i * dx).toNat = player) := by
  intro j
  induction j with
  | zero =>
    intro fuel x y hjf
    constructor
    · intro h i hi
      omega
    · intro h
      omega
  | succ j ih =>
    intro fuel x y hjf
    obtain ⟨f, rfl⟩ : ∃ f, fuel = f + 1 := ⟨fuel - 1, by omega⟩
    have harg : ∀ i : Nat, x + ((i + 1 : Nat) : Int) * dx = (x + dx) + (i : Int) * dx := by
      intro i
      push_cast
      ring
    have harg2 : ∀ i : Nat,
        y + ((i + 1 : Nat) : Int) * (dy * dx) = (y + dy * dx) + (i : Int) * (dy * dx) := by
      intro i
      push_cast
      ring
    rw [ArrayBoard.count_walk]
    by_cases hg : 0 ≤ x ∧ x < (WIDTH : Int) ∧ 0 ≤ y ∧ y < (HEIGHT : Int)
    · rw [if_pos hg]
      by_cases hcell : ab.slotAt y.toNat x.toNat = player
      · rw [if_pos hcell]
        have hstep := ih f (x + dx) (y + dy * dx) (by omega)
        constructor
        · intro h i hi
          match i with
          | 0 =>
            refine ⟨by simpa using hg, by simpa using hcell⟩
          | i + 1 =>
            have hP := hstep.mp (by omega) i (by omega)
            rw [harg i, harg2 i]
            exact hP
        · intro h
          have hrec : j ≤ ab.count_walk player f (x + dx) (y + dy * dx) dx dy := by
            apply hstep.mpr
            intro i hij
            have hP := h (i + 1) (by omega)
            rw [harg i, harg2 i] at hP
            exact hP
          omega
      · rw [if_neg hcell]
        constructor
        · intro h
          omega
        · intro h
          have hP := h 0 (by omega)
          norm_num at hP
          exact absurd hP.2 hcell
    · rw [if_neg hg]
      constructor
      · intro h
        omega
      · intro h
        have hP := h 0 (by omega)
        norm_num at hP
        exact absurd hP.1 hg

/-- One walk step is good exactly when the bitboard has a current-player
stone at these coordinates. -/
theorem good_iff_PB {bb : BitBoard} {ab : ArrayBoard} (hrel : Sim bb ab) (X Y : Int) :
    ((0 ≤ X ∧ X < (WIDTH : Int) ∧ 0 ≤ Y ∧ Y < (HEIGHT : Int)) ∧
      ab.slotAt Y.toNat X.toNat = ab.get_current_player) ↔ PB bb.pos X Y := by
  have hW : ((WIDTH : Nat) : Int) = 7 := rfl
  have hH : ((HEIGHT : Nat) : Int) = 6 := rfl
  constructor
  · rintro ⟨⟨hx0, hx7, hy0, hy6⟩, hslot⟩
    rw [hW] at hx7
    rw [hH] at hy6
    have hbit := (cell_player_iff hrel X.toNat Y.toNat (by omega) (by omega)).mp hslot
    exact ⟨hx0, by omega, hy0, by omega, hbit⟩
  · rintro ⟨hx0, hx7, hy0, hy6, hbit⟩
    refine ⟨⟨hx0, by omega, hy0, by omega⟩, ?_⟩
    exact (cell_player_iff hrel X.toNat Y.toNat (by omega) (by omega)).mpr hbit

theorem forall_lt_one {P : Nat → Prop} : (∀ i, i < 1 → P i) ↔ P 0 := by
  constructor
  · intro h
    exact h 0 (by omega)
  · intro h i hi
    interval_cases i
    exact h

theorem forall_lt_two {P : Nat → Prop} : (∀ i, i < 2 → P i) ↔ P 0 ∧ P 1 := by
  constructor
  · intro h
    exact ⟨h 0 (by omega), h 1 (by omega)⟩
  · rintro ⟨p0, p1⟩ i hi
    interval_cases i <;> assumption

theorem forall_lt_three {P : Nat → Prop} : (∀ i, i < 3 → P i) ↔ P 0 ∧ P 1 ∧ P 2 := by
  constructor
  · intro h
    exact ⟨h 0 (by omega), h 1 (by omega), h 2 (by omega)⟩
  · rintro ⟨p0, p1, p2⟩ i hi
    interval_cases i <;> first | exact p0 | exact p1 | exact p2

/-- The two accumulated walks of one slope reach 3 exactly when one of the
four sliding windows through the landing cell is filled with
current-player stones. -/
theorem lineHit_iff {bb : BitBoard} {ab : ArrayBoard} (hrel : Sim bb ab)
    (col row : Nat) (dy : Int) :
    (3 ≤ ab.count_walk ab.get_current_player WIDTH
          ((col : Int) + (-1)) ((row : Int) + (-1) * dy) (-1) dy +
        ab.count_walk ab.get_current_player WIDTH
          ((col : Int) + 1) ((row : Int) + 1 * dy) 1 dy) ↔
      ((PB bb.pos ((col : Int) - 1) ((row : Int) - dy) ∧
          PB bb.pos ((col : Int) - 2) ((row : Int) - 2 * dy) ∧
          PB bb.pos ((col : Int) - 3) ((row : Int) - 3 * dy)) ∨
       (PB bb.pos ((col : Int) - 1) ((row : Int) - dy) ∧
          PB bb.pos ((col : Int) - 2) ((row : Int) - 2 * dy) ∧
          PB bb.pos ((col : Int) + 1) ((row : Int) + dy)) ∨
       (PB bb.pos ((col : Int) - 1) ((row : Int) - dy) ∧
          PB bb.pos ((col : Int) + 1) ((row : Int) + dy) ∧
          PB bb.pos ((col : Int) + 2) ((row : Int) + 2 * dy)) ∨
       (PB bb.pos ((col : Int) + 1) ((row : Int) + dy) ∧
          PB bb.pos ((col : Int) + 2) ((row : Int) + 2 * dy) ∧
          PB bb.pos ((col : Int) + 3) ((row : Int) + 3 * dy))) := by
  have hsplit : ∀ L R : Nat,
      (3 ≤ L + R) ↔ (3 ≤ L ∨ (2 ≤ L ∧ 1 ≤ R) ∨ (1 ≤ L ∧ 2 ≤ R) ∨ 3 ≤ R) := by
    intro L R
    omega
  rw [hsplit]
  have hL := fun (j : Nat) (hj : j ≤ WIDTH) =>
    count_walk_ge_iff ab ab.get_current_player (-1) dy j WIDTH
      ((col : Int) + (-1)) ((row : Int) + (-1) * dy) hj
  have hR := fun (j : Nat) (hj : j ≤ WIDTH) =>
    count_walk_ge_iff ab ab.get_current_player 1 dy j WIDTH
      ((col : Int) + 1) ((row : Int) + 1 * dy) hj
  rw [hL 3 (by decide), hL 2 (by decide), hL 1 (by decide),
    hR 1 (by decide), hR 2 (by decide), hR 3 (by decide),
    forall_lt_one, forall_lt_two, forall_lt_three, forall_lt_one, forall_lt_two,
    forall_lt_three]
  simp only [good_iff_PB hrel]
  push_cast
  ring_nf
  tauto

/-- The vertical check of the array scan is the vertical window of the
bitboard decomposition. -/
theorem vertical_iff {bb : BitBoard} {ab : ArrayBoard} (hrel : Sim bb ab)
    (col row : Nat) (hcol : col < 7) (hrow : row ≤ 5) :
    (3 ≤ row ∧ ab.slotAt (row - 1) col = ab.get_current_player ∧
        ab.slotAt (row - 2) col = ab.get_current_player ∧
        ab.slotAt (row - 3) col = ab.get_current_player) ↔
      (PB bb.pos (col : Int) ((row : Int) - 1) ∧
        PB bb.pos (col : Int) ((row : Int) - 2) ∧
        PB bb.pos (col : Int) ((row : Int) - 3)) := by
  by_cases h3 : 3 ≤ row
  · have e1 : ((row : Int) - 1) = ((row - 1 : Nat) : Int) := by omega
    have e2 : ((row : Int) - 2) = ((row - 2 : Nat) : Int) := by omega
    have e3 : ((row : Int) - 3) = ((row - 3 : Nat) : Int) := by omega
    rw [e1, e2, e3, PB_iff_testBit col (row - 1) hcol (by omega),
      PB_iff_testBit col (row - 2) hcol (by omega),
      PB_iff_testBit col (row - 3) hcol (by omega),
      ← cell_player_iff hrel col (row - 1) hcol (by omega),
      ← cell_player_iff hrel col (row - 2) hcol (by omega),
      ← cell_player_iff hrel col (row - 3) hcol (by omega)]
    simp [h3]
  · constructor
    · rintro ⟨h, -⟩
      exact absurd h h3
    · rintro ⟨-, -, h⟩
      exact absurd h.2.2.1 (by omega)

/-- Slope `dy = -1`, windows written in the order of the bit decomposition. -/
theorem lineHit_neg1_iff {bb : BitBoard} {ab : ArrayBoard} (hrel : Sim bb ab)
    (col row : Nat) :
    (3 ≤ ab.count_walk ab.get_current_player WIDTH
          ((col : Int) + (-1)) ((row : Int) + (-1) * (-1)) (-1) (-1) +
        ab.count_walk ab.get_current_player WIDTH
          ((col : Int) + 1) ((row : Int) + 1 * (-1)) 1 (-1)) ↔
      ((PB bb.pos ((col : Int) - 1) ((row : Int) + 1) ∧
          PB bb.pos ((col : Int) - 2) ((row : Int) + 2) ∧
          PB bb.pos ((col : Int) - 3) ((row : Int) + 3)) ∨
       (PB bb.pos ((col : Int) - 1) ((row : Int) + 1) ∧
          PB bb.pos ((col : Int) - 2) ((row : Int) + 2) ∧
          PB bb.pos ((col : Int) + 1) ((row : Int) - 1)) ∨
       (PB bb.pos ((col : Int) + 1) ((row : Int) - 1) ∧
          PB bb.pos ((col : Int) + 2) ((row : Int) - 2) ∧
          PB bb.pos ((col : Int) + 3) ((row : Int) - 3)) ∨
       (PB bb.pos ((col : Int) + 1) ((row : Int) - 1) ∧
          PB bb.pos ((col : Int) + 2) ((row : Int) - 2) ∧
          PB bb.pos ((col : Int) - 1) ((row : Int) + 1))) := by
  rw [lineHit_iff hrel col row (-1)]
  norm_num
  tauto

/-- Slope `dy = 0`, windows written in the order of the bit decomposition. -/
theorem lineHit_zero_iff {bb : BitBoard} {ab : ArrayBoard} (hrel : Sim bb ab)
    (col row : Nat) :
    (3 ≤ ab.count_walk ab.get_current_player WIDTH
          ((col : Int) + (-1)) ((row : Int) + (-1) * 0) (-1) 0 +
        ab.count_walk ab.get_current_player WIDTH
          ((col : Int) + 1) ((row : Int) + 1 * 0) 1 0) ↔
      ((PB bb.pos ((col : Int) - 1) (row : Int) ∧
          PB bb.pos ((col : Int) - 2) (row : Int) ∧
          PB bb.pos ((col : Int) - 3) (row : Int)) ∨
       (PB bb.pos ((col : Int) - 1) (row : Int) ∧
          PB bb.pos ((col : Int) - 2) (row : Int) ∧
          PB bb.pos ((col : Int) + 1) (row : Int)) ∨
       (PB bb.pos ((col : Int) + 1) (row : Int) ∧
          PB bb.pos ((col : Int) + 2) (row : Int) ∧
          PB bb.pos ((col : Int) + 3) (row : Int)) ∨
       (PB bb.pos ((col : Int) + 1) (row : Int) ∧
          PB bb.pos ((col : Int) + 2) (row : Int) ∧
          PB bb.pos ((col : Int) - 1) (row : Int))) := by
  rw [lineHit_iff hrel col row 0]
  norm_num
  tauto

/-- Slope `dy = 1`, windows written in the order of the bit decomposition. -/
theorem lineHit_one_iff {bb : BitBoard} {ab : ArrayBoard} (hrel : Sim bb ab)
    (col row : Nat) :
    (3 ≤ ab.count_walk ab.get_current_player WIDTH
          ((col : Int) + (-1)) ((row : Int) + (-1) * 1) (-1) 1 +
        ab.count_walk ab.get_current_player WIDTH
          ((col : Int) + 1) ((row : Int) + 1 * 1) 1 1) ↔
      ((PB bb.pos ((col : Int) - 1) ((row : Int) - 1) ∧
          PB bb.pos ((col : Int) - 2) ((row : Int) - 2) ∧
          PB bb.pos ((col : Int) - 3) ((row : Int) - 3)) ∨
       (PB bb.pos ((col : Int) - 1) ((row : Int) - 1) ∧
          PB bb.pos ((col : Int) - 2) ((row : Int) - 2) ∧
          PB bb.pos ((col : Int) + 1) ((row : Int) + 1)) ∨
       (PB bb.pos ((col : Int) + 1) ((row : Int) + 1) ∧
          PB bb.pos ((col : Int) + 2) ((row : Int) + 2) ∧
          PB bb.pos ((col : Int) + 3) ((row : Int) + 3)) ∨
       (PB bb.pos ((col : Int) + 1) ((row : Int) + 1) ∧
          PB bb.pos ((col : Int) + 2) ((row : Int) + 2) ∧
          PB bb.pos ((col : Int) - 1) ((row : Int) - 1))) := by
  rw [lineHit_iff hrel col row 1]
  norm_num
  tauto

/-- Propositional rearrangement of the thirteen windows between the scan
order (vertical, diagonal 1, horizontal, diagonal 2) and the bit order. -/
theorem or_shuffle {V a b c d e f g h i j k l : Prop} :
    (((V ∨ (a ∨ b ∨ c ∨ d)) ∨ (e ∨ f ∨ g ∨ h)) ∨ (i ∨ j ∨ k ∨ l)) ↔
      (V ∨ e ∨ f ∨ g ∨ h ∨ a ∨ b ∨ c ∨ d ∨ i ∨ j ∨ k ∨ l) := by
  tauto

/-- Under the simulation, the array line scan and the bit-parallel test
agree on every column. -/
theorem is_winning_agrees {bb : BitBoard} {ab : ArrayBoard} (hrel : Sim bb ab)
    (c : Column) : ab.is_winning c = bb.is_winning c := by
  have hb := hrel.inv
  have hc7 : c.toNat < 7 := by cases c <;> decide
  have hH := hrel.hgt c
  have hpa : ab.is_playable c = true ↔ colHeight bb.mask c ≤ 5 := by
    rw [ArrayBoard.is_playable, decide_eq_true_eq, hH]
    have h6 : (HEIGHT : Nat) = 6 := rfl
    omega
  by_cases hH5 : colHeight bb.mask c ≤ 5
  · have hplay : ab.is_playable c = true := hpa.mpr hH5
    have hiff : ab.is_winning c = true ↔ bb.is_winning c = true := by
      rw [bit_is_winning_iff hb c,
        @computeRaw_windows bb.pos (pos_land_BOARD hb) c.toNat
          (colHeight bb.mask c) hc7 hH5,
        ArrayBoard.is_winning, if_neg (not_not_intro hplay)]
      simp only [Bool.or_eq_true, decide_eq_true_eq]
      rw [hH]
      rw [vertical_iff hrel c.toNat (colHeight bb.mask c) hc7 hH5,
        lineHit_neg1_iff hrel c.toNat (colHeight bb.mask c),
        lineHit_zero_iff hrel c.toNat (colHeight bb.mask c),
        lineHit_one_iff hrel c.toNat (colHeight bb.mask c)]
      simp only [hH5, true_and]
      exact or_shuffle
    cases hx : ab.is_winning c
    · cases hy : bb.is_winning c
      · rfl
      · exact absurd (hiff.mpr hy) (by rw [hx]; exact Bool.false_ne_true)
    · exact (hiff.mp hx).symm
  · have hpw : bb.is_winning c = false := by
      cases hx : bb.is_winning c
      · rfl
      · exact absurd ((bit_is_winning_iff hb c).mp hx).1 hH5
    have hpna : ¬ (ab.is_playable c = true) := fun h => hH5 (hpa.mp h)
    have hpaw : ab.is_winning c = false := by
      rw [ArrayBoard.is_winning, if_pos hpna]
    rw [hpaw, hpw]

theorem Slot.flip_flip : ∀ s : Slot, s.flip.flip = s := by
  intro s
  cases s <;> rfl

theorem exists_column {x : Nat} (hx : x < 7) : ∃ d : Column, d.toNat = x := by
  interval_cases x
  · exact ⟨Column.A, rfl⟩
  · exact ⟨Column.B, rfl⟩
  · exact ⟨Column.C, rfl⟩
  · exact ⟨Column.D, rfl⟩
  · exact ⟨Column.E, rfl⟩
  · exact ⟨Column.F, rfl⟩
  · exact ⟨Column.G, rfl⟩

/-- Playing flips the side to move. -/
theorem current_player_play (bb : BitBoard) (c : Column) :
    (bb.play c).current_player = bb.current_player.flip := by
  show (if (bb.n_moves + 1) % 2 = 0 then Slot.P1 else Slot.P2) = _
  rw [BitBoard.current_player]
  by_cases he : bb.n_moves % 2 = 0
  · have h2 : ¬ ((bb.n_moves + 1) % 2 = 0) := by omega
    rw [if_pos he, if_neg h2]
    rfl
  · have h2 : (bb.n_moves + 1) % 2 = 0 := by omega
    rw [if_neg he, if_pos h2]
    rfl

/-- Playing a column writes the mover's stone at the landing cell and
leaves every other cell unchanged. -/
theorem cellOf_play {bb : BitBoard} (hb : BoardInv bb) (c : Column)
    (hp : bb.is_playable c = true) (x y : Nat) (hx : x < 7) (hy : y < 6) :
    cellOf (bb.play c) x y =
      (if x = c.toNat ∧ y = colHeight bb.mask c then bb.current_player
        else cellOf bb x y) := by
  obtain ⟨hinv2, hmask2, hH5, hnm2, hch2⟩ := boardInv_play hb c hp
  obtain ⟨h0, h1, h2, h3, h4, h5, h6, b0, b1, b2, b3, b4, b5, b6, hm, hpos, hn⟩ := hb
  obtain ⟨g0, g1, g2, g3, g4, g5, g6, c0, c1, c2, c3, c4, c5, c6, hm2, hpos2, hn2⟩ := hinv2
  obtain ⟨d, rfl⟩ : ∃ d : Column, d.toNat = x := exists_column hx
  have hmb := mask_testBit b0 b1 b2 b3 b4 b5 b6 hm d y (by omega)
  have hmb2 := mask_testBit c0 c1 c2 c3 c4 c5 c6 hm2 d y (by omega)
  have hHd := colHeight_eq b0 b1 b2 b3 b4 b5 b6 hm d
  have hHd2 := colHeight_eq c0 c1 c2 c3 c4 c5 c6 hm2 d
  have hchd := hch2 d
  have hpose : (bb.play c).pos = bb.pos ^^^ bb.mask := rfl
  rw [cellOf, cellOf, hpose, current_player_play, hmb, hmb2, ← hHd, ← hHd2, hchd]
  simp only [decide_eq_true_eq]
  by_cases hdc : d = c
  · subst hdc
    rw [if_pos rfl]
    by_cases hyH : y = colHeight bb.mask d
    · subst hyH
      rw [if_pos (show d.toNat = d.toNat ∧ colHeight bb.mask d = colHeight bb.mask d from
          ⟨rfl, rfl⟩),
        if_pos (show colHeight bb.mask d < colHeight bb.mask d + 1 by omega)]
      have hmb0 : bb.mask.testBit (7 * d.toNat + colHeight bb.mask d) = false := by
        rw [hmb, ← hHd]
        exact decide_eq_false (lt_irrefl _)
      have hpb0 : bb.pos.testBit (7 * d.toNat + colHeight bb.mask d) = false := by
        cases hpb : bb.pos.testBit (7 * d.toNat + colHeight bb.mask d)
        · rfl
        · exact absurd (testBit_of_land_eq hpos hpb) (by rw [hmb0]; exact Bool.false_ne_true)
      have hxorb : (bb.pos ^^^ bb.mask).testBit (7 * d.toNat + colHeight bb.mask d) = false := by
        rw [Nat.testBit_xor, hpb0, hmb0]
        rfl
      rw [hxorb, if_neg Bool.false_ne_true, Slot.flip_flip]
    · rw [if_neg (show ¬ (d.toNat = d.toNat ∧ y = colHeight bb.mask d) from
          fun h => hyH h.2)]
      by_cases hyl : y < colHeight bb.mask d
      · rw [if_pos (show y < colHeight bb.mask d + 1 by omega), if_pos hyl]
        have hmbT : bb.mask.testBit (7 * d.toNat + y) = true := by
          rw [hmb, ← hHd]
          exact decide_eq_true hyl
        have hxor : (bb.pos ^^^ bb.mask).testBit (7 * d.toNat + y) =
            !(bb.pos.testBit (7 * d.toNat + y)) := by
          rw [Nat.testBit_xor, hmbT]
          cases bb.pos.testBit (7 * d.toNat + y) <;> rfl
        rw [hxor]
        cases hpb : bb.pos.testBit (7 * d.toNat + y) <;> simp [Slot.flip_flip]
      · rw [if_neg (show ¬ (y < colHeight bb.mask d + 1) by omega), if_neg hyl]
  · rw [if_neg hdc, if_neg (show ¬ (d.toNat = c.toNat ∧ y = colHeight bb.mask c) from
        fun h => hdc (Column.toNat_inj h.1))]
    by_cases hyl : y < colHeight bb.mask d
    · rw [if_pos hyl, if_pos hyl]
      have hmbT : bb.mask.testBit (7 * d.toNat + y) = true := by
        rw [hmb, ← hHd]
        exact decide_eq_true hyl
      have hxor : (bb.pos ^^^ bb.mask).testBit (7 * d.toNat + y) =
          !(bb.pos.testBit (7 * d.toNat + y)) := by
        rw [Nat.testBit_xor, hmbT]
        cases bb.pos.testBit (7 * d.toNat + y) <;> rfl
      rw [hxor]
      cases hpb : bb.pos.testBit (7 * d.toNat + y) <;> simp [Slot.flip_flip]
    · rw [if_neg hyl, if_neg hyl]

/-- A legal move (playable, not immediately winning) keeps the two
implementations in lockstep. -/
theorem sim_play {bb : BitBoard} {ab : ArrayBoard} (hrel : Sim bb ab) (c : Column)
    (hp : bb.is_playable c = true) (hw : bb.is_winning c = false) :
    Sim (bb.play c) (ab.play c) := by
  have hb := hrel.inv
  have hc7 : c.toNat < 7 := by cases c <;> decide
  obtain ⟨hinv2, hmask2, hH5, hnm2, hch2⟩ := boardInv_play hb c hp
  have hH := hrel.hgt c
  have hpaA : ab.is_playable c = true := by
    rw [ArrayBoard.is_playable, decide_eq_true_eq, hH]
    have h6 : (HEIGHT : Nat) = 6 := rfl
    have := (is_playable_colHeight hb c).mp hp
    omega
  have hwa : ab.is_winning c = false := by
    rw [is_winning_agrees hrel c]
    exact hw
  have hguard : ¬ (¬ (ab.is_playable c = true) ∨ ab.is_winning c = true) := by
    rw [hpaA, hwa]
    simp
  have hplayA : ab.play c =
      ⟨ab.setSlot (ab.height.getD c.toNat 0) c.toNat ab.get_current_player,
        ab.height.set c.toNat (ab.height.getD c.toNat 0 + 1), ab.n_moves + 1⟩ := by
    rw [ArrayBoard.play, if_neg hguard]
  have hrowlt : ab.height.getD c.toNat 0 < ab.slots.length := by
    rw [hrel.slen, hH]
    have := (is_playable_colHeight hb c).mp hp
    omega
  have hrowmem : ab.slots.getD (ab.height.getD c.toNat 0) [] ∈ ab.slots := by
    rw [List.getD_eq_getElem?_getD, List.getElem?_eq_getElem hrowlt]
    exact List.getElem_mem hrowlt
  have hrowlen : (ab.slots.getD (ab.height.getD c.toNat 0) []).length = 7 :=
    hrel.rlen _ hrowmem
  have hcurAB : ab.get_current_player = bb.current_player := by
    rw [ArrayBoard.get_current_player, BitBoard.current_player, hrel.nm]
  refine ⟨hinv2, ?_, ?_, ?_, ?_, ?_, ?_⟩
  · rw [hplayA, hnm2, hrel.nm]
  · rw [hplayA]
    show (ab.height.set c.toNat (ab.height.getD c.toNat 0 + 1)).length = 7
    rw [List.length_set, hrel.hlen]
  · intro d
    rw [hplayA, hch2 d]
    show (ab.height.set c.toNat (ab.height.getD c.toNat 0 + 1)).getD d.toNat 0 = _
    by_cases hdc : d = c
    · subst hdc
      rw [if_pos rfl, List.getD_eq_getElem?_getD,
        List.getElem?_set_eq (by rw [hrel.hlen]; omega), Option.getD_some, hH]
    · have hne : c.toNat ≠ d.toNat := fun h => hdc (Column.toNat_inj h.symm)
      rw [if_neg hdc, List.getD_eq_getElem?_getD, List.getElem?_set_ne hne,
        ← List.getD_eq_getElem?_getD]
      exact hrel.hgt d
  · rw [hplayA]
    show (ab.setSlot (ab.height.getD c.toNat 0) c.toNat ab.get_current_player).length = 6
    rw [ArrayBoard.setSlot, List.length_set, hrel.slen]
  · intro r hr
    rw [hplayA] at hr
    replace hr : r ∈ ab.setSlot (ab.height.getD c.toNat 0) c.toNat ab.get_current_player := hr
    rw [ArrayBoard.setSlot] at hr
    rcases List.mem_or_eq_of_mem_set hr with hmem | rfl
    · exact hrel.rlen r hmem
    · rw [List.length_set]
      exact hrowlen
  · intro x y hxb hyb
    rw [cellOf_play hb c hp x y hxb hyb]
    rw [hplayA]
    show ((ab.setSlot (ab.height.getD c.toNat 0) c.toNat
        ab.get_current_player).getD y []).getD x Slot.Empty = _
    rw [ArrayBoard.setSlot]
    by_cases hyr : y = ab.height.getD c.toNat 0
    · subst hyr
      rw [List.getD_eq_getElem?_getD, List.getD_eq_getElem?_getD,
        List.getElem?_set_eq hrowlt, Option.getD_some]
      by_cases hxc : x = c.toNat
      · subst hxc
        rw [List.getElem?_set_eq (by rw [hrowlen]; omega), Option.getD_some,
          if_pos (show c.toNat = c.toNat ∧
              ab.height.getD c.toNat 0 = colHeight bb.mask c from ⟨rfl, hH⟩), hcurAB]
      · have hne : c.toNat ≠ x := fun h => hxc h.symm
        rw [List.getElem?_set_ne hne, ← List.getD_eq_getElem?_getD,
          if_neg (show ¬ (x = c.toNat ∧ ab.height.getD c.toNat 0 = colHeight bb.mask c) from
            fun h => hxc h.1)]
        exact hrel.cell x (ab.height.getD c.toNat 0) hxb (by omega)
    · have hne : ab.height.getD c.toNat 0 ≠ y := fun h => hyr h.symm
      rw [List.getD_eq_getElem?_getD, List.getD_eq_getElem?_getD,
        List.getElem?_set_ne hne, ← List.getD_eq_getElem?_getD,
        ← List.getD_eq_getElem?_getD,
        if_neg (show ¬ (x = c.toNat ∧ y = colHeight bb.mask c) from
          fun h => hyr (by rw [h.2, ← hH]))]
      exact hrel.cell x y hxb hyb

/-- The fresh boards are in lockstep. -/
theorem sim_new : Sim BitBoard.new ArrayBoard.new := by
  refine ⟨boardInv_new, rfl, rfl, ?_, rfl, ?_, ?_⟩
  · intro c
    cases c <;> decide
  · intro r hr
    have := List.eq_of_mem_replicate hr
    subst this
    rfl
  · intro x y hx hy
    interval_cases x <;> interval_cases y <;> decide

/-- Legal play keeps the boards in lockstep along a whole sequence. -/
theorem sim_fromSeq_aux :
    ∀ (s : List Column) (bb : BitBoard) (ab : ArrayBoard), Sim bb ab →
      legalSeq bb s = true →
      Sim (s.foldl BitBoard.play bb) (s.foldl ArrayBoard.play ab) := by
  intro s
  induction s with
  | nil => intro bb ab h hs; exact h
  | cons c cs ih =>
    intro bb ab h hs
    rw [legalSeq] at hs
    simp only [Bool.and_eq_true, Bool.not_eq_true'] at hs
    obtain ⟨⟨hp, hw⟩, hrest⟩ := hs
    rw [List.foldl_cons, List.foldl_cons]
    exact ih (bb.play c) (ab.play c) (sim_play h c hp hw) hrest

theorem sim_fromSeq {s : List Column} (hs : legalSeq BitBoard.new s = true) :
    Sim (BitBoard.fromSeq s) (ArrayBoard.fromSeq s) :=
  sim_fromSeq_aux s BitBoard.new ArrayBoard.new sim_new hs

/-- C2 (amended): for every move sequence **legal** from the empty board
(each move playable and never played onto a position already won) and for
every column, the bit-parallel `BitBoard::is_winning` agrees with the naive
array line scan `ArrayBoard::is_winning` on the boards built from that same
sequence.  For merely *playable* sequences the equivalence fails (see the
counterexample): `ArrayBoard::play` validates and skips a winning move that
`BitBoard::play` happily plays, after which the boards diverge. -/
theorem c2_win_detection_equivalence (s : List Column)
    (hs : legalSeq BitBoard.new s = true) (c : Column) :
    (ArrayBoard.fromSeq s).is_winning c = (BitBoard.fromSeq s).is_winning c :=
  is_winning_agrees (sim_fromSeq hs) c

theorem c2_win_detection_equivalence_witness :
    legalSeq BitBoard.new [Column.D, Column.E, Column.D, Column.E, Column.D,
      Column.E] = true ∧
    (ArrayBoard.fromSeq [Column.D, Column.E, Column.D, Column.E, Column.D,
        Column.E]).is_winning Column.D =
      (BitBoard.fromSeq [Column.D, Column.E, Column.D, Column.E, Column.D,
        Column.E]).is_winning Column.D ∧
    (BitBoard.fromSeq [Column.D, Column.E, Column.D, Column.E, Column.D,
      Column.E]).is_winning Column.D = true :=
  ⟨by decide,
   c2_win_detection_equivalence
     [Column.D, Column.E, Column.D, Column.E, Column.D, Column.E] (by decide) Column.D,
   by decide⟩
